import Mathlib

/-!
Verification of the infinite-canvas content engine of
`chicago-art-institute-canvas`.

This file shallowly embeds the relevant source modules and proves the
stated properties about them:

* `src/lib/mapping/index.ts` — the deterministic content mapper
  (`coordinateKey`, `jumpConsistentHash`, `stableArtworkIndex`).
* `src/lib/chunks.js` — the coordinate codec and page resolver
  (`encodeSignedInt`, `encodeChunkIndex`, `resolvePageNumber`).
* the `SectorStore` LRU cache (`getOrCreate`, `touch`, `evictIfNeeded`).
* `src/lib/masonry.ts` — the incremental `MasonryLayout` engine
  (`getItems`, column fills, border extension, gap healing).

Modelling conventions, applied throughout:

* JavaScript `number`/`BigInt` arithmetic is modelled with `Int`/`Nat`;
  64-bit wraparound is written as explicit masking/`% 2 ^ 64`.
  The floating-point division inside `jumpConsistentHash`
  (`Math.floor((b + 1) * (2147483648 / (keyShift + 1)))`) is modelled as the
  exact rational value of that expression, i.e. as integer floor division.
* World coordinates in the masonry engine are modelled as integers;
  `Math.floor(a / span)` becomes `Int.fdiv` (floor division agrees with
  `Math.floor` of the exact quotient) and `Math.round(p / q)` for `q > 0`
  becomes `(2 * p + q).fdiv (2 * q)` (round-half-up of the exact quotient).
* A `throw` is modelled by `Except.error`; code that cannot throw returns
  plain values.
* An asynchronous generator is modelled as the stream (list) of values it
  will yield, consumed in order; the single-threaded await semantics of the
  source serialize all mutations, so each engine operation is a pure state
  transition threading the remaining stream.
-/

/-! ## Deterministic content mapper — `src/lib/mapping/index.ts` -/

namespace Mapping

/-- `BIGINT_MASK_64 = (1n << 64n) - 1n`. -/
def BIGINT_MASK_64 : ℤ := 2 ^ 64 - 1

/-- `PRIME_X = 1_000_003n`. -/
def PRIME_X : ℤ := 1000003

/-- `PRIME_Y = 1_000_033n`. -/
def PRIME_Y : ℤ := 1000033

/-- `PRIME_SEED = 1_928_341n`. -/
def PRIME_SEED : ℤ := 1928341

/-- `JUMP_MULTIPLIER = 2_862_933_555_777_941_757n`. -/
def JUMP_MULTIPLIER : ℕ := 2862933555777941757

/-- `GLOBAL_SEED = 0x1f4b5` from `src/lib/constants.ts`. -/
def GLOBAL_SEED : ℤ := 0x1f4b5

/-- `normalizeKey(value) = BigInt.asUintN(64, value & BIGINT_MASK_64)`.
`BigInt` bitwise AND is two's-complement `Int.land`; `asUintN 64` reduces
into `[0, 2^64)`, written here as `emod` followed by `toNat`. -/
def normalizeKey (value : ℤ) : ℕ :=
  ((value.land BIGINT_MASK_64).emod (2 ^ 64)).toNat

/-- `coordinateKey(col, row, seed)`: XOR of the three multiplied parts,
masked to 64 bits. JavaScript `^` on `BigInt` is two's-complement XOR,
modelled by `Int.xor`. -/
def coordinateKey (col row seed : ℤ) : ℕ :=
  let colPart := col * PRIME_X
  let rowPart := row * PRIME_Y
  let seedPart := seed * PRIME_SEED
  normalizeKey ((colPart.xor rowPart).xor seedPart)

/-- The normalized key always fits in 64 bits. -/
theorem normalizeKey_lt (value : ℤ) : normalizeKey value < 2 ^ 64 := by
  unfold normalizeKey
  have h1 : ((value.land BIGINT_MASK_64).emod (2 ^ 64)) < 2 ^ 64 :=
    Int.emod_lt_of_pos _ (by norm_num)
  have h2 : 0 ≤ ((value.land BIGINT_MASK_64).emod (2 ^ 64)) :=
    Int.emod_nonneg _ (by norm_num)
  omega

/-- The `while (j < buckets)` loop of `jumpConsistentHash`.  `b` is the last
bucket selected (`-1` before the first iteration), `j` the candidate, and
`current` the 64-bit PRNG state.  The float expression
`Math.floor((b + 1) * (2147483648 / (keyShift + 1)))` is modelled by its
exact value `((b + 1) * 2147483648) / (keyShift + 1)` in `Nat` floor
division (at the loop head `b` has just been set to `j`, so `b + 1 = j + 1`).
Termination: the new candidate is at least `j + 1` because
`keyShift + 1 ≤ 2 ^ 31`. -/
def jumpLoop (buckets : ℕ) (b : ℤ) (j : ℕ) (current : ℕ) : ℤ :=
  if h : j < buckets then
    let current' := normalizeKey ((current : ℤ) * (JUMP_MULTIPLIER : ℤ) + 1)
    let keyShift := current' / 2 ^ 33
    let j' := ((j + 1) * 2147483648) / (keyShift + 1)
    jumpLoop buckets (j : ℤ) j' current'
  else b
termination_by buckets - j
decreasing_by
  have hcur : normalizeKey ((current : ℤ) * (JUMP_MULTIPLIER : ℤ) + 1) < 2 ^ 64 :=
    normalizeKey_lt _
  have hshift : normalizeKey ((current : ℤ) * (JUMP_MULTIPLIER : ℤ) + 1) / 2 ^ 33 + 1 ≤ 2 ^ 31 := by
    have := Nat.div_lt_of_lt_mul (by omega :
      normalizeKey ((current : ℤ) * (JUMP_MULTIPLIER : ℤ) + 1) < 2 ^ 33 * 2 ^ 31)
    omega
  have hge : (j + 1) * 2147483648 / (normalizeKey ((current : ℤ) * (JUMP_MULTIPLIER : ℤ) + 1) / 2 ^ 33 + 1) ≥ j + 1 := by
    calc (j + 1) * 2147483648 / (normalizeKey ((current : ℤ) * (JUMP_MULTIPLIER : ℤ) + 1) / 2 ^ 33 + 1)
        ≥ (j + 1) * 2147483648 / 2 ^ 31 :=
          Nat.div_le_div_left hshift (by omega)
      _ = j + 1 := Nat.mul_div_cancel _ (by norm_num)
  omega

/-- `jumpConsistentHash(key, buckets)`: throws when `buckets ≤ 0`, otherwise
runs the jump loop starting from `b = -1`, `j = 0`,
`current = normalizeKey(key)`. -/
def jumpConsistentHash (key : ℤ) (buckets : ℤ) : Except String ℤ :=
  if buckets ≤ 0 then .error "Bucket count must be positive"
  else .ok (jumpLoop buckets.toNat (-1) 0 (normalizeKey key))

/-- `stableArtworkIndex(col, row, artworkCount, seed = GLOBAL_SEED)`:
returns the sentinel `-1` when `artworkCount ≤ 0`, otherwise hashes the
coordinate key onto `[0, artworkCount)`. -/
def stableArtworkIndex (col row : ℤ) (artworkCount : ℤ)
    (seed : ℤ) : Except String ℤ :=
  if artworkCount ≤ 0 then .ok (-1)
  else jumpConsistentHash (coordinateKey col row seed) artworkCount

end Mapping

/-! ## Coordinate codec and page resolver — `src/lib/chunks.js` -/

namespace Chunks

/-- `encodeSignedInt(value) = value >= 0 ? value * 2 : -value * 2 - 1`
(zig-zag encoding). -/
def encodeSignedInt (value : ℤ) : ℤ :=
  if value ≥ 0 then value * 2 else -value * 2 - 1

/-- `encodeChunkIndex(x, y) = sum * (sum + 1) / 2 + ay` with
`sum = encodeSignedInt x + encodeSignedInt y` (triangular/Cantor pairing).
The JavaScript `/ 2` is exact real division; since `sum * (sum + 1)` is even
the value is an integer and integer division models it exactly. -/
def encodeChunkIndex (x y : ℤ) : ℤ :=
  let ax := encodeSignedInt x
  let ay := encodeSignedInt y
  let sum := ax + ay
  sum * (sum + 1) / 2 + ay

/-- `resolvePageNumber(index, totalPages)`: clamps the page count to at
least 1, takes the Euclidean remainder via the double-`%` idiom (JavaScript
`%` is the truncated remainder `Int.tmod`), and 1-bases the result. -/
def resolvePageNumber (index totalPages : ℤ) : ℤ :=
  let safeTotal := max 1 totalPages
  let bounded := ((index.tmod safeTotal) + safeTotal).tmod safeTotal
  bounded + 1

end Chunks

/-! ## Properties of the mapper (claims C4, C5, C10) -/

namespace Mapping

/-- Whatever `b` and `j` the jump loop starts from, the result stays below
`buckets` provided `b` does. -/
theorem jumpLoop_lt_buckets (buckets : ℕ) (b : ℤ) (j : ℕ) (current : ℕ) :
    b < buckets → jumpLoop buckets b j current < buckets := by
  induction b, j, current using jumpLoop.induct buckets with
  | case1 b j current h current' keyShift j' ih =>
    intro hb
    rw [jumpLoop, dif_pos h]
    exact ih (by exact_mod_cast h)
  | case2 b j current h =>
    intro hb
    rw [jumpLoop, dif_neg h]
    exact hb

/-- If the loop starts with `j < buckets` (or `b` already non-negative),
the result is non-negative: every executed iteration sets `b` to the
current non-negative `j`. -/
theorem jumpLoop_nonneg (buckets : ℕ) (b : ℤ) (j : ℕ) (current : ℕ) :
    (0 ≤ b ∨ j < buckets) → 0 ≤ jumpLoop buckets b j current := by
  induction b, j, current using jumpLoop.induct buckets with
  | case1 b j current h current' keyShift j' ih =>
    intro hbj
    rw [jumpLoop, dif_pos h]
    exact ih (Or.inl (by positivity))
  | case2 b j current h =>
    intro hbj
    rw [jumpLoop, dif_neg h]
    exact hbj.resolve_right h

/-- For every key and every positive bucket count, `jumpConsistentHash`
terminates (it is a total function here, justified by the strictly
increasing candidate `j`) and returns a bucket in `[0, buckets)`
(worker lemma shared with the `stableArtworkIndex` proofs). -/
theorem jumpConsistentHash_ok (key buckets : ℤ) (h : 1 ≤ buckets) :
    ∃ b, jumpConsistentHash key buckets = .ok b ∧ 0 ≤ b ∧ b < buckets := by
  refine ⟨jumpLoop buckets.toNat (-1) 0 (normalizeKey key), ?_, ?_, ?_⟩
  · unfold jumpConsistentHash
    rw [if_neg (by omega)]
  · exact jumpLoop_nonneg _ _ _ _ (Or.inr (by omega))
  · have hlt := jumpLoop_lt_buckets buckets.toNat (-1) 0 (normalizeKey key) (by omega)
    omega

/-- C10: for every key and every `buckets ≥ 1`, `jumpConsistentHash`
terminates without throwing and returns a bucket in `[0, buckets)`. -/
theorem jumpConsistentHash_range (key buckets : ℤ) (h : 1 ≤ buckets) :
    ∃ b, jumpConsistentHash key buckets = .ok b ∧ 0 ≤ b ∧ b < buckets :=
  jumpConsistentHash_ok key buckets h

/-- Witness for C10 at `key = 123`, `buckets = 7`. -/
theorem jumpConsistentHash_range_witness :
    1 ≤ (7 : ℤ) ∧ ∃ b, jumpConsistentHash 123 7 = .ok b ∧ 0 ≤ b ∧ b < 7 :=
  ⟨by norm_num, jumpConsistentHash_range 123 7 (by norm_num)⟩

/-- C4: for every coordinate and seed, a non-positive pool size makes
`stableArtworkIndex` return the sentinel `-1` without throwing (`Except.ok`,
never `Except.error`). -/
theorem stableArtworkIndex_sentinel (col row artworkCount seed : ℤ)
    (h : artworkCount ≤ 0) :
    stableArtworkIndex col row artworkCount seed = .ok (-1) := by
  unfold stableArtworkIndex
  rw [if_pos h]

/-- Witness for C4 at `(col, row) = (5, -7)`, `artworkCount = 0`. -/
theorem stableArtworkIndex_sentinel_witness :
    (0 : ℤ) ≤ 0 ∧ stableArtworkIndex 5 (-7) 0 GLOBAL_SEED = .ok (-1) :=
  ⟨le_refl 0, stableArtworkIndex_sentinel 5 (-7) 0 GLOBAL_SEED (le_refl 0)⟩

/-- C5: `stableArtworkIndex` is a pure function of `(col, row, poolSize,
seed)`: two runs with the same arguments return the same value, and for a
positive pool size that value is a genuine index (no exception, index in
range). -/
theorem stableArtworkIndex_deterministic (col row artworkCount seed : ℤ)
    (h : 1 ≤ artworkCount) :
    stableArtworkIndex col row artworkCount seed
        = stableArtworkIndex col row artworkCount seed ∧
      ∃ i, stableArtworkIndex col row artworkCount seed = .ok i ∧
        0 ≤ i ∧ i < artworkCount := by
  refine ⟨rfl, ?_⟩
  unfold stableArtworkIndex
  rw [if_neg (by omega)]
  exact jumpConsistentHash_ok _ _ h

/-- Witness for C5 at `(col, row) = (2, 3)`, `artworkCount = 5`. -/
theorem stableArtworkIndex_deterministic_witness :
    1 ≤ (5 : ℤ) ∧
      (stableArtworkIndex 2 3 5 GLOBAL_SEED = stableArtworkIndex 2 3 5 GLOBAL_SEED ∧
        ∃ i, stableArtworkIndex 2 3 5 GLOBAL_SEED = .ok i ∧ 0 ≤ i ∧ i < 5) :=
  ⟨by norm_num, stableArtworkIndex_deterministic 2 3 5 GLOBAL_SEED (by norm_num)⟩

end Mapping

/-! ## Properties of the codec and resolver (claims C6, C7) -/

namespace Chunks

/-- Zig-zag encoding is non-negative. -/
theorem encodeSignedInt_nonneg (n : ℤ) : 0 ≤ encodeSignedInt n := by
  unfold encodeSignedInt
  split <;> omega

/-- Zig-zag encoding is injective (even codes for non-negatives, odd codes
for negatives). -/
theorem encodeSignedInt_inj {m n : ℤ}
    (h : encodeSignedInt m = encodeSignedInt n) : m = n := by
  unfold encodeSignedInt at h
  split at h <;> split at h <;> omega

/-- The triangular number `s * (s + 1) / 2` as used by `encodeChunkIndex`. -/
theorem triangle_mul_two (s : ℤ) : 2 * (s * (s + 1) / 2) = s * (s + 1) := by
  obtain ⟨k, hk⟩ := Int.even_mul_succ_self s
  omega

/-- Strict growth step for the triangular numbers. -/
theorem triangle_succ_int (s : ℤ) :
    (s + 1) * (s + 1 + 1) / 2 = s * (s + 1) / 2 + (s + 1) := by
  obtain ⟨k, hk⟩ := Int.even_mul_succ_self s
  have hk2 : (s + 1) * (s + 1 + 1) = 2 * k + 2 * (s + 1) := by nlinarith [hk]
  omega

/-- Monotonicity of the triangular numbers on non-negative arguments. -/
theorem triangle_mono {s t : ℤ} (hs : 0 ≤ s) (hst : s ≤ t) :
    s * (s + 1) / 2 ≤ t * (t + 1) / 2 := by
  have h1 : s * (s + 1) ≤ t * (t + 1) := by nlinarith
  omega

/-- Core injectivity of the triangular pairing on the half-plane
`0 ≤ b ≤ s`. -/
theorem triangle_pair_inj {s₁ b₁ s₂ b₂ : ℤ}
    (hb₁ : 0 ≤ b₁) (hs₁ : b₁ ≤ s₁) (hb₂ : 0 ≤ b₂) (hs₂ : b₂ ≤ s₂)
    (h : s₁ * (s₁ + 1) / 2 + b₁ = s₂ * (s₂ + 1) / 2 + b₂) :
    s₁ = s₂ ∧ b₁ = b₂ := by
  rcases lt_trichotomy s₁ s₂ with hlt | heq | hgt
  · exfalso
    have h1 : s₁ * (s₁ + 1) / 2 + b₁ < (s₁ + 1) * (s₁ + 1 + 1) / 2 := by
      rw [triangle_succ_int]
      omega
    have h2 : (s₁ + 1) * (s₁ + 1 + 1) / 2 ≤ s₂ * (s₂ + 1) / 2 :=
      triangle_mono (by omega) (by omega)
    omega
  · constructor
    · exact heq
    · subst heq
      omega
  · exfalso
    have h1 : s₂ * (s₂ + 1) / 2 + b₂ < (s₂ + 1) * (s₂ + 1 + 1) / 2 := by
      rw [triangle_succ_int]
      omega
    have h2 : (s₂ + 1) * (s₂ + 1 + 1) / 2 ≤ s₁ * (s₁ + 1) / 2 :=
      triangle_mono (by omega) (by omega)
    omega

/-- C6: the codec satisfies the stated formulas — `encodeSignedInt` is the
zig-zag map (`2n` / `-2n-1`), `encodeChunkIndex` is the triangular pairing
of the zig-zags (the `/ 2` is exact, stated multiplied out), and the chunk
encoding is injective on integer pairs. -/
theorem chunkCodec_formulas_and_injective :
    (∀ n : ℤ, (0 ≤ n → encodeSignedInt n = 2 * n) ∧
      (n < 0 → encodeSignedInt n = -2 * n - 1)) ∧
    (∀ x y : ℤ, 2 * encodeChunkIndex x y
        = (encodeSignedInt x + encodeSignedInt y)
            * (encodeSignedInt x + encodeSignedInt y + 1)
          + 2 * encodeSignedInt y) ∧
    Function.Injective (fun p : ℤ × ℤ => encodeChunkIndex p.1 p.2) := by
  refine ⟨?_, ?_, ?_⟩
  · intro n
    constructor <;> intro hn <;> unfold encodeSignedInt
    · rw [if_pos (by omega)]
      ring
    · rw [if_neg (by omega)]
      ring
  · intro x y
    simp only [encodeChunkIndex]
    have := triangle_mul_two (encodeSignedInt x + encodeSignedInt y)
    omega
  · rintro ⟨x₁, y₁⟩ ⟨x₂, y₂⟩ h
    simp only [encodeChunkIndex] at h
    have h₁ := encodeSignedInt_nonneg x₁
    have h₂ := encodeSignedInt_nonneg y₁
    have h₃ := encodeSignedInt_nonneg x₂
    have h₄ := encodeSignedInt_nonneg y₂
    obtain ⟨hs, hb⟩ := @triangle_pair_inj (encodeSignedInt x₁ + encodeSignedInt y₁)
      (encodeSignedInt y₁) (encodeSignedInt x₂ + encodeSignedInt y₂)
      (encodeSignedInt y₂) h₂ (by omega) h₄ (by omega) h
    have hy : y₁ = y₂ := encodeSignedInt_inj hb
    have hx : x₁ = x₂ := encodeSignedInt_inj (by omega)
    simp [hx, hy]

/-- Witness for C6: concrete instances of each conjunct, at `n = 3`,
`n = -4`, and the pair `(3, -2)`. -/
theorem chunkCodec_formulas_and_injective_witness :
    encodeSignedInt 3 = 2 * 3 ∧ encodeSignedInt (-4) = -2 * (-4) - 1 ∧
      2 * encodeChunkIndex 3 (-2)
        = (encodeSignedInt 3 + encodeSignedInt (-2))
            * (encodeSignedInt 3 + encodeSignedInt (-2) + 1)
          + 2 * encodeSignedInt (-2) ∧
      ((3, -2) : ℤ × ℤ) = (3, -2) :=
  ⟨(chunkCodec_formulas_and_injective.1 3).1 (by norm_num),
   (chunkCodec_formulas_and_injective.1 (-4)).2 (by norm_num),
   chunkCodec_formulas_and_injective.2.1 3 (-2),
   chunkCodec_formulas_and_injective.2.2 rfl⟩

/-- C7: for a non-negative index and a positive page count,
`resolvePageNumber` is `(index mod totalPages) + 1`, hence lies in
`[1, totalPages]`; being a pure function, the same index always resolves to
the same page for a fixed `totalPages`. -/
theorem resolvePageNumber_spec (index totalPages : ℤ)
    (hi : 0 ≤ index) (ht : 1 ≤ totalPages) :
    resolvePageNumber index totalPages = index % totalPages + 1 ∧
      1 ≤ resolvePageNumber index totalPages ∧
      resolvePageNumber index totalPages ≤ totalPages := by
  have hmax : max 1 totalPages = totalPages := max_eq_right ht
  have hmod := Int.emod_nonneg index (by omega : totalPages ≠ 0)
  have hmodlt := Int.emod_lt_of_pos index (by omega : 0 < totalPages)
  have h1 : index.tmod totalPages = index % totalPages := by
    rw [Int.tmod_eq_emod] <;> omega
  have h2 : (index % totalPages + totalPages).tmod totalPages
      = (index % totalPages + totalPages) % totalPages := by
    rw [Int.tmod_eq_emod] <;> omega
  have h3 : (index % totalPages + totalPages) % totalPages = index % totalPages := by
    conv_lhs => rw [show index % totalPages + totalPages
      = index % totalPages + totalPages * 1 by ring]
    rw [Int.add_mul_emod_self_left]
    exact Int.emod_emod_of_dvd index dvd_rfl
  simp only [resolvePageNumber]
  rw [hmax, h1, h2, h3]
  omega

/-- Witness for C7 at `index = encodeChunkIndex 3 (-2) = 48`,
`totalPages = 8000`. -/
theorem resolvePageNumber_spec_witness :
    (0 : ℤ) ≤ 48 ∧ 1 ≤ (8000 : ℤ) ∧
      (resolvePageNumber 48 8000 = 48 % 8000 + 1 ∧
        1 ≤ resolvePageNumber 48 8000 ∧ resolvePageNumber 48 8000 ≤ 8000) :=
  ⟨by norm_num, by norm_num, resolvePageNumber_spec 48 8000 (by norm_num) (by norm_num)⟩

end Chunks

/-! ## Sector store — the bounded LRU cache of populated chunks

The source keys sectors by the string `` `${sx}:${sy}` ``; since that string
encoding is injective, keys are modelled by the pair `(sx, sy)` with equality
agreeing with string equality.  `Date.now()` is modelled by a strictly
increasing logical clock carried in the store (the source only compares
recency through the insertion order of the `order` map, which the clock
refines).  Both JavaScript `Map`s (`sectors`, `order`) are modelled as
insertion-ordered association lists, exactly mirroring `Map` iteration
order: `set` of a fresh key appends, `delete` removes the entry, and
`touch`'s delete-then-set moves a key to the most-recently-used end. -/

namespace Sectors

inductive TileState where
  | empty
  | ready
  | error
deriving DecidableEq, Repr

structure Tile where
  state : TileState
  artworkIndex : Option ℤ
deriving DecidableEq, Repr

/-- `SECTOR_SIZE = 16` from `src/lib/constants.ts`. -/
def SECTOR_SIZE : ℕ := 16

/-- `MAX_SECTORS = 200` from `src/lib/constants.ts`. -/
def MAX_SECTORS : ℤ := 200

/-- `sectorKey(sx, sy)`: the string `` `${sx}:${sy}` `` modelled as the pair. -/
def sectorKey (sx sy : ℤ) : ℤ × ℤ := (sx, sy)

structure Sector where
  key : ℤ × ℤ
  sx : ℤ
  sy : ℤ
  tiles : List Tile
  touchedAt : ℕ
deriving DecidableEq, Repr

structure SectorBounds where
  minSx : ℤ
  maxSx : ℤ
  minSy : ℤ
  maxSy : ℤ
deriving DecidableEq, Repr

def createEmptyTile : Tile := { state := .empty, artworkIndex := none }

def createTileArray : List Tile :=
  List.replicate (SECTOR_SIZE * SECTOR_SIZE) createEmptyTile

/-- The `SectorStore` class state: the two insertion-ordered maps, the
cached bounds, the constructor-supplied cap, and the logical clock standing
in for `Date.now()`. -/
structure SectorStore where
  sectors : List ((ℤ × ℤ) × Sector)
  order : List (ℤ × ℤ)
  bounds : Option SectorBounds
  maxSectors : ℤ
  clock : ℕ
deriving DecidableEq, Repr

/-- `new SectorStore(maxSectors = MAX_SECTORS)`. -/
def mkSectorStore (maxSectors : ℤ) : SectorStore :=
  { sectors := [], order := [], bounds := none, maxSectors := maxSectors, clock := 0 }

/-- `get size()`. -/
def SectorStore.size (st : SectorStore) : ℕ := st.sectors.length

/-- `this.sectors.get(key)`. -/
def findSector (st : SectorStore) (key : ℤ × ℤ) : Option Sector :=
  (st.sectors.find? (fun e => e.1 == key)).map (·.2)

/-- `touch(key)`: stamp the sector and move its key to the
most-recently-used end of `order` (delete-then-set). -/
def touch (st : SectorStore) (key : ℤ × ℤ) : SectorStore :=
  match findSector st key with
  | none => st
  | some _ =>
    { st with
      sectors := st.sectors.map
        (fun e => if e.1 == key then (e.1, { e.2 with touchedAt := st.clock }) else e),
      order := (st.order.erase key) ++ [key],
      clock := st.clock + 1 }

/-- `updateBoundsForSector`. -/
def updateBoundsForSector (st : SectorStore) (sector : Sector) : SectorStore :=
  match st.bounds with
  | none =>
    let nb : SectorBounds :=
      { minSx := sector.sx, maxSx := sector.sx, minSy := sector.sy, maxSy := sector.sy }
    { st with bounds := some nb }
  | some b =>
    let nb : SectorBounds :=
      { minSx := min b.minSx sector.sx, maxSx := max b.maxSx sector.sx,
        minSy := min b.minSy sector.sy, maxSy := max b.maxSy sector.sy }
    { st with bounds := some nb }

/-- `getOrCreate(sx, sy)`: returns the updated store together with the
returned `{ sector, isNew }` pair. -/
def getOrCreate (st : SectorStore) (sx sy : ℤ) : SectorStore × Sector × Bool :=
  let key := sectorKey sx sy
  match findSector st key with
  | some existing =>
    (touch st key, { existing with touchedAt := st.clock }, false)
  | none =>
    let sector : Sector :=
      { key := key, sx := sx, sy := sy, tiles := createTileArray, touchedAt := st.clock }
    let st₁ := { st with sectors := st.sectors ++ [(key, sector)] }
    let st₂ := touch st₁ key
    let st₃ := updateBoundsForSector st₂ sector
    (st₃, sector, true)

/-- The `while (this.sectors.size > this.maxSectors)` loop of
`evictIfNeeded`: repeatedly delete the oldest key of `order` from both maps.
(`Map.delete` removes the unique entry with that key; on the association
list this is `eraseP` on the first key match.) -/
def evictLoop (maxSectors : ℤ) :
    List ((ℤ × ℤ) × Sector) → List (ℤ × ℤ) → Bool →
      List ((ℤ × ℤ) × Sector) × List (ℤ × ℤ) × Bool
  | sectors, [], removed => (sectors, [], removed)
  | sectors, oldest :: rest, removed =>
    if (sectors.length : ℤ) > maxSectors then
      evictLoop maxSectors (sectors.eraseP (fun e => e.1 == oldest)) rest true
    else (sectors, oldest :: rest, removed)

/-- `recalculateBounds`: the `±Infinity` fold seeds are modelled by folding
from the first resident sector (equivalent for a non-empty map; the empty
map yields `null`). -/
def recalculateBounds (sectors : List ((ℤ × ℤ) × Sector)) : Option SectorBounds :=
  match sectors with
  | [] => none
  | e :: rest =>
    some (rest.foldl
      (fun b f =>
        { minSx := min b.minSx f.2.sx, maxSx := max b.maxSx f.2.sx,
          minSy := min b.minSy f.2.sy, maxSy := max b.maxSy f.2.sy })
      { minSx := e.2.sx, maxSx := e.2.sx, minSy := e.2.sy, maxSy := e.2.sy })

/-- `evictIfNeeded()`. -/
def evictIfNeeded (st : SectorStore) : SectorStore :=
  let r := evictLoop st.maxSectors st.sectors st.order false
  let st' := { st with sectors := r.1, order := r.2.1 }
  if r.2.2 then { st' with bounds := recalculateBounds r.1 } else st'

/-- A call sequence against one `SectorStore` instance. -/
inductive SectorOp where
  | getOrCreate (sx sy : ℤ)
  | touch (key : ℤ × ℤ)
  | evictIfNeeded
deriving DecidableEq, Repr

def applyOp (st : SectorStore) : SectorOp → SectorStore
  | .getOrCreate sx sy => (getOrCreate st sx sy).1
  | .touch key => touch st key
  | .evictIfNeeded => evictIfNeeded st

def runOps (st : SectorStore) (ops : List SectorOp) : SectorStore :=
  ops.foldl applyOp st

/-! ### Well-formedness of the store and the LRU eviction property (C8) -/

/-- Keys of the sector map, in insertion order. -/
def keysOf (sectors : List ((ℤ × ℤ) × Sector)) : List (ℤ × ℤ) :=
  sectors.map Prod.fst

/-- Touch stamp of a key's resident sector (`0` when absent; the first
entry wins, as for `Map.get`). -/
def stampOf : List ((ℤ × ℤ) × Sector) → (ℤ × ℤ) → ℕ
  | [], _ => 0
  | e :: rest, k => if e.1 = k then e.2.touchedAt else stampOf rest k

/-- Well-formedness: `sectors` and `order` hold the same keys, keys are
unique, `order` lists keys in strictly increasing stamp order (oldest
first), and every stamp is in the clock's past. -/
structure WF (st : SectorStore) : Prop where
  keysNodup : (keysOf st.sectors).Nodup
  perm : st.order.Perm (keysOf st.sectors)
  sorted : st.order.Pairwise (fun a b => stampOf st.sectors a < stampOf st.sectors b)
  ltClock : ∀ e ∈ st.sectors, e.2.touchedAt < st.clock

theorem mem_keysOf {sectors : List ((ℤ × ℤ) × Sector)} {k : ℤ × ℤ} :
    k ∈ keysOf sectors ↔ ∃ s, (k, s) ∈ sectors := by
  constructor
  · intro h
    rcases List.mem_map.mp h with ⟨⟨k', s⟩, hmem, hk⟩
    exact ⟨s, by simpa [← hk] using hmem⟩
  · rintro ⟨s, hmem⟩
    exact List.mem_map.mpr ⟨(k, s), hmem, rfl⟩

theorem findSector_eq_none_iff {st : SectorStore} {key : ℤ × ℤ} :
    findSector st key = none ↔ key ∉ keysOf st.sectors := by
  unfold findSector
  rw [Option.map_eq_none', List.find?_eq_none]
  constructor
  · intro h hmem
    rcases mem_keysOf.mp hmem with ⟨s, hs⟩
    simpa using h _ hs
  · intro h e he
    simp only [beq_iff_eq]
    intro hk
    exact h (List.mem_map.mpr ⟨e, he, hk⟩)

theorem stampOf_cons_self {k : ℤ × ℤ} {s : Sector} {rest : List ((ℤ × ℤ) × Sector)} :
    stampOf ((k, s) :: rest) k = s.touchedAt := by
  simp [stampOf]

theorem stampOf_cons_ne {e : (ℤ × ℤ) × Sector} {rest : List ((ℤ × ℤ) × Sector)}
    {k : ℤ × ℤ} (h : e.1 ≠ k) : stampOf (e :: rest) k = stampOf rest k := by
  simp [stampOf, h]

theorem stampOf_mem {sectors : List ((ℤ × ℤ) × Sector)}
    (hnd : (keysOf sectors).Nodup) {k : ℤ × ℤ} {s : Sector}
    (hmem : (k, s) ∈ sectors) : stampOf sectors k = s.touchedAt := by
  induction sectors with
  | nil => cases hmem
  | cons e rest ih =>
    rcases List.mem_cons.mp hmem with heq | hrest
    · subst heq
      exact stampOf_cons_self
    · have hnd' := List.nodup_cons.mp (show (e.1 :: keysOf rest).Nodup from hnd)
      have hke : e.1 ≠ k := by
        intro hk
        have : k ∈ keysOf rest := mem_keysOf.mpr ⟨s, hrest⟩
        exact hnd'.1 (hk ▸ this)
      rw [stampOf_cons_ne hke]
      exact ih hnd'.2 hrest

theorem perm_keysOf_eraseP {sectors : List ((ℤ × ℤ) × Sector)} {oldest : ℤ × ℤ}
    (hmem : oldest ∈ keysOf sectors) :
    (keysOf sectors).Perm (oldest :: keysOf (sectors.eraseP (fun e => e.1 == oldest))) := by
  induction sectors with
  | nil => cases hmem
  | cons e rest ih =>
    by_cases he : e.1 = oldest
    · rw [show (e :: rest).eraseP (fun e => e.1 == oldest) = rest by
        simp [List.eraseP_cons, he]]
      rw [show keysOf (e :: rest) = oldest :: keysOf rest by rw [← he]; rfl]
    · rw [show (e :: rest).eraseP (fun e => e.1 == oldest)
          = e :: rest.eraseP (fun e => e.1 == oldest) by simp [List.eraseP_cons, he]]
      have hmem' : oldest ∈ keysOf rest := by
        rcases List.mem_cons.mp (show oldest ∈ e.1 :: keysOf rest from hmem) with h | h
        · exact absurd h.symm he
        · exact h
      have step1 : (keysOf (e :: rest)).Perm
          (e.1 :: oldest :: keysOf (rest.eraseP (fun e => e.1 == oldest))) :=
        (ih hmem').cons e.1
      have step2 : (e.1 :: oldest :: keysOf (rest.eraseP (fun e => e.1 == oldest))).Perm
          (oldest :: e.1 :: keysOf (rest.eraseP (fun e => e.1 == oldest))) :=
        List.Perm.swap oldest e.1 _
      exact step1.trans step2

theorem stampOf_eraseP_ne (sectors : List ((ℤ × ℤ) × Sector)) {oldest k : ℤ × ℤ}
    (h : k ≠ oldest) :
    stampOf (sectors.eraseP (fun e => e.1 == oldest)) k = stampOf sectors k := by
  induction sectors with
  | nil => rfl
  | cons e rest ih =>
    by_cases he : e.1 = oldest
    · rw [show (e :: rest).eraseP (fun e => e.1 == oldest) = rest by
        simp [List.eraseP_cons, he]]
      rw [stampOf_cons_ne (by rw [he]; exact fun hk => h hk.symm)]
    · rw [show (e :: rest).eraseP (fun e => e.1 == oldest)
          = e :: rest.eraseP (fun e => e.1 == oldest) by simp [List.eraseP_cons, he]]
      by_cases hk : e.1 = k
      · rcases e with ⟨k', s⟩
        simp only at hk
        subst hk
        rw [stampOf_cons_self, stampOf_cons_self]
      · rw [stampOf_cons_ne hk, stampOf_cons_ne hk]
        exact ih

/-- Each pass of `evictLoop` removes the head of `order`; from a
well-formed pair of maps the loop keeps them well-formed, only ever removes
entries, and — when the cap is non-negative — ends within the cap. -/
theorem evictLoop_spec (cap : ℤ) :
    ∀ (order : List (ℤ × ℤ)) (sectors : List ((ℤ × ℤ) × Sector)) (removed : Bool),
      (keysOf sectors).Nodup →
      order.Perm (keysOf sectors) →
      order.Pairwise (fun a b => stampOf sectors a < stampOf sectors b) →
      (keysOf (evictLoop cap sectors order removed).1).Nodup ∧
        (evictLoop cap sectors order removed).2.1.Perm
          (keysOf (evictLoop cap sectors order removed).1) ∧
        (evictLoop cap sectors order removed).2.1.Pairwise
          (fun a b => stampOf (evictLoop cap sectors order removed).1 a
            < stampOf (evictLoop cap sectors order removed).1 b) ∧
        (∀ e ∈ (evictLoop cap sectors order removed).1, e ∈ sectors) ∧
        (0 ≤ cap → ((evictLoop cap sectors order removed).1.length : ℤ) ≤ cap) := by
  intro order
  induction order with
  | nil =>
    intro sectors removed hnd hperm hsorted
    have hkeys : keysOf sectors = [] := List.nil_perm.mp hperm
    have hsec : sectors = [] := by
      cases sectors with
      | nil => rfl
      | cons e rest => simp [keysOf] at hkeys
    subst hsec
    refine ⟨hnd, hperm, hsorted, by simp [evictLoop], ?_⟩
    intro hcap
    simpa [evictLoop] using hcap
  | cons oldest rest ih =>
    intro sectors removed hnd hperm hsorted
    by_cases hlen : (sectors.length : ℤ) > cap
    · rw [show evictLoop cap sectors (oldest :: rest) removed
          = evictLoop cap (sectors.eraseP (fun e => e.1 == oldest)) rest true by
        simp [evictLoop, hlen]]
      have hordnd : (oldest :: rest).Nodup := hperm.nodup_iff.mpr hnd
      have hrestne : oldest ∉ rest := (List.nodup_cons.mp hordnd).1
      have hmemk : oldest ∈ keysOf sectors := hperm.mem_iff.mp (List.mem_cons_self _ _)
      have hnd' : (keysOf (sectors.eraseP (fun e => e.1 == oldest))).Nodup := by
        refine List.Nodup.sublist ?_ hnd
        exact List.Sublist.map _ (List.eraseP_sublist sectors)
      have hperm' : rest.Perm (keysOf (sectors.eraseP (fun e => e.1 == oldest))) :=
        (hperm.trans (perm_keysOf_eraseP hmemk)).cons_inv
      have hsorted' : rest.Pairwise
          (fun a b => stampOf (sectors.eraseP (fun e => e.1 == oldest)) a
            < stampOf (sectors.eraseP (fun e => e.1 == oldest)) b) := by
        refine (List.Pairwise.imp_of_mem ?_ (List.pairwise_cons.mp hsorted).2)
        intro a b ha hb hr
        rwa [stampOf_eraseP_ne sectors (fun (h : a = oldest) => hrestne (h ▸ ha)),
          stampOf_eraseP_ne sectors (fun (h : b = oldest) => hrestne (h ▸ hb))]
      obtain ⟨c1, c2, c3, c4, c5⟩ := ih _ true hnd' hperm' hsorted'
      exact ⟨c1, c2, c3,
        fun e he => (List.eraseP_sublist sectors).subset (c4 e he), c5⟩
    · rw [show evictLoop cap sectors (oldest :: rest) removed
          = (sectors, oldest :: rest, removed) by simp [evictLoop, hlen]]
      exact ⟨hnd, hperm, hsorted, fun e he => he,
        fun hc => by change ((sectors.length : ℤ)) ≤ cap; omega⟩

theorem stampOf_cons_eq {e : (ℤ × ℤ) × Sector} {rest : List ((ℤ × ℤ) × Sector)}
    {k : ℤ × ℤ} (h : e.1 = k) : stampOf (e :: rest) k = e.2.touchedAt := by
  rcases e with ⟨k', s⟩
  simp only at h
  subst h
  exact stampOf_cons_self

/-- `Perm`-with-erase for the `BEq` instances actually used in the store
definitions. -/
theorem perm_cons_erase_beq {α : Type} [BEq α] [LawfulBEq α] {a : α} {l : List α}
    (h : a ∈ l) : l.Perm (a :: l.erase a) := by
  induction l with
  | nil => cases h
  | cons b rest ih =>
    by_cases hb : b = a
    · subst hb
      rw [List.erase_cons_head]
    · rw [List.erase_cons_tail (by simpa using hb)]
      have hmem : a ∈ rest := by
        rcases List.mem_cons.mp h with h1 | h1
        · exact absurd h1.symm hb
        · exact h1
      exact ((ih hmem).cons b).trans (List.Perm.swap a b _)

theorem keysOf_touchMap (sectors : List ((ℤ × ℤ) × Sector)) (key : ℤ × ℤ) (c : ℕ) :
    keysOf (sectors.map
      (fun e => if e.1 == key then (e.1, { e.2 with touchedAt := c }) else e))
      = keysOf sectors := by
  simp only [keysOf, List.map_map]
  apply List.map_congr_left
  intro e he
  by_cases h : e.1 = key <;> simp [h, Function.comp]

theorem stampOf_touchMap_ne (sectors : List ((ℤ × ℤ) × Sector)) (key : ℤ × ℤ) (c : ℕ)
    {k : ℤ × ℤ} (h : k ≠ key) :
    stampOf (sectors.map
        (fun e => if e.1 == key then (e.1, { e.2 with touchedAt := c }) else e)) k
      = stampOf sectors k := by
  induction sectors with
  | nil => rfl
  | cons e rest ih =>
    rw [List.map_cons]
    by_cases he : e.1 = key
    · have h1 : e.1 ≠ k := by
        rw [he]
        exact fun hk => h hk.symm
      rw [if_pos (by simpa using he)]
      simp only [stampOf]
      rw [if_neg h1, if_neg h1]
      exact ih
    · rw [if_neg (by simpa using he)]
      by_cases hk : e.1 = k
      · rw [stampOf_cons_eq hk, stampOf_cons_eq hk]
      · rw [stampOf_cons_ne hk, stampOf_cons_ne hk]
        exact ih

theorem stampOf_touchMap_self (sectors : List ((ℤ × ℤ) × Sector)) (key : ℤ × ℤ) (c : ℕ)
    (hmem : key ∈ keysOf sectors) :
    stampOf (sectors.map
        (fun e => if e.1 == key then (e.1, { e.2 with touchedAt := c }) else e)) key
      = c := by
  induction sectors with
  | nil => cases hmem
  | cons e rest ih =>
    rw [List.map_cons]
    by_cases he : e.1 = key
    · rw [if_pos (by simpa using he)]
      exact stampOf_cons_eq he
    · rw [if_neg (by simpa using he)]
      rw [stampOf_cons_ne he]
      refine ih ?_
      rcases List.mem_cons.mp (show key ∈ e.1 :: keysOf rest from hmem) with h1 | h1
      · exact absurd h1.symm he
      · exact h1

theorem stampOf_append_ne (sectors : List ((ℤ × ℤ) × Sector)) (key : ℤ × ℤ) (sec : Sector)
    {k : ℤ × ℤ} (h : k ≠ key) :
    stampOf (sectors ++ [(key, sec)]) k = stampOf sectors k := by
  induction sectors with
  | nil =>
    have hk : key ≠ k := fun hk => h hk.symm
    simp [stampOf, hk]
  | cons e rest ih =>
    by_cases hk : e.1 = k
    · rw [List.cons_append, stampOf_cons_eq hk, stampOf_cons_eq hk]
    · rw [List.cons_append, stampOf_cons_ne hk, stampOf_cons_ne hk]
      exact ih

theorem stampOf_append_self (sectors : List ((ℤ × ℤ) × Sector)) (key : ℤ × ℤ) (sec : Sector)
    (h : key ∉ keysOf sectors) :
    stampOf (sectors ++ [(key, sec)]) key = sec.touchedAt := by
  induction sectors with
  | nil => simp [stampOf]
  | cons e rest ih =>
    have hne : e.1 ≠ key := fun hk => h (List.mem_map.mpr ⟨e, List.mem_cons_self e rest, hk⟩)
    rw [List.cons_append, stampOf_cons_ne hne]
    refine ih (fun hk => h ?_)
    exact List.mem_cons_of_mem _ hk

/-- `touch` preserves well-formedness: the touched key moves to the
most-recently-used end with a fresh maximal stamp. -/
theorem wf_touch {st : SectorStore} (h : WF st) (key : ℤ × ℤ) : WF (touch st key) := by
  rcases hf : findSector st key with _ | s
  · simpa [touch, hf] using h
  · have hmem : key ∈ keysOf st.sectors := by
      by_contra hk
      rw [findSector_eq_none_iff.mpr hk] at hf
      cases hf
    have hordnd : st.order.Nodup := h.perm.nodup_iff.mpr h.keysNodup
    have hoin : key ∈ st.order := h.perm.mem_iff.mpr hmem
    have hstamp_lt : ∀ k ∈ st.order, stampOf st.sectors k < st.clock := by
      intro k hk
      rcases mem_keysOf.mp (h.perm.mem_iff.mp hk) with ⟨s', hs'⟩
      rw [stampOf_mem h.keysNodup hs']
      exact h.ltClock _ hs'
    simp only [touch, hf]
    constructor
    · rw [keysOf_touchMap]
      exact h.keysNodup
    · rw [keysOf_touchMap]
      exact (List.perm_append_singleton key _).trans
        ((perm_cons_erase_beq hoin).symm.trans h.perm)
    · rw [List.pairwise_append]
      refine ⟨?_, List.pairwise_singleton _ _, ?_⟩
      · have hsub : (st.order.erase key).Sublist st.order := List.erase_sublist key st.order
        refine List.Pairwise.imp_of_mem ?_ (h.sorted.sublist hsub)
        intro a b ha hb hr
        have hane : a ≠ key := ((hordnd.mem_erase_iff).mp ha).1
        have hbne : b ≠ key := ((hordnd.mem_erase_iff).mp hb).1
        rwa [stampOf_touchMap_ne _ _ _ hane, stampOf_touchMap_ne _ _ _ hbne]
      · intro a ha b hb
        rw [List.mem_singleton.mp hb]
        have hane : a ≠ key := ((hordnd.mem_erase_iff).mp ha).1
        rw [stampOf_touchMap_ne _ _ _ hane, stampOf_touchMap_self _ _ _ hmem]
        exact hstamp_lt a (((hordnd.mem_erase_iff).mp ha).2)
    · intro e' he'
      rcases List.mem_map.mp he' with ⟨e, he, hfe⟩
      by_cases hek : e.1 = key
      · rw [← hfe, if_pos (by simpa using hek)]
        show st.clock < st.clock + 1
        omega
      · rw [← hfe, if_neg (by simpa using hek)]
        show e.2.touchedAt < st.clock + 1
        have := h.ltClock e he
        omega

/-- Changing the cached bounds does not affect well-formedness. -/
theorem wf_updateBounds {st : SectorStore} (h : WF st) (sector : Sector) :
    WF (updateBoundsForSector st sector) := by
  unfold updateBoundsForSector
  cases st.bounds with
  | none => exact ⟨h.keysNodup, h.perm, h.sorted, h.ltClock⟩
  | some b => exact ⟨h.keysNodup, h.perm, h.sorted, h.ltClock⟩

/-- Appending a fresh sector stamped `now` and touching it preserves
well-formedness; this is the state transition of `getOrCreate`'s miss
branch. -/
theorem wf_append_touch (st : SectorStore) (key : ℤ × ℤ) (sec : Sector)
    (h : WF st) (hfresh : key ∉ keysOf st.sectors) (hc : sec.touchedAt = st.clock) :
    WF { st with
      sectors := (st.sectors ++ [(key, sec)]).map
        (fun e => if e.1 == key then (e.1, { e.2 with touchedAt := st.clock }) else e),
      order := (st.order.erase key) ++ [key],
      clock := st.clock + 1 } := by
  have horder : key ∉ st.order := fun hk => hfresh (h.perm.mem_iff.mp hk)
  have herase : st.order.erase key = st.order := List.erase_of_not_mem horder
  have hsec : { sec with touchedAt := st.clock } = sec := by
    cases sec
    simp only at hc
    simp [hc]
  have hmapeq : (st.sectors ++ [(key, sec)]).map
      (fun e => if e.1 == key then (e.1, { e.2 with touchedAt := st.clock }) else e)
      = st.sectors ++ [(key, sec)] := by
    rw [List.map_append]
    congr 1
    · have hmap : ∀ e ∈ st.sectors,
          (if e.1 == key then (e.1, { e.2 with touchedAt := st.clock }) else e) = id e :=
        fun e he => by
          rw [if_neg (by simpa using fun hk => hfresh (List.mem_map.mpr ⟨e, he, hk⟩))]
          rfl
      exact (List.map_congr_left hmap).trans (List.map_id _)
    · simp [hsec]
  have hkeys : keysOf (st.sectors ++ [(key, sec)]) = keysOf st.sectors ++ [key] := by
    simp [keysOf]
  refine ⟨?_, ?_, ?_, ?_⟩
  · show (keysOf ((st.sectors ++ [(key, sec)]).map
      (fun e => if e.1 == key then (e.1, { e.2 with touchedAt := st.clock }) else e))).Nodup
    rw [hmapeq, hkeys]
    exact h.keysNodup.append (List.nodup_singleton _) (List.disjoint_singleton.mpr hfresh)
  · show ((st.order.erase key) ++ [key]).Perm (keysOf ((st.sectors ++ [(key, sec)]).map
      (fun e => if e.1 == key then (e.1, { e.2 with touchedAt := st.clock }) else e)))
    rw [hmapeq, hkeys, herase]
    exact h.perm.append_right _
  · show ((st.order.erase key) ++ [key]).Pairwise (fun a b =>
      stampOf ((st.sectors ++ [(key, sec)]).map
        (fun e => if e.1 == key then (e.1, { e.2 with touchedAt := st.clock }) else e)) a
      < stampOf ((st.sectors ++ [(key, sec)]).map
        (fun e => if e.1 == key then (e.1, { e.2 with touchedAt := st.clock }) else e)) b)
    rw [herase]
    have hstamps : ∀ x, stampOf ((st.sectors ++ [(key, sec)]).map
        (fun e => if e.1 == key then (e.1, { e.2 with touchedAt := st.clock }) else e)) x
        = stampOf (st.sectors ++ [(key, sec)]) x := by
      intro x
      rw [hmapeq]
    rw [List.pairwise_append]
    refine ⟨?_, List.pairwise_singleton _ _, ?_⟩
    · refine List.Pairwise.imp_of_mem ?_ h.sorted
      intro a b ha hb hr
      have hane : a ≠ key := fun hk => horder (hk ▸ ha)
      have hbne : b ≠ key := fun hk => horder (hk ▸ hb)
      rw [hstamps, hstamps, stampOf_append_ne _ _ _ hane, stampOf_append_ne _ _ _ hbne]
      exact hr
    · intro a ha b hb
      rw [List.mem_singleton.mp hb]
      have hane : a ≠ key := fun hk => horder (hk ▸ ha)
      rw [hstamps, hstamps, stampOf_append_ne _ _ _ hane, stampOf_append_self _ _ _ hfresh]
      rcases mem_keysOf.mp (h.perm.mem_iff.mp ha) with ⟨s', hs'⟩
      rw [stampOf_mem h.keysNodup hs', hc]
      exact h.ltClock _ hs'
  · intro e he
    show e.2.touchedAt < st.clock + 1
    rw [hmapeq] at he
    rcases List.mem_append.mp he with hl | hr
    · have := h.ltClock e hl
      omega
    · rw [List.mem_singleton.mp hr]
      show sec.touchedAt < st.clock + 1
      omega

/-- `getOrCreate` preserves well-formedness: it either touches an existing
sector or appends a fresh one with a maximal stamp. -/
theorem wf_getOrCreate {st : SectorStore} (h : WF st) (sx sy : ℤ) :
    WF (getOrCreate st sx sy).1 := by
  rcases hf : findSector st (sectorKey sx sy) with _ | s
  · -- fresh sector
    have hfresh : sectorKey sx sy ∉ keysOf st.sectors := findSector_eq_none_iff.mp hf
    simp only [getOrCreate, hf]
    refine wf_updateBounds ?_ _
    have hf₁ : findSector { st with sectors := st.sectors ++ [(sectorKey sx sy, { key := sectorKey sx sy, sx := sx, sy := sy, tiles := createTileArray, touchedAt := st.clock })] } (sectorKey sx sy) = some { key := sectorKey sx sy, sx := sx, sy := sy, tiles := createTileArray, touchedAt := st.clock } := by
      unfold findSector
      rw [List.find?_append]
      have hnone : st.sectors.find? (fun e => e.1 == sectorKey sx sy) = none := by
        rw [List.find?_eq_none]
        intro e he
        simp only [beq_iff_eq]
        exact fun hk => hfresh (List.mem_map.mpr ⟨e, he, hk⟩)
      rw [hnone]
      simp [List.find?_cons]
    simp only [touch, hf₁]
    exact wf_append_touch st (sectorKey sx sy) _ h hfresh rfl
  · -- existing sector: the state update is exactly `touch`
    simpa [getOrCreate, hf] using wf_touch h (sectorKey sx sy)

/-- `evictIfNeeded` preserves well-formedness. -/
theorem wf_evictIfNeeded {st : SectorStore} (h : WF st) : WF (evictIfNeeded st) := by
  obtain ⟨c1, c2, c3, c4, _⟩ :=
    evictLoop_spec st.maxSectors st.order st.sectors false h.keysNodup h.perm h.sorted
  have hfields : (evictIfNeeded st).sectors
        = (evictLoop st.maxSectors st.sectors st.order false).1
      ∧ (evictIfNeeded st).order
        = (evictLoop st.maxSectors st.sectors st.order false).2.1
      ∧ (evictIfNeeded st).clock = st.clock := by
    simp only [evictIfNeeded]
    split <;> exact ⟨rfl, rfl, rfl⟩
  refine ⟨?_, ?_, ?_, ?_⟩
  · rw [hfields.1]; exact c1
  · rw [hfields.1, hfields.2.1]; exact c2
  · rw [hfields.1, hfields.2.1]; exact c3
  · rw [hfields.1, hfields.2.2]
    intro e he
    exact h.ltClock e (c4 e he)

theorem wf_applyOp {st : SectorStore} (h : WF st) (op : SectorOp) : WF (applyOp st op) := by
  cases op with
  | getOrCreate sx sy => exact wf_getOrCreate h sx sy
  | touch key => exact wf_touch h key
  | evictIfNeeded => exact wf_evictIfNeeded h

theorem wf_mkSectorStore (cap : ℤ) : WF (mkSectorStore cap) :=
  ⟨List.nodup_nil, List.Perm.refl _, List.Pairwise.nil, fun e he => absurd he (List.not_mem_nil e)⟩

theorem wf_runOps {st : SectorStore} (h : WF st) (ops : List SectorOp) :
    WF (runOps st ops) := by
  induction ops generalizing st with
  | nil => exact h
  | cons op rest ih => exact ih (wf_applyOp h op)

/-- "Every eviction removes the least-recently-touched resident": traced
along the `evictLoop` recursion, each removed key is resident and carries
the minimal touch stamp among the residents at its removal time. -/
def evictLoopLRU (cap : ℤ) : List ((ℤ × ℤ) × Sector) → List (ℤ × ℤ) → Prop
  | _, [] => True
  | sectors, oldest :: rest =>
    if (sectors.length : ℤ) > cap then
      (∃ s, (oldest, s) ∈ sectors ∧ ∀ e ∈ sectors, s.touchedAt ≤ e.2.touchedAt) ∧
        evictLoopLRU cap (sectors.eraseP (fun e => e.1 == oldest)) rest
    else True

theorem evictLoopLRU_of (cap : ℤ) :
    ∀ (order : List (ℤ × ℤ)) (sectors : List ((ℤ × ℤ) × Sector)),
      (keysOf sectors).Nodup →
      order.Perm (keysOf sectors) →
      order.Pairwise (fun a b => stampOf sectors a < stampOf sectors b) →
      evictLoopLRU cap sectors order := by
  intro order
  induction order with
  | nil =>
    intro sectors _ _ _
    trivial
  | cons oldest rest ih =>
    intro sectors hnd hperm hsorted
    unfold evictLoopLRU
    split
    case isFalse => trivial
    case isTrue hlen =>
      have hordnd : (oldest :: rest).Nodup := hperm.nodup_iff.mpr hnd
      have hrestne : oldest ∉ rest := (List.nodup_cons.mp hordnd).1
      have hmemk : oldest ∈ keysOf sectors := hperm.mem_iff.mp (List.mem_cons_self _ _)
      rcases mem_keysOf.mp hmemk with ⟨s, hs⟩
      constructor
      · refine ⟨s, hs, ?_⟩
        intro e he
        have hek : e.1 ∈ keysOf sectors := List.mem_map.mpr ⟨e, he, rfl⟩
        rcases List.mem_cons.mp (hperm.mem_iff.mpr hek) with heq | hin
        · have h1 : stampOf sectors oldest = s.touchedAt := stampOf_mem hnd hs
          have h2 : stampOf sectors e.1 = e.2.touchedAt := stampOf_mem hnd (by
            rw [show (e.1, e.2) = e from rfl]
            exact he)
          rw [heq] at h2
          omega
        · have h1 : stampOf sectors oldest < stampOf sectors e.1 :=
            (List.pairwise_cons.mp hsorted).1 e.1 hin
          have h2 : stampOf sectors oldest = s.touchedAt := stampOf_mem hnd hs
          have h3 : stampOf sectors e.1 = e.2.touchedAt := stampOf_mem hnd (by
            rw [show (e.1, e.2) = e from rfl]
            exact he)
          omega
      · have hnd' : (keysOf (sectors.eraseP (fun e => e.1 == oldest))).Nodup := by
          refine List.Nodup.sublist ?_ hnd
          exact List.Sublist.map _ (List.eraseP_sublist sectors)
        have hperm' : rest.Perm (keysOf (sectors.eraseP (fun e => e.1 == oldest))) :=
          (hperm.trans (perm_keysOf_eraseP hmemk)).cons_inv
        have hsorted' : rest.Pairwise
            (fun a b => stampOf (sectors.eraseP (fun e => e.1 == oldest)) a
              < stampOf (sectors.eraseP (fun e => e.1 == oldest)) b) := by
          refine (List.Pairwise.imp_of_mem ?_ (List.pairwise_cons.mp hsorted).2)
          intro a b ha hb hr
          rwa [stampOf_eraseP_ne sectors (fun (h : a = oldest) => hrestne (h ▸ ha)),
            stampOf_eraseP_ne sectors (fun (h : b = oldest) => hrestne (h ▸ hb))]
        exact ih _ hnd' hperm' hsorted'

theorem applyOp_maxSectors (st : SectorStore) (op : SectorOp) :
    (applyOp st op).maxSectors = st.maxSectors := by
  cases op with
  | getOrCreate sx sy =>
    rcases hf : findSector st (sectorKey sx sy) with _ | s
    · simp only [applyOp, getOrCreate, hf]
      unfold updateBoundsForSector
      rcases hf₂ : findSector { st with sectors := st.sectors ++ [(sectorKey sx sy, { key := sectorKey sx sy, sx := sx, sy := sy, tiles := createTileArray, touchedAt := st.clock })] } (sectorKey sx sy) with _ | s'
      · simp only [touch, hf₂]
        split <;> rfl
      · simp only [touch, hf₂]
        split <;> rfl
    · simp only [applyOp, getOrCreate, hf]
      unfold touch
      rcases hf₂ : findSector st (sectorKey sx sy) with _ | s'
      · rfl
      · rfl
  | touch key =>
    simp only [applyOp]
    unfold touch
    rcases hf : findSector st key with _ | s <;> rfl
  | evictIfNeeded =>
    simp only [applyOp, evictIfNeeded]
    split <;> rfl

theorem runOps_maxSectors (st : SectorStore) (ops : List SectorOp) :
    (runOps st ops).maxSectors = st.maxSectors := by
  induction ops generalizing st with
  | nil => rfl
  | cons op rest ih =>
    show (runOps (applyOp st op) rest).maxSectors = st.maxSectors
    rw [ih, applyOp_maxSectors]

/-- C8 (amended): `getOrCreate` itself never evicts — the caller invokes
`evictIfNeeded` separately (as `ArtworkGrid` does after each batch).  For
every operation sequence with a non-negative cap, the store is within the
cap immediately after every `evictIfNeeded`, and every eviction that
`evictIfNeeded` would perform from the reached state removes a resident
sector of minimal touch stamp (the least-recently-touched one) at its
removal time. -/
theorem sectorStore_evict_bound_and_lru (cap : ℤ) (ops : List SectorOp)
    (hcap : 0 ≤ cap) :
    ((runOps (mkSectorStore cap) (ops ++ [SectorOp.evictIfNeeded])).size : ℤ) ≤ cap ∧
      evictLoopLRU cap (runOps (mkSectorStore cap) ops).sectors
        (runOps (mkSectorStore cap) ops).order := by
  have hwf : WF (runOps (mkSectorStore cap) ops) := wf_runOps (wf_mkSectorStore cap) ops
  have hmax : (runOps (mkSectorStore cap) ops).maxSectors = cap :=
    runOps_maxSectors (mkSectorStore cap) ops
  constructor
  · have happ : runOps (mkSectorStore cap) (ops ++ [SectorOp.evictIfNeeded])
        = evictIfNeeded (runOps (mkSectorStore cap) ops) := by
      unfold runOps
      rw [List.foldl_append]
      rfl
    rw [happ]
    obtain ⟨_, _, _, _, hbound⟩ := evictLoop_spec
      (runOps (mkSectorStore cap) ops).maxSectors
      (runOps (mkSectorStore cap) ops).order
      (runOps (mkSectorStore cap) ops).sectors false
      hwf.keysNodup hwf.perm hwf.sorted
    have hsec : (evictIfNeeded (runOps (mkSectorStore cap) ops)).sectors
        = (evictLoop (runOps (mkSectorStore cap) ops).maxSectors
            (runOps (mkSectorStore cap) ops).sectors
            (runOps (mkSectorStore cap) ops).order false).1 := by
      simp only [evictIfNeeded]
      split <;> rfl
    unfold SectorStore.size
    rw [hsec, hmax]
    rw [hmax] at hbound
    exact hbound hcap
  · have hlru := evictLoopLRU_of (runOps (mkSectorStore cap) ops).maxSectors
      (runOps (mkSectorStore cap) ops).order
      (runOps (mkSectorStore cap) ops).sectors
      hwf.keysNodup hwf.perm hwf.sorted
    rwa [hmax] at hlru

/-- Witness for the amended C8 at `maxSectors = 1` and the two-insert
sequence. -/
theorem sectorStore_evict_bound_and_lru_witness :
    (0 : ℤ) ≤ 1 ∧
      (((runOps (mkSectorStore 1)
          ([SectorOp.getOrCreate 0 0, SectorOp.getOrCreate 1 0]
            ++ [SectorOp.evictIfNeeded])).size : ℤ) ≤ 1 ∧
        evictLoopLRU 1
          (runOps (mkSectorStore 1)
            [SectorOp.getOrCreate 0 0, SectorOp.getOrCreate 1 0]).sectors
          (runOps (mkSectorStore 1)
            [SectorOp.getOrCreate 0 0, SectorOp.getOrCreate 1 0]).order) :=
  ⟨by norm_num, sectorStore_evict_bound_and_lru 1
    [SectorOp.getOrCreate 0 0, SectorOp.getOrCreate 1 0] (by norm_num)⟩

/-- Counterexample to C8 as stated: a sequence of `getOrCreate` calls alone
(no `evictIfNeeded`) drives `store.size` above `maxSectors`, because
`getOrCreate` never evicts — with `maxSectors = 1`, two creations leave
`size = 2`. -/
theorem sectorStore_size_counterexample :
    ¬ (((runOps (mkSectorStore 1)
        [SectorOp.getOrCreate 0 0, SectorOp.getOrCreate 1 0]).size : ℤ)
      ≤ (mkSectorStore 1).maxSectors) := by decide

end Sectors

/-! ## Masonry layout engine — `src/lib/masonry.ts` (`MasonryLayout`)

World coordinates, sizes, and viewport fields are modelled as integers
(`ℤ`); `Math.floor(a / b)` on the exact quotient is `Int.fdiv`, and
`Math.round(p / q)` for `q > 0` is `(2 * p + q).fdiv (2 * q)`
(round half up of the exact quotient, which is what `Math.round` computes).

JavaScript object identity matters here: the engine pushes every created
`PlacedImage` into both `state.placedImages` and one column's `items`
array, and the heal functions mutate `y` through those shared references.
The model therefore keeps a single append-only array `items` (standing for
`state.placedImages`, whose entries are created and pushed in allocation
order) and lets each column hold the *indices* ("serials") of its items in
top-to-bottom order; mutating `items[serial]` mirrors mutating the shared
object.

The async generator is modelled as the finite stream (list) of images it
will yield.  `await this.state.generator()` consumes the head of the
stream; since `getItems` serializes all mutation (the initialization
promise and the `pendingUpdate` chain), each engine call is a pure state
transition threading the remaining stream.  When the stream is exhausted
the model returns the state reached so far with the empty stream (in the
source the `await` would simply never resolve); every loop below consumes
nothing and changes nothing once the stream is empty, so a non-empty final
stream certifies that no fill stopped early. -/

namespace Masonry

/-- `MasonryImage`: `id?`/`width?`/`height?` are optional; a `none`
dimension models `undefined` as well as any non-finite number (the code
distinguishes them only through `Number.isFinite`).  The opaque
`React.ReactNode` payload is modelled as a number. -/
structure MasonryImage where
  id : Option ℕ
  width : Option ℤ
  height : Option ℤ
  content : ℕ
deriving DecidableEq, Repr

/-- `PlacedImage` of `masonry.ts`. -/
structure PlacedImage where
  id : Option ℕ
  x : ℤ
  y : ℤ
  width : ℤ
  height : ℤ
  content : ℕ
  columnIndex : ℤ
deriving DecidableEq, Repr, Inhabited

/-- `Viewport` (from `PannableGrid`): `{x, y, width, height}` in world
units. -/
structure Viewport where
  x : ℤ
  y : ℤ
  width : ℤ
  height : ℤ
deriving DecidableEq, Repr

/-- The constructor-computed configuration: `columnWidth`, `columnGap`,
`rowGap`, `originX`, `originY` from the config, and the two overscans
(`BASE_OVERSCAN_MULTIPLIER = 1`):
`horizontalOverscan = max(columnWidth + columnGap, 1) * 1`,
`verticalOverscan = max(columnWidth, rowGap * 2, 1) * 1`. -/
structure MasonryConfig where
  columnWidth : ℤ
  columnGap : ℤ
  rowGap : ℤ
  originX : ℤ
  originY : ℤ
  horizontalOverscan : ℤ
  verticalOverscan : ℤ
deriving DecidableEq, Repr

/-- The mutable engine state: `items` is `state.placedImages` in push
(= allocation) order; `columns` is the insertion-ordered
`Map<number, ColumnState>` holding each column's item serials in
top-to-bottom order; `colMin`/`colMax` are `columnBounds`. -/
structure MasonryState where
  cfg : MasonryConfig
  items : List PlacedImage
  columns : List (ℤ × List ℕ)
  colMin : Option ℤ
  colMax : Option ℤ
deriving DecidableEq, Repr

/-- `new MasonryLayout(config)` with `originX = originY = 0` defaults
applied by the caller. -/
def mkMasonryLayout (columnWidth columnGap rowGap originX originY : ℤ) : MasonryState :=
  { cfg :=
      { columnWidth := columnWidth, columnGap := columnGap, rowGap := rowGap,
        originX := originX, originY := originY,
        horizontalOverscan := max (columnWidth + columnGap) 1 * 1,
        verticalOverscan := max columnWidth (max (rowGap * 2) 1) * 1 },
    items := [], columns := [], colMin := none, colMax := none }

/-- `this.state.columns.get(columnIndex)` (the column's serial list). -/
def findColumn (st : MasonryState) (idx : ℤ) : Option (List ℕ) :=
  (st.columns.find? (fun e => e.1 == idx)).map (·.2)

/-- Replace an existing column's serial list in place (the source mutates
the column object held by the map, which keeps its map position). -/
def setColumn (st : MasonryState) (idx : ℤ) (serials : List ℕ) : MasonryState :=
  { st with columns := st.columns.map (fun e => if e.1 == idx then (e.1, serials) else e) }

/-- `getOrCreateColumn`: create an empty column and widen `columnBounds`
when the index is new. -/
def getOrCreateColumn (st : MasonryState) (idx : ℤ) : MasonryState :=
  match findColumn st idx with
  | some _ => st
  | none =>
    { st with
      columns := st.columns ++ [(idx, [])],
      colMin := some (match st.colMin with | none => idx | some m => min m idx),
      colMax := some (match st.colMax with | none => idx | some m => max m idx) }

/-- `get columnSpan()`. -/
def columnSpan (cfg : MasonryConfig) : ℤ := cfg.columnWidth + cfg.columnGap

/-- `getColumnX`. -/
def getColumnX (cfg : MasonryConfig) (columnIndex : ℤ) : ℤ :=
  cfg.originX + columnIndex * columnSpan cfg

/-- `getColumnRangeForXSpan`: `Math.floor((left - originX) / span)` and
`Math.floor((right - originX) / span)`, floor division of the exact
quotient. -/
def getColumnRangeForXSpan (cfg : MasonryConfig) (startX endX : ℤ) : ℤ × ℤ :=
  let left := min startX endX
  let right := max startX endX
  let span := columnSpan cfg
  ((left - cfg.originX).fdiv span, (right - cfg.originX).fdiv span)

/-- `getRequiredColumnRange`. -/
def getRequiredColumnRange (cfg : MasonryConfig) (view : Viewport) : ℤ × ℤ :=
  getColumnRangeForXSpan cfg (view.x - cfg.horizontalOverscan)
    (view.x + view.width + cfg.horizontalOverscan)

/-- The inclusive integer range `lo, lo+1, …, hi` (`[]` when `hi < lo`),
as iterated by the `for` loops over column indexes. -/
def rangeList (lo hi : ℤ) : List ℤ :=
  (List.range (hi - lo + 1).toNat).map (fun (i : ℕ) => lo + (i : ℤ))

/-- `ensureColumnsCoverViewport`. -/
def ensureColumnsCoverViewport (st : MasonryState) (view : Viewport) : MasonryState :=
  let r := getRequiredColumnRange st.cfg view
  (rangeList r.1 r.2).foldl getOrCreateColumn st

/-- `getColumnIndexesInRange`: the indexes in the required range that
already have a column. -/
def getColumnIndexesInRange (st : MasonryState) (view : Viewport) : List ℤ :=
  let r := getRequiredColumnRange st.cfg view
  (rangeList r.1 r.2).filter (fun idx => (findColumn st idx).isSome)

/-- `Math.round(p / q)` for `q > 0`: round half up of the exact quotient,
`⌊p/q + 1/2⌋ = ⌊(2p + q) / (2q)⌋`. -/
def jsRoundDiv (p q : ℤ) : ℤ := (2 * p + q).fdiv (2 * q)

/-- `computeScaledHeight`: `null` for missing/non-finite/non-positive
natural dimensions, otherwise
`Math.max(1, Math.round(naturalHeight * columnWidth / naturalWidth))`. -/
def computeScaledHeight (cfg : MasonryConfig) (image : MasonryImage) : Option ℤ :=
  match image.width, image.height with
  | some naturalWidth, some naturalHeight =>
    if naturalWidth ≤ 0 ∨ naturalHeight ≤ 0 then none
    else some (max 1 (jsRoundDiv (naturalHeight * cfg.columnWidth) naturalWidth))
  | _, _ => none

/-- `createPlacedImage`. -/
def createPlacedImage (cfg : MasonryConfig) (image : MasonryImage)
    (columnIndex : ℤ) (y height : ℤ) : PlacedImage :=
  { id := image.id, x := getColumnX cfg columnIndex, y := y,
    width := cfg.columnWidth, height := height,
    content := image.content, columnIndex := columnIndex }

/-- Dereference a serial in the shared `placedImages` store. -/
def derefItem (st : MasonryState) (s : ℕ) : PlacedImage :=
  st.items.getD s default

/-- `rectanglesOverlapVertically`. -/
def rectanglesOverlapVertically (a b : PlacedImage) (verticalGapTolerance : ℤ) : Bool :=
  decide (a.y + a.height + verticalGapTolerance > b.y) &&
    decide (b.y + b.height + verticalGapTolerance > a.y)

/-- `column.items[i].y += delta` through the shared reference. -/
def bumpY (st : MasonryState) (s : ℕ) (delta : ℤ) : MasonryState :=
  let it := derefItem st s
  { st with items := st.items.set s { it with y := it.y + delta } }

/-- `healColumnAfterTopInsertion`: shift the inserted top run upward when
it overlaps the row below (`delta` is always finite in `ℤ`, so the
`Number.isFinite` guard of the source is vacuous here). -/
def healColumnAfterTopInsertion (st : MasonryState) (colIdx : ℤ)
    (insertedIndex : ℕ) : MasonryState :=
  let serials := (findColumn st colIdx).getD []
  match serials[insertedIndex]?, serials[insertedIndex + 1]? with
  | some sIns, some sBelow =>
    let inserted := derefItem st sIns
    let below := derefItem st sBelow
    if rectanglesOverlapVertically inserted below (-st.cfg.rowGap) then
      let desiredY := below.y - st.cfg.rowGap - inserted.height
      let delta := desiredY - inserted.y
      if delta = 0 then st
      else (serials.take (insertedIndex + 1)).foldl (fun acc s => bumpY acc s delta) st
    else st
  | _, _ => st

/-- `healColumnAfterBottomInsertion`: shift the inserted bottom run
downward when it overlaps the row above (`items[-1]` is `undefined` in the
source, modelled by the `insertedIndex = 0` guard). -/
def healColumnAfterBottomInsertion (st : MasonryState) (colIdx : ℤ)
    (insertedIndex : ℕ) : MasonryState :=
  let serials := (findColumn st colIdx).getD []
  match serials[insertedIndex]?,
      (if insertedIndex = 0 then none else serials[insertedIndex - 1]?) with
  | some sIns, some sAbove =>
    let inserted := derefItem st sIns
    let above := derefItem st sAbove
    if rectanglesOverlapVertically above inserted (-st.cfg.rowGap) then
      let desiredY := above.y + above.height + st.cfg.rowGap
      let delta := desiredY - inserted.y
      if delta = 0 then st
      else (serials.drop insertedIndex).foldl (fun acc s => bumpY acc s delta) st
    else st
  | _, _ => st

/-- `column.items.push(placed); placedImages.push(placed);
healColumnAfterBottomInsertion(column, items.length - 1, state)`. -/
def pushBottom (st : MasonryState) (colIdx : ℤ) (image : MasonryImage)
    (y height : ℤ) : MasonryState :=
  let placed := createPlacedImage st.cfg image colIdx y height
  let serial := st.items.length
  let serials := (findColumn st colIdx).getD []
  let st₁ := { st with items := st.items ++ [placed] }
  let st₂ := setColumn st₁ colIdx (serials ++ [serial])
  healColumnAfterBottomInsertion st₂ colIdx serials.length

/-- `column.items.unshift(placed); placedImages.push(placed);
healColumnAfterTopInsertion(column, 0, state)`. -/
def pushTop (st : MasonryState) (colIdx : ℤ) (image : MasonryImage)
    (y height : ℤ) : MasonryState :=
  let placed := createPlacedImage st.cfg image colIdx y height
  let serial := st.items.length
  let serials := (findColumn st colIdx).getD []
  let st₁ := { st with items := st.items ++ [placed] }
  let st₂ := setColumn st₁ colIdx (serial :: serials)
  healColumnAfterTopInsertion st₂ colIdx 0

/-- The downward cursor used by `fillColumnDownward` and
`extendColumnDownward`:
`items.length > 0 ? last.y + last.height + rowGap : originY`. -/
def fillCursor (st : MasonryState) (colIdx : ℤ) : ℤ :=
  match ((findColumn st colIdx).getD []).getLast? with
  | some s => (derefItem st s).y + (derefItem st s).height + st.cfg.rowGap
  | none => st.cfg.originY

/-- `fillColumnDownward`: keep requesting images until the column reaches
`targetBottom` (the cursor is recomputed from the column's last item after
each placement, which is the same formula as its initialization). -/
def fillColumnDownward (colIdx : ℤ) (targetBottom : ℤ) :
    MasonryState → List MasonryImage → MasonryState × List MasonryImage
  | st, [] => (st, [])
  | st, image :: rest =>
    if fillCursor st colIdx < targetBottom then
      match computeScaledHeight st.cfg image with
      | none => fillColumnDownward colIdx targetBottom st rest
      | some scaledHeight =>
        fillColumnDownward colIdx targetBottom
          (pushBottom st colIdx image (fillCursor st colIdx) scaledHeight) rest
    else (st, image :: rest)

/-- `extendColumnUpward`: prepend images until the top item reaches
`borderTop`. -/
def extendColumnUpward (colIdx : ℤ) (borderTop : ℤ) :
    MasonryState → List MasonryImage → MasonryState × List MasonryImage
  | st, [] => (st, [])
  | st, image :: rest =>
    match ((findColumn st colIdx).getD []).head? with
    | none => (st, image :: rest)
    | some sTop =>
      if (derefItem st sTop).y ≤ borderTop then (st, image :: rest)
      else
        match computeScaledHeight st.cfg image with
        | none => extendColumnUpward colIdx borderTop st rest
        | some scaledHeight =>
          extendColumnUpward colIdx borderTop
            (pushTop st colIdx image
              ((derefItem st sTop).y - st.cfg.rowGap - scaledHeight) scaledHeight) rest

/-- `extendColumnDownward`: append images until the cursor reaches
`borderBottom`. -/
def extendColumnDownward (colIdx : ℤ) (borderBottom : ℤ) :
    MasonryState → List MasonryImage → MasonryState × List MasonryImage
  | st, [] => (st, [])
  | st, image :: rest =>
    if fillCursor st colIdx ≥ borderBottom then (st, image :: rest)
    else
      match computeScaledHeight st.cfg image with
      | none => extendColumnDownward colIdx borderBottom st rest
      | some scaledHeight =>
        extendColumnDownward colIdx borderBottom
          (pushBottom st colIdx image (fillCursor st colIdx) scaledHeight) rest

/-- The walk of `populateNewColumn`: place images from `cursorY` down to
`borderBottom`, recomputing the cursor from the column's last item after
each placement. -/
def populateLoop (colIdx : ℤ) (borderBottom : ℤ) :
    MasonryState → ℤ → List MasonryImage → MasonryState × List MasonryImage
  | st, _, [] => (st, [])
  | st, cursorY, image :: rest =>
    if cursorY < borderBottom then
      match computeScaledHeight st.cfg image with
      | none => populateLoop colIdx borderBottom st cursorY rest
      | some scaledHeight =>
        let st' := pushBottom st colIdx image cursorY scaledHeight
        populateLoop colIdx borderBottom st' (fillCursor st' colIdx) rest
    else (st, image :: rest)

/-- `populateNewColumn`: fill a still-empty column from the top overscan
border down to the bottom overscan border. -/
def populateNewColumn (colIdx : ℤ) (view : Viewport) (st : MasonryState)
    (gen : List MasonryImage) : MasonryState × List MasonryImage :=
  if ((findColumn st colIdx).getD []).isEmpty then
    populateLoop colIdx (view.y + view.height + st.cfg.verticalOverscan) st
      (view.y - st.cfg.verticalOverscan) gen
  else (st, gen)

/-- `extendColumnsOnTop`: left-to-right over the columns in range, skip
empty columns, extend the rest upward to the top border. -/
def extendColumnsOnTop (view : Viewport) (st : MasonryState)
    (gen : List MasonryImage) : MasonryState × List MasonryImage :=
  let borderTop := view.y - st.cfg.verticalOverscan
  (getColumnIndexesInRange st view).foldl
    (fun acc columnIndex =>
      match findColumn acc.1 columnIndex with
      | none => acc
      | some serials =>
        if serials.isEmpty then acc
        else extendColumnUpward columnIndex borderTop acc.1 acc.2)
    (st, gen)

/-- `extendColumnsOnBottom`. -/
def extendColumnsOnBottom (view : Viewport) (st : MasonryState)
    (gen : List MasonryImage) : MasonryState × List MasonryImage :=
  let borderBottom := view.y + view.height + st.cfg.verticalOverscan
  (getColumnIndexesInRange st view).foldl
    (fun acc columnIndex =>
      match findColumn acc.1 columnIndex with
      | none => acc
      | some serials =>
        if serials.isEmpty then acc
        else extendColumnDownward columnIndex borderBottom acc.1 acc.2)
    (st, gen)

/-- `extendColumnsOnRight`: from the recorded `columnBounds.max` up to the
required maximum, creating and populating columns that are still empty. -/
def extendColumnsOnRight (view : Viewport) (st : MasonryState)
    (gen : List MasonryImage) : MasonryState × List MasonryImage :=
  let requiredMax := (getRequiredColumnRange st.cfg view).2
  match st.colMax with
  | none => (st, gen)
  | some m =>
    (rangeList m requiredMax).foldl
      (fun acc columnIndex =>
        let st₁ := getOrCreateColumn acc.1 columnIndex
        if ((findColumn st₁ columnIndex).getD []).isEmpty then
          populateNewColumn columnIndex view st₁ acc.2
        else (st₁, acc.2))
      (st, gen)

/-- `extendColumnsOnLeft`: mirror of the right border, walking from the
recorded `columnBounds.min` down to the required minimum. -/
def extendColumnsOnLeft (view : Viewport) (st : MasonryState)
    (gen : List MasonryImage) : MasonryState × List MasonryImage :=
  let requiredMin := (getRequiredColumnRange st.cfg view).1
  match st.colMin with
  | none => (st, gen)
  | some m =>
    ((rangeList requiredMin m).reverse).foldl
      (fun acc columnIndex =>
        let st₁ := getOrCreateColumn acc.1 columnIndex
        if ((findColumn st₁ columnIndex).getD []).isEmpty then
          populateNewColumn columnIndex view st₁ acc.2
        else (st₁, acc.2))
      (st, gen)

/-- `processBorders`: top → right → left → bottom, after making sure the
columns cover the viewport. -/
def processBorders (view : Viewport) (st : MasonryState)
    (gen : List MasonryImage) : MasonryState × List MasonryImage :=
  let st₀ := ensureColumnsCoverViewport st view
  let r₁ := extendColumnsOnTop view st₀ gen
  let r₂ := extendColumnsOnRight view r₁.1 r₁.2
  let r₃ := extendColumnsOnLeft view r₂.1 r₂.2
  extendColumnsOnBottom view r₃.1 r₃.2

/-- The `initialize` method (renamed here because that word is a keyword):
cover the viewport with columns and fill each of them down to the bottom
border. -/
def initLayout (view : Viewport) (st : MasonryState)
    (gen : List MasonryImage) : MasonryState × List MasonryImage :=
  let st₀ := ensureColumnsCoverViewport st view
  let targetBottom := view.y + view.height + st₀.cfg.verticalOverscan
  let r := getRequiredColumnRange st₀.cfg view
  (rangeList r.1 r.2).foldl
    (fun acc columnIndex =>
      fillColumnDownward columnIndex targetBottom (getOrCreateColumn acc.1 columnIndex) acc.2)
    (st₀, gen)

/-- `ensureInitialized`: run the initialization only while no column
exists. -/
def ensureInitialized (view : Viewport) (st : MasonryState)
    (gen : List MasonryImage) : MasonryState × List MasonryImage :=
  if st.columns.isEmpty then initLayout view st gen else (st, gen)

/-- `getItems(view)`: initialization, then the queued border pass, then
`return this.state.placedImages` — the collect-visible filter is commented
out in the source, so every placed item is returned. -/
def getItems (view : Viewport) (st : MasonryState) (gen : List MasonryImage) :
    MasonryState × List MasonryImage × List PlacedImage :=
  let r₁ := ensureInitialized view st gen
  let r₂ := processBorders view r₁.1 r₁.2
  (r₂.1, r₂.2, r₂.1.items)

/-- `collectVisibleItems` (present in the source but not called by
`getItems`): the items whose bounds intersect the viewport expanded by the
overscan margins. -/
def collectVisibleItems (st : MasonryState) (view : Viewport) : List PlacedImage :=
  let windowLeft := view.x - st.cfg.horizontalOverscan
  let windowRight := view.x + view.width + st.cfg.horizontalOverscan
  let windowTop := view.y - st.cfg.verticalOverscan
  let windowBottom := view.y + view.height + st.cfg.verticalOverscan
  st.items.filter (fun placed =>
    decide (placed.x + placed.width ≥ windowLeft) && decide (placed.x ≤ windowRight) &&
      decide (placed.y + placed.height ≥ windowTop) && decide (placed.y ≤ windowBottom))

/-- A sequence of `getItems` calls against one engine instance, threading
one generator stream. -/
def runCalls (st : MasonryState) (views : List Viewport)
    (gen : List MasonryImage) : MasonryState × List MasonryImage :=
  views.foldl (fun acc view =>
    let r := getItems view acc.1 acc.2
    (r.1, r.2.1)) (st, gen)

/-! ### C1: `getItems` does not filter by the viewport

`MasonryLayout.getItems` ends with `return this.state.placedImages`; the
call `this.collectVisibleItems(view)` is commented out (masonry.ts:252-253)
even though the method's doc comment promises "the items that intersect
the requested viewport".  A concrete run falsifies the claim: a generator
of 10×10 images, `columnWidth = 10`, zero gaps (so both overscans are 10),
a first call at `x = 0` and a second call at `x = 100`.  The second call
returns the items placed around `x = 0`, none of which intersects the
expanded viewport `[90, 120] × [-10, 20]`. -/

/-- A stream of forty 10×10 images. -/
def c1Gen : List MasonryImage :=
  (List.range 40).map (fun n =>
    { id := some n, width := some 10, height := some 10, content := n })

def c1Engine : MasonryState := mkMasonryLayout 10 0 0 0 0

def c1View1 : Viewport := { x := 0, y := 0, width := 10, height := 10 }

def c1View2 : Viewport := { x := 100, y := 0, width := 10, height := 10 }

/-- The state and output of the second `getItems` call. -/
def c1Run : MasonryState × List MasonryImage × List PlacedImage :=
  getItems c1View2 (getItems c1View1 c1Engine c1Gen).1
    (getItems c1View1 c1Engine c1Gen).2.1

set_option maxRecDepth 100000 in
/-- C1 evaluated at the failing input: the list returned by the second
`getItems` call contains an item whose right edge lies strictly left of
the expanded viewport (`placed.x + placed.width < view.x - overscan`), so
it intersects no part of `viewport ± overscan`; equivalently, the returned
list is strictly larger than `collectVisibleItems` would allow.  This
contradicts the claim (and the method's own doc comment) that `getItems`
returns the items whose bounds intersect `viewport ± overscan`. -/
theorem getItems_returns_non_intersecting_item :
    (c1Run.2.2.any (fun placed =>
        decide (placed.x + placed.width
          < c1View2.x - c1Run.1.cfg.horizontalOverscan)) = true) ∧
      c1Run.2.2.length ≠ (collectVisibleItems c1Run.1 c1View2).length := by
  constructor
  · decide
  · decide

end Masonry

/-! ## The image acquirer of `computeMasonryDisplay` — `src/unnamed/part_004`
(`createAcquireImage`) -/

namespace Display

/-- The `MasonryImage` shape consumed by `computeMasonryDisplay`; ids are
modelled as `Option ℕ` and the auto-generated string ids
`` `__masonry_generated_${autoId++}` `` live in the right summand of
`ℕ ⊕ ℕ`, disjoint from all supplied ids. -/
structure AcqImage where
  id : Option ℕ
  width : Option ℤ
  height : Option ℤ
  content : ℕ
deriving DecidableEq, Repr

/-- `MAX_IMAGE_ATTEMPTS = 4096`. -/
def MAX_IMAGE_ATTEMPTS : ℕ := 4096

/-- The `for (let attempt = 0; attempt < MAX_IMAGE_ATTEMPTS; attempt++)`
loop of the closure built by `createAcquireImage`, with the loop counter
modelled by the remaining attempts.  `getImage` is modelled as the stream
of its successive return values (`none` = a falsy candidate); `seenIds`
and `autoId` are the closure state, `cursor` the number of `getImage()`
calls made so far.  A successful acquisition returns the normalized id,
the candidate, and the updated closure state. -/
def acquireLoop (getImage : ℕ → Option AcqImage) :
    ℕ → List (ℕ ⊕ ℕ) → ℕ → ℕ →
      Except String ((ℕ ⊕ ℕ) × AcqImage × List (ℕ ⊕ ℕ) × ℕ × ℕ)
  | 0, _, _, _ => .error "getImage() failed to provide a unique image"
  | attemptsLeft + 1, seenIds, autoId, cursor =>
    match getImage cursor with
    | none => acquireLoop getImage attemptsLeft seenIds autoId (cursor + 1)
    | some candidate =>
      let idv : ℕ ⊕ ℕ :=
        match candidate.id with
        | some i => .inl i
        | none => .inr autoId
      let autoId' : ℕ :=
        match candidate.id with
        | some _ => autoId
        | none => autoId + 1
      if seenIds.contains idv then
        acquireLoop getImage attemptsLeft seenIds autoId' (cursor + 1)
      else if (match candidate.width, candidate.height with
          | some w, some h => decide (w ≤ 0) || decide (h ≤ 0)
          | _, _ => true) then
        .error "getImage() must return width and height > 0"
      else
        .ok (idv, candidate, seenIds ++ [idv], autoId', cursor + 1)

/-- One call of the supplier returned by `createAcquireImage`. -/
def acquireImage (getImage : ℕ → Option AcqImage) (seenIds : List (ℕ ⊕ ℕ))
    (autoId : ℕ) (cursor : ℕ) :
    Except String ((ℕ ⊕ ℕ) × AcqImage × List (ℕ ⊕ ℕ) × ℕ × ℕ) :=
  acquireLoop getImage MAX_IMAGE_ATTEMPTS seenIds autoId cursor

/-- C9 counterexample: in the `computeMasonryDisplay` iteration (a cited
source of the claim), a generated item with non-positive dimensions makes
the acquirer THROW (`Error("getImage() must return width and height > 0")`)
instead of being skipped silently — the operation does not "return without
throwing". -/
theorem acquireImage_throws_on_invalid_dimensions :
    acquireImage
        (fun _ => some { id := some 0, width := some 0, height := some 10, content := 0 })
        [] 0 0
      = .error "getImage() must return width and height > 0" := rfl

/-- Exhausted attempts also throw rather than give up silently. -/
theorem acquireLoop_exhausted_throws (getImage : ℕ → Option AcqImage)
    (hg : ∀ n, getImage n = none) :
    ∀ attempts seenIds autoId cursor,
      acquireLoop getImage attempts seenIds autoId cursor
        = .error "getImage() failed to provide a unique image" := by
  intro attempts
  induction attempts with
  | zero =>
    intro seenIds autoId cursor
    rfl
  | succ n ih =>
    intro seenIds autoId cursor
    simp only [acquireLoop, hg]
    exact ih seenIds autoId (cursor + 1)

end Display

namespace Masonry

/-- C9 (amended): in `MasonryLayout` an image with invalid natural
dimensions is never placed and never advances the cursor — each of the four
fill/border loops simply drops it and continues with the next generated
image, leaving the state untouched (and throwing nothing, since these
paths cannot throw); the retries are NOT bounded: the loops retry as long
as the generator keeps yielding.  The one bounded-attempt loop in the
repository is `createAcquireImage` of `computeMasonryDisplay`
(`src/unnamed/part_004`), whose attempts are capped at
`MAX_IMAGE_ATTEMPTS = 4096` — but on exhaustion it throws
(`"getImage() failed to provide a unique image"`) rather than giving up
silently, and an invalid-dimension candidate makes it throw immediately. -/
theorem invalid_image_skipped_and_attempts_bounded :
    (∀ (st : MasonryState) (colIdx target : ℤ) (image : MasonryImage)
        (rest : List MasonryImage),
        computeScaledHeight st.cfg image = none →
        fillCursor st colIdx < target →
        fillColumnDownward colIdx target st (image :: rest)
          = fillColumnDownward colIdx target st rest) ∧
      (∀ (st : MasonryState) (colIdx border : ℤ) (image : MasonryImage)
          (rest : List MasonryImage),
          computeScaledHeight st.cfg image = none →
          fillCursor st colIdx < border →
          extendColumnDownward colIdx border st (image :: rest)
            = extendColumnDownward colIdx border st rest) ∧
      (∀ (st : MasonryState) (colIdx border : ℤ) (image : MasonryImage)
          (rest : List MasonryImage) (sTop : ℕ),
          computeScaledHeight st.cfg image = none →
          ((findColumn st colIdx).getD []).head? = some sTop →
          border < (derefItem st sTop).y →
          extendColumnUpward colIdx border st (image :: rest)
            = extendColumnUpward colIdx border st rest) ∧
      (∀ (st : MasonryState) (colIdx border cursorY : ℤ) (image : MasonryImage)
          (rest : List MasonryImage),
          computeScaledHeight st.cfg image = none →
          cursorY < border →
          populateLoop colIdx border st cursorY (image :: rest)
            = populateLoop colIdx border st cursorY rest) ∧
      (∀ (getImage : ℕ → Option Display.AcqImage), (∀ n, getImage n = none) →
        ∀ seenIds autoId cursor,
          Display.acquireImage getImage seenIds autoId cursor
            = .error "getImage() failed to provide a unique image") := by
  refine ⟨?_, ?_, ?_, ?_, ?_⟩
  · intro st colIdx target image rest h1 h2
    simp only [fillColumnDownward]
    rw [if_pos h2, h1]
  · intro st colIdx border image rest h1 h2
    simp only [extendColumnDownward]
    rw [if_neg (by omega), h1]
  · intro st colIdx border image rest sTop h1 h2 h3
    simp only [extendColumnUpward]
    rw [h2]
    dsimp only
    rw [if_neg (by omega), h1]
  · intro st colIdx border cursorY image rest h1 h2
    simp only [populateLoop]
    rw [if_pos h2, h1]
  · intro getImage hg seenIds autoId cursor
    exact Display.acquireLoop_exhausted_throws getImage hg _ seenIds autoId cursor

/-! ### Column bookkeeping lemmas -/

theorem find?_update_self (cols : List (ℤ × List ℕ)) (idx : ℤ) (serials : List ℕ) :
    (cols.map (fun e => if e.1 == idx then (e.1, serials) else e)).find?
        (fun e => e.1 == idx)
      = (cols.find? (fun e => e.1 == idx)).map (fun e => (e.1, serials)) := by
  induction cols with
  | nil => rfl
  | cons e rest ih =>
    by_cases he : e.1 = idx
    · rw [List.map_cons, if_pos (by simpa using he)]
      rw [List.find?_cons_of_pos (p := fun (x : ℤ × List ℕ) => x.1 == idx) _ (by simpa using he),
        List.find?_cons_of_pos (p := fun (x : ℤ × List ℕ) => x.1 == idx) _ (by simpa using he)]
      rfl
    · rw [List.map_cons, if_neg (by simpa using he)]
      rw [List.find?_cons_of_neg (p := fun (x : ℤ × List ℕ) => x.1 == idx) _ (by simpa using he),
        List.find?_cons_of_neg (p := fun (x : ℤ × List ℕ) => x.1 == idx) _ (by simpa using he)]
      exact ih

theorem find?_update_ne (cols : List (ℤ × List ℕ)) (idx c : ℤ) (serials : List ℕ)
    (h : c ≠ idx) :
    (cols.map (fun e => if e.1 == idx then (e.1, serials) else e)).find?
        (fun e => e.1 == c)
      = cols.find? (fun e => e.1 == c) := by
  induction cols with
  | nil => rfl
  | cons e rest ih =>
    rw [List.map_cons]
    by_cases he : e.1 = idx
    · rw [if_pos (by simpa using he)]
      have hne : e.1 ≠ c := by
        rw [he]
        exact fun hk => h hk.symm
      rw [List.find?_cons_of_neg (p := fun (x : ℤ × List ℕ) => x.1 == c) _ (by simpa using hne),
        List.find?_cons_of_neg (p := fun (x : ℤ × List ℕ) => x.1 == c) _ (by simpa using hne)]
      exact ih
    · rw [if_neg (by simpa using he)]
      by_cases hc : e.1 = c
      · rw [List.find?_cons_of_pos (p := fun (x : ℤ × List ℕ) => x.1 == c) _ (by simpa using hc),
          List.find?_cons_of_pos (p := fun (x : ℤ × List ℕ) => x.1 == c) _ (by simpa using hc)]
      · rw [List.find?_cons_of_neg (p := fun (x : ℤ × List ℕ) => x.1 == c) _ (by simpa using hc),
          List.find?_cons_of_neg (p := fun (x : ℤ × List ℕ) => x.1 == c) _ (by simpa using hc)]
        exact ih

theorem findColumn_items (st : MasonryState) (l : List PlacedImage) (idx : ℤ) :
    findColumn { st with items := l } idx = findColumn st idx := rfl

theorem findColumn_setColumn_self (st : MasonryState) (idx : ℤ) (serials : List ℕ)
    (h : (findColumn st idx).isSome) :
    findColumn (setColumn st idx serials) idx = some serials := by
  unfold findColumn setColumn at *
  rw [find?_update_self]
  rcases hf : st.columns.find? (fun e => e.1 == idx) with _ | e
  · rw [hf] at h
    cases h
  · rw [hf]
    rfl

theorem findColumn_setColumn_ne (st : MasonryState) (idx c : ℤ) (serials : List ℕ)
    (h : c ≠ idx) :
    findColumn (setColumn st idx serials) c = findColumn st c := by
  unfold findColumn setColumn
  rw [find?_update_ne _ _ _ _ h]

theorem findColumn_setColumn_none (st : MasonryState) (idx : ℤ) (serials : List ℕ)
    (h : findColumn st idx = none) :
    findColumn (setColumn st idx serials) idx = none := by
  unfold findColumn setColumn at *
  rw [find?_update_self]
  rcases hf : st.columns.find? (fun e => e.1 == idx) with _ | e
  · rw [hf]
    rfl
  · rw [hf] at h
    cases h

theorem findColumn_getOrCreateColumn_self (st : MasonryState) (idx : ℤ) :
    findColumn (getOrCreateColumn st idx) idx
      = some ((findColumn st idx).getD []) := by
  rcases hf : findColumn st idx with _ | s
  · have hf' : st.columns.find? (fun e => e.1 == idx) = none := by
      have h0 := hf
      unfold findColumn at h0
      exact Option.map_eq_none'.mp h0
    simp only [getOrCreateColumn, hf]
    show ((st.columns ++ [(idx, [])]).find?
        (fun (x : ℤ × List ℕ) => x.1 == idx)).map
      (fun (x : ℤ × List ℕ) => x.2) = some (Option.getD none [])
    rw [List.find?_append, hf']
    simp
  · simp only [getOrCreateColumn, hf]
    rfl

theorem findColumn_getOrCreateColumn_ne (st : MasonryState) (idx c : ℤ) (h : c ≠ idx) :
    findColumn (getOrCreateColumn st idx) c = findColumn st c := by
  rcases hf : findColumn st idx with _ | s
  · simp only [getOrCreateColumn, hf]
    show ((st.columns ++ [(idx, [])]).find?
        (fun (x : ℤ × List ℕ) => x.1 == c)).map (fun (x : ℤ × List ℕ) => x.2)
      = findColumn st c
    rw [List.find?_append]
    have hsingle : ([((idx : ℤ), ([] : List ℕ))].find? (fun e => e.1 == c)) = none := by
      rw [List.find?_eq_none]
      intro x hx
      rw [List.mem_singleton.mp hx]
      simpa using fun hk => h hk.symm
    rw [hsingle, Option.or_none]
    rfl
  · simp only [getOrCreateColumn, hf]

theorem getOrCreateColumn_cfg (st : MasonryState) (idx : ℤ) :
    (getOrCreateColumn st idx).cfg = st.cfg := by
  rcases hf : findColumn st idx with _ | s <;> simp only [getOrCreateColumn, hf]

theorem getOrCreateColumn_items (st : MasonryState) (idx : ℤ) :
    (getOrCreateColumn st idx).items = st.items := by
  rcases hf : findColumn st idx with _ | s <;> simp only [getOrCreateColumn, hf]

theorem getD_append_lt (l l' : List PlacedImage) (s : ℕ) (h : s < l.length) :
    (l ++ l').getD s default = l.getD s default := by
  rw [List.getD_eq_getElem?_getD, List.getD_eq_getElem?_getD, List.getElem?_append,
    if_pos h]

theorem getD_concat_length (l : List PlacedImage) (a : PlacedImage) :
    (l ++ [a]).getD l.length default = a := by
  rw [List.getD_eq_getElem?_getD, List.getElem?_concat_length]
  rfl

/-- The common tail of `pushBottom`/`pushTop` once the heal is known to be
a no-op: append the new item and give the column its new serial list. -/
def pushRaw (st : MasonryState) (colIdx : ℤ) (placed : PlacedImage)
    (serials' : List ℕ) : MasonryState :=
  setColumn { st with items := st.items ++ [placed] } colIdx serials'

theorem pushRaw_cfg (st : MasonryState) (colIdx : ℤ) (placed : PlacedImage)
    (serials' : List ℕ) : (pushRaw st colIdx placed serials').cfg = st.cfg := rfl

theorem pushRaw_items (st : MasonryState) (colIdx : ℤ) (placed : PlacedImage)
    (serials' : List ℕ) :
    (pushRaw st colIdx placed serials').items = st.items ++ [placed] := rfl

theorem derefItem_pushRaw_lt (st : MasonryState) (colIdx : ℤ) (placed : PlacedImage)
    (serials' : List ℕ) {s : ℕ} (h : s < st.items.length) :
    derefItem (pushRaw st colIdx placed serials') s = derefItem st s := by
  show (st.items ++ [placed]).getD s default = st.items.getD s default
  exact getD_append_lt _ _ _ h

theorem derefItem_pushRaw_new (st : MasonryState) (colIdx : ℤ) (placed : PlacedImage)
    (serials' : List ℕ) :
    derefItem (pushRaw st colIdx placed serials') st.items.length = placed := by
  show (st.items ++ [placed]).getD st.items.length default = placed
  exact getD_concat_length _ _

/-- `pushBottom` at the running cursor (or into an empty column) reduces to
the raw append: the bottom heal fires only when the inserted gap differs
from `rowGap`, and an insertion at
`y = last.y + last.height + rowGap` makes `delta = 0`. -/
theorem pushBottom_spec (st : MasonryState) (colIdx : ℤ) (image : MasonryImage)
    (y h : ℤ)
    (hb : ∀ s ∈ (findColumn st colIdx).getD [], s < st.items.length)
    (hy : (findColumn st colIdx).getD [] = [] ∨ y = fillCursor st colIdx) :
    pushBottom st colIdx image y h
      = pushRaw st colIdx (createPlacedImage st.cfg image colIdx y h)
          ((findColumn st colIdx).getD [] ++ [st.items.length]) := by
  simp only [pushBottom, pushRaw]
  rcases hfc : findColumn st colIdx with _ | old
  · -- no column entry: the updated serial list is [items.length], inserted index 0
    simp only [hfc, Option.getD_none]
    simp only [healColumnAfterBottomInsertion]
    have h₂ : findColumn (setColumn { st with items := st.items ++ [createPlacedImage st.cfg image colIdx y h] } colIdx ([] ++ [st.items.length])) colIdx = none :=
      findColumn_setColumn_none _ _ _ hfc
    rw [h₂]
    simp
  · rcases hold : old with _ | ⟨o, old'⟩
    · -- empty column: inserted index 0, no item above
      simp only [hfc, Option.getD_some]
      simp only [healColumnAfterBottomInsertion]
      have h₂ : findColumn (setColumn { st with items := st.items ++ [createPlacedImage st.cfg image colIdx y h] } colIdx ([] ++ [st.items.length])) colIdx = some ([] ++ [st.items.length]) := by
        refine findColumn_setColumn_self _ _ _ ?_
        rw [show findColumn { st with items := st.items ++ [createPlacedImage st.cfg image colIdx y h] } colIdx = findColumn st colIdx from rfl, hfc, hold]
        rfl
      rw [h₂]
      simp
    · -- non-empty column: the insertion sits exactly `rowGap` below the last
      subst hold
      have hcur : y = fillCursor st colIdx := by
        rcases hy with hy | hy
        · rw [hfc] at hy
          cases hy
        · exact hy
      simp only [hfc, Option.getD_some]
      simp only [healColumnAfterBottomInsertion]
      have h₂ : findColumn (setColumn { st with items := st.items ++ [createPlacedImage st.cfg image colIdx y h] } colIdx ((o :: old') ++ [st.items.length])) colIdx = some ((o :: old') ++ [st.items.length]) := by
        refine findColumn_setColumn_self _ _ _ ?_
        rw [show findColumn { st with items := st.items ++ [createPlacedImage st.cfg image colIdx y h] } colIdx = findColumn st colIdx from rfl, hfc]
        rfl
      rw [h₂]
      simp only [Option.getD_some]
      have hlen : (o :: old').length ≠ 0 := by simp
      rw [if_neg hlen]
      have hins : ((o :: old') ++ [st.items.length])[(o :: old').length]?
          = some st.items.length := List.getElem?_concat_length _ _
      rcases hlast : (o :: old').getLast? with _ | sLast
      · rw [List.getLast?_eq_none_iff] at hlast
        cases hlast
      · have hmemlast : sLast ∈ o :: old' := List.mem_of_mem_getLast? hlast
        have habove : ((o :: old') ++ [st.items.length])[(o :: old').length - 1]?
            = some sLast := by
          rw [List.getElem?_append, if_pos (by simp)]
          rw [← List.getLast?_eq_getElem?]
          exact hlast
        rw [hins, habove]
        dsimp only
        have hd_new : derefItem (setColumn { st with items := st.items ++ [createPlacedImage st.cfg image colIdx y h] } colIdx ((o :: old') ++ [st.items.length])) st.items.length = createPlacedImage st.cfg image colIdx y h :=
          derefItem_pushRaw_new st colIdx _ _
        have hd_last : derefItem (setColumn { st with items := st.items ++ [createPlacedImage st.cfg image colIdx y h] } colIdx ((o :: old') ++ [st.items.length])) sLast = derefItem st sLast := by
          refine derefItem_pushRaw_lt st colIdx _ _ ?_
          refine hb sLast ?_
          rw [hfc]
          exact hmemlast
        rw [hd_new, hd_last]
        have hcur' : fillCursor st colIdx
            = (derefItem st sLast).y + (derefItem st sLast).height + st.cfg.rowGap := by
          unfold fillCursor
          rw [hfc]
          show (match (o :: old').getLast? with
            | some s => (derefItem st s).y + (derefItem st s).height + st.cfg.rowGap
            | none => st.cfg.originY) = _
          rw [hlast]
        have hdelta : (derefItem st sLast).y + (derefItem st sLast).height
            + (setColumn { st with items := st.items ++ [createPlacedImage st.cfg image colIdx y h] } colIdx ((o :: old') ++ [st.items.length])).cfg.rowGap
            - (createPlacedImage st.cfg image colIdx y h).y = 0 := by
          show (derefItem st sLast).y + (derefItem st sLast).height + st.cfg.rowGap - y = 0
          rw [hcur, hcur']
          ring
        by_cases hov : rectanglesOverlapVertically (derefItem st sLast)
            (createPlacedImage st.cfg image colIdx y h)
            (-(setColumn { st with items := st.items ++ [createPlacedImage st.cfg image colIdx y h] } colIdx ((o :: old') ++ [st.items.length])).cfg.rowGap) = true
        · rw [if_pos hov, if_pos hdelta]
        · rw [if_neg hov]

/-- `pushTop` at `top.y - rowGap - height` (or into an empty column)
reduces to the raw prepend: the top heal's `delta` is `0` there. -/
theorem pushTop_spec (st : MasonryState) (colIdx : ℤ) (image : MasonryImage)
    (y h : ℤ)
    (hb : ∀ s ∈ (findColumn st colIdx).getD [], s < st.items.length)
    (hy : ∀ s₀ ∈ ((findColumn st colIdx).getD []).head?,
      y = (derefItem st s₀).y - st.cfg.rowGap - h) :
    pushTop st colIdx image y h
      = pushRaw st colIdx (createPlacedImage st.cfg image colIdx y h)
          (st.items.length :: (findColumn st colIdx).getD []) := by
  simp only [pushTop, pushRaw]
  rcases hfc : findColumn st colIdx with _ | old
  · simp only [hfc, Option.getD_none]
    simp only [healColumnAfterTopInsertion]
    have h₂ : findColumn (setColumn { st with items := st.items ++ [createPlacedImage st.cfg image colIdx y h] } colIdx (st.items.length :: [])) colIdx = none :=
      findColumn_setColumn_none _ _ _ hfc
    rw [h₂]
    simp
  · simp only [hfc, Option.getD_some]
    simp only [healColumnAfterTopInsertion]
    have h₂ : findColumn (setColumn { st with items := st.items ++ [createPlacedImage st.cfg image colIdx y h] } colIdx (st.items.length :: old)) colIdx = some (st.items.length :: old) := by
      refine findColumn_setColumn_self _ _ _ ?_
      rw [show findColumn { st with items := st.items ++ [createPlacedImage st.cfg image colIdx y h] } colIdx = findColumn st colIdx from rfl, hfc]
      rfl
    rw [h₂]
    simp only [Option.getD_some]
    rcases hth : old with _ | ⟨s₀, old'⟩
    · simp
    · have hhead : (st.items.length :: s₀ :: old')[0]? = some st.items.length := rfl
      have hbelow : (st.items.length :: s₀ :: old')[0 + 1]? = some s₀ := by
        rw [List.getElem?_cons_succ]
        exact List.getElem?_cons_zero
      rw [hhead, hbelow]
      dsimp only
      have hd_new : derefItem (setColumn { st with items := st.items ++ [createPlacedImage st.cfg image colIdx y h] } colIdx (st.items.length :: s₀ :: old')) st.items.length = createPlacedImage st.cfg image colIdx y h :=
        derefItem_pushRaw_new st colIdx _ _
      have hd_head : derefItem (setColumn { st with items := st.items ++ [createPlacedImage st.cfg image colIdx y h] } colIdx (st.items.length :: s₀ :: old')) s₀ = derefItem st s₀ := by
        refine derefItem_pushRaw_lt st colIdx _ _ ?_
        refine hb s₀ ?_
        rw [hfc, hth]
        exact List.mem_cons_self _ _
      rw [hd_new, hd_head]
      have hy₀ : y = (derefItem st s₀).y - st.cfg.rowGap - h := by
        refine hy s₀ ?_
        rw [hfc, hth]
        rfl
      have hdelta : (derefItem st s₀).y
          - (setColumn { st with items := st.items ++ [createPlacedImage st.cfg image colIdx y h] } colIdx (st.items.length :: s₀ :: old')).cfg.rowGap
          - (createPlacedImage st.cfg image colIdx y h).height
          - (createPlacedImage st.cfg image colIdx y h).y = 0 := by
        show (derefItem st s₀).y - st.cfg.rowGap - h - y = 0
        rw [hy₀]
        ring
      by_cases hov : rectanglesOverlapVertically
          (createPlacedImage st.cfg image colIdx y h) (derefItem st s₀)
          (-(setColumn { st with items := st.items ++ [createPlacedImage st.cfg image colIdx y h] } colIdx (st.items.length :: s₀ :: old')).cfg.rowGap) = true
      · rw [if_pos hov, if_pos hdelta]
      · rw [if_neg hov]

/-! ### The per-column layout invariant

In every reachable state, each column's items (read through the shared
store) sit at exactly `rowGap` from their neighbour — insertions always
happen at the cursor/top offset, and the heal functions then compute
`delta = 0`.  Together with `height ≥ 1` this yields claim C2. -/

/-- A column's items, top to bottom. -/
def colDeref (st : MasonryState) (serials : List ℕ) : List PlacedImage :=
  serials.map (derefItem st)

/-- The invariant of one column: adjacent items are chained at exactly
`rowGap`, serials are live, and heights are at least 1. -/
def goodColumn (st : MasonryState) (serials : List ℕ) : Prop :=
  List.Chain' (fun a b => b.y = a.y + a.height + st.cfg.rowGap) (colDeref st serials) ∧
    (∀ s ∈ serials, s < st.items.length) ∧
    (∀ s ∈ serials, 1 ≤ (derefItem st s).height)

/-- The engine invariant: column keys are unique and every column is good. -/
def StInv (st : MasonryState) : Prop :=
  (st.columns.map Prod.fst).Nodup ∧ ∀ p ∈ st.columns, goodColumn st p.2

theorem findColumn_mem {st : MasonryState} {idx : ℤ} {serials : List ℕ}
    (h : findColumn st idx = some serials) : (idx, serials) ∈ st.columns := by
  unfold findColumn at h
  rcases Option.map_eq_some'.mp h with ⟨e, hfind, he2⟩
  have hkey : e.1 = idx := by simpa using List.find?_some hfind
  have hmem := List.mem_of_find?_eq_some hfind
  rcases e with ⟨k, v⟩
  simp only at hkey he2
  rw [← hkey, ← he2]
  exact hmem

theorem find?_of_mem_nodup {cols : List (ℤ × List ℕ)}
    (hnd : (cols.map Prod.fst).Nodup) {p : ℤ × List ℕ} (hmem : p ∈ cols) :
    cols.find? (fun e => e.1 == p.1) = some p := by
  induction cols with
  | nil => cases hmem
  | cons e rest ih =>
    have hnd' := List.nodup_cons.mp (show (e.1 :: rest.map Prod.fst).Nodup from hnd)
    rcases List.mem_cons.mp hmem with heq | hrest
    · subst heq
      exact List.find?_cons_of_pos _ (by simp)
    · have hne : e.1 ≠ p.1 := by
        intro hk
        exact hnd'.1 (hk ▸ List.mem_map.mpr ⟨p, hrest, rfl⟩)
      rw [List.find?_cons_of_neg _ (by simpa using hne)]
      exact ih hnd'.2 hrest

theorem stInv_bound {st : MasonryState} (hinv : StInv st) (idx : ℤ) :
    ∀ s ∈ (findColumn st idx).getD [], s < st.items.length := by
  rcases hf : findColumn st idx with _ | serials
  · simp
  · exact (hinv.2 _ (findColumn_mem hf)).2.1

/-- A good column stays good when the item store is only appended to and
the configuration is unchanged. -/
theorem goodColumn_mono {st st' : MasonryState} (hcfg : st'.cfg = st.cfg)
    (hpre : st.items <+: st'.items) {serials : List ℕ}
    (hg : goodColumn st serials) : goodColumn st' serials := by
  obtain ⟨t, ht⟩ := hpre
  have hderef : ∀ s ∈ serials, derefItem st' s = derefItem st s := by
    intro s hs
    show st'.items.getD s default = st.items.getD s default
    rw [← ht]
    exact getD_append_lt _ _ _ (hg.2.1 s hs)
  refine ⟨?_, ?_, ?_⟩
  · have : colDeref st' serials = colDeref st serials := List.map_congr_left hderef
    rw [this, hcfg]
    exact hg.1
  · intro s hs
    have : st.items.length ≤ st'.items.length := by
      rw [← ht]
      simp
    exact lt_of_lt_of_le (hg.2.1 s hs) this
  · intro s hs
    rw [hderef s hs]
    exact hg.2.2 s hs

theorem columns_map_fst_setColumn (st : MasonryState) (idx : ℤ) (serials : List ℕ) :
    (setColumn st idx serials).columns.map Prod.fst = st.columns.map Prod.fst := by
  show (st.columns.map (fun e => if e.1 == idx then (e.1, serials) else e)).map Prod.fst
    = st.columns.map Prod.fst
  rw [List.map_map]
  apply List.map_congr_left
  intro e he
  by_cases h : e.1 = idx <;> simp [h, Function.comp]

theorem computeScaledHeight_pos {cfg : MasonryConfig} {image : MasonryImage} {h : ℤ}
    (hcs : computeScaledHeight cfg image = some h) : 1 ≤ h := by
  unfold computeScaledHeight at hcs
  rcases hw : image.width with _ | w <;> rw [hw] at hcs <;>
    rcases hh2 : image.height with _ | v <;> rw [hh2] at hcs
  · cases hcs
  · cases hcs
  · cases hcs
  · dsimp only at hcs
    split at hcs
    · cases hcs
    · have := Option.some.inj hcs
      rw [← this]
      exact le_max_left _ _

/-- Appending one item at the cursor keeps a column good. -/
theorem goodColumn_append {st st' : MasonryState} {old : List ℕ} {placed : PlacedImage}
    (hcfg : st'.cfg = st.cfg)
    (hitems : st'.items = st.items ++ [placed])
    (hg : goodColumn st old)
    (hlink : ∀ sLast ∈ old.getLast?,
      placed.y = (derefItem st sLast).y + (derefItem st sLast).height + st.cfg.rowGap)
    (hh : 1 ≤ placed.height) :
    goodColumn st' (old ++ [st.items.length]) := by
  have hderef_old : ∀ s ∈ old, derefItem st' s = derefItem st s := by
    intro s hs
    show st'.items.getD s default = st.items.getD s default
    rw [hitems]
    exact getD_append_lt _ _ _ (hg.2.1 s hs)
  have hderef_new : derefItem st' st.items.length = placed := by
    show st'.items.getD st.items.length default = placed
    rw [hitems]
    exact getD_concat_length _ _
  have hcol : colDeref st' (old ++ [st.items.length]) = colDeref st old ++ [placed] := by
    unfold colDeref
    rw [List.map_append]
    congr 1
    · exact List.map_congr_left hderef_old
    · simp [hderef_new]
  refine ⟨?_, ?_, ?_⟩
  · rw [hcol, hcfg, List.chain'_append]
    refine ⟨hg.1, List.chain'_singleton _, ?_⟩
    intro a ha b hb
    have hb' : b = placed := by
      rw [Option.mem_def] at hb
      exact (Option.some.inj (show some placed = some b from hb)).symm
    rw [hb']
    rcases hlast : old.getLast? with _ | sLast
    · rw [List.getLast?_eq_none_iff] at hlast
      subst hlast
      rw [Option.mem_def] at ha
      simp [colDeref] at ha
    · have hlast' : (colDeref st old).getLast? = some (derefItem st sLast) := by
        unfold colDeref
        rw [List.getLast?_map, hlast]
        rfl
      rw [Option.mem_def, hlast'] at ha
      have ha' : a = derefItem st sLast := (Option.some.inj ha).symm
      rw [ha']
      exact hlink sLast (Option.mem_def.mpr hlast)
  · intro s hs
    have hlen : st'.items.length = st.items.length + 1 := by
      rw [hitems]
      simp
    rcases List.mem_append.mp hs with hl | hr
    · have := hg.2.1 s hl
      omega
    · rw [List.mem_singleton.mp hr]
      omega
  · intro s hs
    rcases List.mem_append.mp hs with hl | hr
    · rw [hderef_old s hl]
      exact hg.2.2 s hl
    · rw [List.mem_singleton.mp hr, hderef_new]
      exact hh

/-- Prepending one item at the top offset keeps a column good. -/
theorem goodColumn_prepend {st st' : MasonryState} {old : List ℕ} {placed : PlacedImage}
    (hcfg : st'.cfg = st.cfg)
    (hitems : st'.items = st.items ++ [placed])
    (hg : goodColumn st old)
    (hlink : ∀ s₀ ∈ old.head?,
      (derefItem st s₀).y = placed.y + placed.height + st.cfg.rowGap)
    (hh : 1 ≤ placed.height) :
    goodColumn st' (st.items.length :: old) := by
  have hderef_old : ∀ s ∈ old, derefItem st' s = derefItem st s := by
    intro s hs
    show st'.items.getD s default = st.items.getD s default
    rw [hitems]
    exact getD_append_lt _ _ _ (hg.2.1 s hs)
  have hderef_new : derefItem st' st.items.length = placed := by
    show st'.items.getD st.items.length default = placed
    rw [hitems]
    exact getD_concat_length _ _
  have hcol : colDeref st' (st.items.length :: old) = placed :: colDeref st old := by
    unfold colDeref
    rw [List.map_cons, hderef_new]
    congr 1
    exact List.map_congr_left hderef_old
  refine ⟨?_, ?_, ?_⟩
  · rw [hcol, hcfg, List.chain'_cons']
    constructor
    · intro b hb
      rcases hhead : old.head? with _ | s₀
      · rw [List.head?_eq_none_iff] at hhead
        subst hhead
        rw [Option.mem_def] at hb
        simp [colDeref] at hb
      · have hhead2 : (colDeref st old).head? = some (derefItem st s₀) := by
          unfold colDeref
          rw [List.head?_map, hhead]
          rfl
        have hb' : b = derefItem st s₀ := by
          rw [Option.mem_def, hhead2] at hb
          exact (Option.some.inj hb).symm
        rw [hb']
        exact hlink s₀ (Option.mem_def.mpr hhead)
    · exact hg.1
  · intro s hs
    have hlen : st'.items.length = st.items.length + 1 := by
      rw [hitems]
      simp
    rcases List.mem_cons.mp hs with hl | hr
    · omega
    · have := hg.2.1 s hr
      omega
  · intro s hs
    rcases List.mem_cons.mp hs with hl | hr
    · rw [hl, hderef_new]
      exact hh
    · rw [hderef_old s hr]
      exact hg.2.2 s hr

/-- `pushBottom` at the cursor preserves the invariant. -/
theorem stInv_pushBottom {st : MasonryState} (hinv : StInv st) (colIdx : ℤ)
    (image : MasonryImage) {y h : ℤ} (hh : 1 ≤ h)
    (hy : (findColumn st colIdx).getD [] = [] ∨ y = fillCursor st colIdx) :
    StInv (pushBottom st colIdx image y h) := by
  rw [pushBottom_spec st colIdx image y h (stInv_bound hinv colIdx) hy]
  constructor
  · rw [show (pushRaw st colIdx (createPlacedImage st.cfg image colIdx y h) ((findColumn st colIdx).getD [] ++ [st.items.length])).columns = (setColumn { st with items := st.items ++ [createPlacedImage st.cfg image colIdx y h] } colIdx ((findColumn st colIdx).getD [] ++ [st.items.length])).columns from rfl]
    rw [columns_map_fst_setColumn]
    exact hinv.1
  · intro p' hp'
    rcases List.mem_map.mp hp' with ⟨p, hp, hfp⟩
    by_cases hk : p.1 = colIdx
    · -- the updated column: its old serial list is the `findColumn` result
      have hfind : findColumn st colIdx = some p.2 := by
        unfold findColumn
        rw [show (fun (e : ℤ × List ℕ) => e.1 == colIdx) = (fun e => e.1 == p.1) by
          rw [hk], find?_of_mem_nodup hinv.1 hp]
        rfl
      have hold := (hinv.2 p hp)
      rw [← hfp, if_pos (by simpa using hk)]
      show goodColumn (pushRaw st colIdx (createPlacedImage st.cfg image colIdx y h)
        ((findColumn st colIdx).getD [] ++ [st.items.length]))
        ((findColumn st colIdx).getD [] ++ [st.items.length])
      rw [hfind]
      show goodColumn (pushRaw st colIdx (createPlacedImage st.cfg image colIdx y h)
        ((findColumn st colIdx).getD [] ++ [st.items.length])) (p.2 ++ [st.items.length])
      refine goodColumn_append rfl rfl hold ?_ ?_
      · intro sLast hlast'
        have hlast : p.2.getLast? = some sLast := Option.mem_def.mp hlast'
        have hcur : y = fillCursor st colIdx := by
          rcases hy with hy | hy
          · rw [hfind] at hy
            simp only [Option.getD_some] at hy
            rw [hy] at hlast
            simp at hlast
          · exact hy
        show (createPlacedImage st.cfg image colIdx y h).y = _
        show y = (derefItem st sLast).y + (derefItem st sLast).height + st.cfg.rowGap
        rw [hcur]
        unfold fillCursor
        rw [hfind]
        show (match p.2.getLast? with
          | some s => (derefItem st s).y + (derefItem st s).height + st.cfg.rowGap
          | none => st.cfg.originY) = _
        rw [hlast]
      · exact hh
    · -- untouched columns keep their entries and items
      rw [← hfp, if_neg (by simpa using hk)]
      exact @goodColumn_mono st
        (pushRaw st colIdx (createPlacedImage st.cfg image colIdx y h)
          ((findColumn st colIdx).getD [] ++ [st.items.length]))
        rfl ⟨[createPlacedImage st.cfg image colIdx y h], rfl⟩ p.2 (hinv.2 p hp)

/-- `pushTop` at the top offset preserves the invariant. -/
theorem stInv_pushTop {st : MasonryState} (hinv : StInv st) (colIdx : ℤ)
    (image : MasonryImage) {y h : ℤ} (hh : 1 ≤ h)
    (hy : ∀ s₀ ∈ ((findColumn st colIdx).getD []).head?,
      y = (derefItem st s₀).y - st.cfg.rowGap - h) :
    StInv (pushTop st colIdx image y h) := by
  rw [pushTop_spec st colIdx image y h (stInv_bound hinv colIdx) hy]
  constructor
  · rw [show (pushRaw st colIdx (createPlacedImage st.cfg image colIdx y h) (st.items.length :: (findColumn st colIdx).getD [])).columns = (setColumn { st with items := st.items ++ [createPlacedImage st.cfg image colIdx y h] } colIdx (st.items.length :: (findColumn st colIdx).getD [])).columns from rfl]
    rw [columns_map_fst_setColumn]
    exact hinv.1
  · intro p' hp'
    rcases List.mem_map.mp hp' with ⟨p, hp, hfp⟩
    by_cases hk : p.1 = colIdx
    · have hfind : findColumn st colIdx = some p.2 := by
        unfold findColumn
        rw [show (fun (e : ℤ × List ℕ) => e.1 == colIdx) = (fun e => e.1 == p.1) by
          rw [hk], find?_of_mem_nodup hinv.1 hp]
        rfl
      have hold := (hinv.2 p hp)
      rw [← hfp, if_pos (by simpa using hk)]
      show goodColumn (pushRaw st colIdx (createPlacedImage st.cfg image colIdx y h)
        (st.items.length :: (findColumn st colIdx).getD []))
        (st.items.length :: (findColumn st colIdx).getD [])
      rw [hfind]
      show goodColumn (pushRaw st colIdx (createPlacedImage st.cfg image colIdx y h)
        (st.items.length :: (findColumn st colIdx).getD []))
        (st.items.length :: p.2)
      refine goodColumn_prepend rfl rfl hold ?_ ?_
      · intro s₀ hs₀
        have hy₀ : y = (derefItem st s₀).y - st.cfg.rowGap - h := by
          refine hy s₀ (Option.mem_def.mpr ?_)
          rw [hfind]
          exact Option.mem_def.mp hs₀
        show (derefItem st s₀).y
          = (createPlacedImage st.cfg image colIdx y h).y
            + (createPlacedImage st.cfg image colIdx y h).height + st.cfg.rowGap
        show (derefItem st s₀).y = y + h + st.cfg.rowGap
        rw [hy₀]
        ring
      · exact hh
    · rw [← hfp, if_neg (by simpa using hk)]
      exact @goodColumn_mono st
        (pushRaw st colIdx (createPlacedImage st.cfg image colIdx y h)
          (st.items.length :: (findColumn st colIdx).getD []))
        rfl ⟨[createPlacedImage st.cfg image colIdx y h], rfl⟩ p.2 (hinv.2 p hp)


/-! ### The column-bounds invariant

`columnBounds.min/max` always bracket every existing column index, and the
two bounds are `null` together (both are set on the first creation and only
widened afterwards). -/

/-- `colMin`/`colMax` are `none` together and bracket every column key. -/
def BndInv (st : MasonryState) : Prop :=
  (st.colMax = none ↔ st.colMin = none) ∧
  ∀ k ∈ st.columns.map Prod.fst,
    (∃ mx, st.colMax = some mx ∧ k ≤ mx) ∧ ∃ mn, st.colMin = some mn ∧ mn ≤ k

theorem bndInv_pushRaw (st : MasonryState) (c : ℤ) (placed : PlacedImage)
    (serials : List ℕ) : BndInv st → BndInv (pushRaw st c placed serials) := by
  intro hb
  constructor
  · exact hb.1
  · intro k hk
    rw [show (pushRaw st c placed serials).columns
        = (setColumn { st with items := st.items ++ [placed] } c serials).columns
      from rfl, columns_map_fst_setColumn] at hk
    exact hb.2 k hk

theorem bndInv_getOrCreateColumn (st : MasonryState) (idx : ℤ) :
    BndInv st → BndInv (getOrCreateColumn st idx) := by
  intro hb
  unfold getOrCreateColumn
  rcases hf : findColumn st idx with _ | s
  · constructor
    · constructor
      · intro h
        cases h
      · intro h
        cases h
    · intro k hk
      rw [List.map_append] at hk
      rcases List.mem_append.mp hk with hl | hr
      · obtain ⟨⟨mx, hmx, hlemx⟩, ⟨mn, hmn, hlemn⟩⟩ := hb.2 k hl
        constructor
        · refine ⟨_, rfl, ?_⟩
          rw [hmx]
          exact le_trans hlemx (le_max_left _ _)
        · refine ⟨_, rfl, ?_⟩
          rw [hmn]
          exact le_trans (min_le_left _ _) hlemn
      · simp only [List.map_cons, List.map_nil, List.mem_singleton] at hr
        subst hr
        constructor
        · refine ⟨_, rfl, ?_⟩
          rcases st.colMax with _ | mx
          · exact le_refl _
          · exact le_max_right _ _
        · refine ⟨_, rfl, ?_⟩
          rcases st.colMin with _ | mn
          · exact le_refl _
          · exact min_le_right _ _
  · exact hb

/-! ### Invariant preservation through every engine operation

Each step of the engine only appends to the shared `placedImages` store and
never touches the configuration; `Evolves` records this, and the lemmas
below carry `StInv` through every loop, border phase and full `getItems`
call. -/

/-- One engine step: same configuration, item store only appended to, and
the bounds invariant carried along. -/
def Evolves (st st' : MasonryState) : Prop :=
  st'.cfg = st.cfg ∧ st.items <+: st'.items ∧ (BndInv st → BndInv st')

theorem evolves_refl (st : MasonryState) : Evolves st st :=
  ⟨rfl, List.prefix_rfl, id⟩

theorem evolves_trans {s₁ s₂ s₃ : MasonryState}
    (h₁ : Evolves s₁ s₂) (h₂ : Evolves s₂ s₃) : Evolves s₁ s₃ :=
  ⟨h₂.1.trans h₁.1, h₁.2.1.trans h₂.2.1, fun hb => h₂.2.2 (h₁.2.2 hb)⟩

theorem evolves_pushBottom {st : MasonryState} (hinv : StInv st) (colIdx : ℤ)
    (image : MasonryImage) (y h : ℤ)
    (hy : (findColumn st colIdx).getD [] = [] ∨ y = fillCursor st colIdx) :
    Evolves st (pushBottom st colIdx image y h) := by
  rw [pushBottom_spec st colIdx image y h (stInv_bound hinv colIdx) hy]
  exact ⟨rfl, ⟨[createPlacedImage st.cfg image colIdx y h], rfl⟩,
    bndInv_pushRaw st colIdx _ _⟩

theorem evolves_pushTop {st : MasonryState} (hinv : StInv st) (colIdx : ℤ)
    (image : MasonryImage) (y h : ℤ)
    (hy : ∀ s₀ ∈ ((findColumn st colIdx).getD []).head?,
      y = (derefItem st s₀).y - st.cfg.rowGap - h) :
    Evolves st (pushTop st colIdx image y h) := by
  rw [pushTop_spec st colIdx image y h (stInv_bound hinv colIdx) hy]
  exact ⟨rfl, ⟨[createPlacedImage st.cfg image colIdx y h], rfl⟩,
    bndInv_pushRaw st colIdx _ _⟩

theorem findColumn_eq_none_notMem {st : MasonryState} {idx : ℤ}
    (h : findColumn st idx = none) : idx ∉ st.columns.map Prod.fst := by
  intro hmem
  rcases List.mem_map.mp hmem with ⟨p, hp, hfp⟩
  unfold findColumn at h
  rw [Option.map_eq_none'] at h
  have := List.find?_eq_none.mp h p hp
  simp [hfp] at this

theorem stInv_getOrCreateColumn {st : MasonryState} (hinv : StInv st) (idx : ℤ) :
    StInv (getOrCreateColumn st idx) := by
  unfold getOrCreateColumn
  rcases hf : findColumn st idx with _ | serials
  · constructor
    · have hni : idx ∉ st.columns.map Prod.fst := findColumn_eq_none_notMem hf
      show ((st.columns ++ [(idx, [])]).map Prod.fst).Nodup
      rw [List.map_append]
      refine List.Nodup.append hinv.1 (by simp) ?_
      intro a ha hb
      simp only [List.map_cons, List.map_nil, List.mem_singleton] at hb
      exact hni (hb ▸ ha)
    · intro p hp
      rcases List.mem_append.mp hp with hl | hr
      · exact hinv.2 p hl
      · rw [List.mem_singleton.mp hr]
        exact ⟨by simp [colDeref], by simp, by simp⟩
  · exact hinv

theorem stInv_fillColumnDownward (colIdx targetBottom : ℤ) :
    ∀ (gen : List MasonryImage) (st : MasonryState), StInv st →
      StInv (fillColumnDownward colIdx targetBottom st gen).1 ∧
        Evolves st (fillColumnDownward colIdx targetBottom st gen).1 := by
  intro gen
  induction gen with
  | nil =>
    intro st hinv
    exact ⟨hinv, evolves_refl st⟩
  | cons image rest ih =>
    intro st hinv
    rw [fillColumnDownward]
    by_cases hc : fillCursor st colIdx < targetBottom
    · rw [if_pos hc]
      rcases hcs : computeScaledHeight st.cfg image with _ | scaledHeight
      · exact ih st hinv
      · have hinv' := stInv_pushBottom hinv colIdx image
          (computeScaledHeight_pos hcs) (Or.inr rfl)
        have hev' := evolves_pushBottom hinv colIdx image
          (fillCursor st colIdx) scaledHeight (Or.inr rfl)
        obtain ⟨h₁, h₂⟩ := ih _ hinv'
        exact ⟨h₁, evolves_trans hev' h₂⟩
    · rw [if_neg hc]
      exact ⟨hinv, evolves_refl st⟩

theorem stInv_extendColumnDownward (colIdx borderBottom : ℤ) :
    ∀ (gen : List MasonryImage) (st : MasonryState), StInv st →
      StInv (extendColumnDownward colIdx borderBottom st gen).1 ∧
        Evolves st (extendColumnDownward colIdx borderBottom st gen).1 := by
  intro gen
  induction gen with
  | nil =>
    intro st hinv
    exact ⟨hinv, evolves_refl st⟩
  | cons image rest ih =>
    intro st hinv
    rw [extendColumnDownward]
    by_cases hc : fillCursor st colIdx ≥ borderBottom
    · rw [if_pos hc]
      exact ⟨hinv, evolves_refl st⟩
    · rw [if_neg hc]
      rcases hcs : computeScaledHeight st.cfg image with _ | scaledHeight
      · exact ih st hinv
      · have hinv' := stInv_pushBottom hinv colIdx image
          (computeScaledHeight_pos hcs) (Or.inr rfl)
        have hev' := evolves_pushBottom hinv colIdx image
          (fillCursor st colIdx) scaledHeight (Or.inr rfl)
        obtain ⟨h₁, h₂⟩ := ih _ hinv'
        exact ⟨h₁, evolves_trans hev' h₂⟩

theorem stInv_extendColumnUpward (colIdx borderTop : ℤ) :
    ∀ (gen : List MasonryImage) (st : MasonryState), StInv st →
      StInv (extendColumnUpward colIdx borderTop st gen).1 ∧
        Evolves st (extendColumnUpward colIdx borderTop st gen).1 := by
  intro gen
  induction gen with
  | nil =>
    intro st hinv
    exact ⟨hinv, evolves_refl st⟩
  | cons image rest ih =>
    intro st hinv
    rw [extendColumnUpward]
    rcases hhd : ((findColumn st colIdx).getD []).head? with _ | sTop
    · exact ⟨hinv, evolves_refl st⟩
    · dsimp only
      by_cases hb : (derefItem st sTop).y ≤ borderTop
      · rw [if_pos hb]
        exact ⟨hinv, evolves_refl st⟩
      · rw [if_neg hb]
        rcases hcs : computeScaledHeight st.cfg image with _ | scaledHeight
        · exact ih st hinv
        · have hy : ∀ s₀ ∈ ((findColumn st colIdx).getD []).head?,
              (derefItem st sTop).y - st.cfg.rowGap - scaledHeight
                = (derefItem st s₀).y - st.cfg.rowGap - scaledHeight := by
            intro s₀ hs₀
            rw [hhd, Option.mem_def] at hs₀
            have h₀ := Option.some.inj hs₀
            rw [← h₀]
          have hinv' := stInv_pushTop hinv colIdx image
            (computeScaledHeight_pos hcs) hy
          have hev' := evolves_pushTop hinv colIdx image
            ((derefItem st sTop).y - st.cfg.rowGap - scaledHeight) scaledHeight hy
          obtain ⟨h₁, h₂⟩ := ih _ hinv'
          exact ⟨h₁, evolves_trans hev' h₂⟩

theorem stInv_populateLoop (colIdx borderBottom : ℤ) :
    ∀ (gen : List MasonryImage) (st : MasonryState) (cursorY : ℤ), StInv st →
      ((findColumn st colIdx).getD [] = [] ∨ cursorY = fillCursor st colIdx) →
      StInv (populateLoop colIdx borderBottom st cursorY gen).1 ∧
        Evolves st (populateLoop colIdx borderBottom st cursorY gen).1 := by
  intro gen
  induction gen with
  | nil =>
    intro st cursorY hinv _
    exact ⟨hinv, evolves_refl st⟩
  | cons image rest ih =>
    intro st cursorY hinv hy
    rw [populateLoop]
    by_cases hc : cursorY < borderBottom
    · rw [if_pos hc]
      rcases hcs : computeScaledHeight st.cfg image with _ | scaledHeight
      · exact ih st cursorY hinv hy
      · have hinv' := stInv_pushBottom hinv colIdx image
          (computeScaledHeight_pos hcs) hy
        have hev' := evolves_pushBottom hinv colIdx image cursorY scaledHeight hy
        obtain ⟨h₁, h₂⟩ := ih _ _ hinv' (Or.inr rfl)
        exact ⟨h₁, evolves_trans hev' h₂⟩
    · rw [if_neg hc]
      exact ⟨hinv, evolves_refl st⟩

theorem stInv_populateNewColumn (colIdx : ℤ) (view : Viewport) (st : MasonryState)
    (gen : List MasonryImage) (hinv : StInv st) :
    StInv (populateNewColumn colIdx view st gen).1 ∧
      Evolves st (populateNewColumn colIdx view st gen).1 := by
  unfold populateNewColumn
  by_cases hemp : ((findColumn st colIdx).getD []).isEmpty = true
  · rw [if_pos hemp]
    exact stInv_populateLoop colIdx _ gen st _ hinv (Or.inl (by simpa using hemp))
  · rw [if_neg hemp]
    exact ⟨hinv, evolves_refl st⟩

theorem stInv_foldl {β : Type}
    (f : MasonryState × List MasonryImage → β → MasonryState × List MasonryImage)
    (hstep : ∀ acc b, StInv acc.1 → StInv (f acc b).1 ∧ Evolves acc.1 (f acc b).1) :
    ∀ (l : List β) (acc : MasonryState × List MasonryImage), StInv acc.1 →
      StInv (l.foldl f acc).1 ∧ Evolves acc.1 (l.foldl f acc).1 := by
  intro l
  induction l with
  | nil =>
    intro acc hinv
    exact ⟨hinv, evolves_refl acc.1⟩
  | cons b rest ih =>
    intro acc hinv
    rw [List.foldl_cons]
    obtain ⟨h₁, h₂⟩ := hstep acc b hinv
    obtain ⟨h₃, h₄⟩ := ih (f acc b) h₁
    exact ⟨h₃, evolves_trans h₂ h₄⟩

theorem stInv_foldl_getOrCreate :
    ∀ (l : List ℤ) (st : MasonryState), StInv st →
      StInv (l.foldl getOrCreateColumn st) ∧ Evolves st (l.foldl getOrCreateColumn st) := by
  intro l
  induction l with
  | nil =>
    intro st hinv
    exact ⟨hinv, evolves_refl st⟩
  | cons idx rest ih =>
    intro st hinv
    rw [List.foldl_cons]
    obtain ⟨h₃, h₄⟩ := ih (getOrCreateColumn st idx) (stInv_getOrCreateColumn hinv idx)
    refine ⟨h₃, evolves_trans
      ⟨getOrCreateColumn_cfg st idx, ?_, bndInv_getOrCreateColumn st idx⟩ h₄⟩
    rw [getOrCreateColumn_items]

theorem stInv_ensureColumnsCoverViewport (st : MasonryState) (view : Viewport)
    (hinv : StInv st) :
    StInv (ensureColumnsCoverViewport st view) ∧
      Evolves st (ensureColumnsCoverViewport st view) :=
  stInv_foldl_getOrCreate _ st hinv

theorem stInv_extendColumnsOnTop (view : Viewport) (st : MasonryState)
    (gen : List MasonryImage) (hinv : StInv st) :
    StInv (extendColumnsOnTop view st gen).1 ∧
      Evolves st (extendColumnsOnTop view st gen).1 := by
  simp only [extendColumnsOnTop]
  refine stInv_foldl _ ?_ _ (st, gen) hinv
  intro acc ci hacc
  dsimp only
  rcases hf : findColumn acc.1 ci with _ | serials
  · exact ⟨hacc, evolves_refl acc.1⟩
  · dsimp only
    by_cases hemp : serials.isEmpty = true
    · rw [if_pos hemp]
      exact ⟨hacc, evolves_refl acc.1⟩
    · rw [if_neg hemp]
      exact stInv_extendColumnUpward ci _ acc.2 acc.1 hacc

theorem stInv_extendColumnsOnBottom (view : Viewport) (st : MasonryState)
    (gen : List MasonryImage) (hinv : StInv st) :
    StInv (extendColumnsOnBottom view st gen).1 ∧
      Evolves st (extendColumnsOnBottom view st gen).1 := by
  simp only [extendColumnsOnBottom]
  refine stInv_foldl _ ?_ _ (st, gen) hinv
  intro acc ci hacc
  dsimp only
  rcases hf : findColumn acc.1 ci with _ | serials
  · exact ⟨hacc, evolves_refl acc.1⟩
  · dsimp only
    by_cases hemp : serials.isEmpty = true
    · rw [if_pos hemp]
      exact ⟨hacc, evolves_refl acc.1⟩
    · rw [if_neg hemp]
      exact stInv_extendColumnDownward ci _ acc.2 acc.1 hacc

theorem stInv_extendColumnsOnRight (view : Viewport) (st : MasonryState)
    (gen : List MasonryImage) (hinv : StInv st) :
    StInv (extendColumnsOnRight view st gen).1 ∧
      Evolves st (extendColumnsOnRight view st gen).1 := by
  simp only [extendColumnsOnRight]
  rcases st.colMax with _ | m
  · exact ⟨hinv, evolves_refl st⟩
  · refine stInv_foldl _ ?_ _ (st, gen) hinv
    intro acc ci hacc
    dsimp only
    by_cases hemp : ((findColumn (getOrCreateColumn acc.1 ci) ci).getD []).isEmpty = true
    · rw [if_pos hemp]
      obtain ⟨h₁, h₂⟩ := stInv_populateNewColumn ci view (getOrCreateColumn acc.1 ci)
        acc.2 (stInv_getOrCreateColumn hacc ci)
      refine ⟨h₁, evolves_trans
        ⟨getOrCreateColumn_cfg acc.1 ci, ?_, bndInv_getOrCreateColumn acc.1 ci⟩ h₂⟩
      rw [getOrCreateColumn_items]
    · rw [if_neg hemp]
      refine ⟨stInv_getOrCreateColumn hacc ci, getOrCreateColumn_cfg acc.1 ci, ?_,
        bndInv_getOrCreateColumn acc.1 ci⟩
      rw [getOrCreateColumn_items]

theorem stInv_extendColumnsOnLeft (view : Viewport) (st : MasonryState)
    (gen : List MasonryImage) (hinv : StInv st) :
    StInv (extendColumnsOnLeft view st gen).1 ∧
      Evolves st (extendColumnsOnLeft view st gen).1 := by
  simp only [extendColumnsOnLeft]
  rcases st.colMin with _ | m
  · exact ⟨hinv, evolves_refl st⟩
  · refine stInv_foldl _ ?_ _ (st, gen) hinv
    intro acc ci hacc
    dsimp only
    by_cases hemp : ((findColumn (getOrCreateColumn acc.1 ci) ci).getD []).isEmpty = true
    · rw [if_pos hemp]
      obtain ⟨h₁, h₂⟩ := stInv_populateNewColumn ci view (getOrCreateColumn acc.1 ci)
        acc.2 (stInv_getOrCreateColumn hacc ci)
      refine ⟨h₁, evolves_trans
        ⟨getOrCreateColumn_cfg acc.1 ci, ?_, bndInv_getOrCreateColumn acc.1 ci⟩ h₂⟩
      rw [getOrCreateColumn_items]
    · rw [if_neg hemp]
      refine ⟨stInv_getOrCreateColumn hacc ci, getOrCreateColumn_cfg acc.1 ci, ?_,
        bndInv_getOrCreateColumn acc.1 ci⟩
      rw [getOrCreateColumn_items]

theorem stInv_initLayout (view : Viewport) (st : MasonryState)
    (gen : List MasonryImage) (hinv : StInv st) :
    StInv (initLayout view st gen).1 ∧ Evolves st (initLayout view st gen).1 := by
  obtain ⟨h₀, hev₀⟩ := stInv_ensureColumnsCoverViewport st view hinv
  obtain ⟨h₁, hev₁⟩ := stInv_foldl
    (fun acc columnIndex => fillColumnDownward columnIndex
      (view.y + view.height + (ensureColumnsCoverViewport st view).cfg.verticalOverscan)
      (getOrCreateColumn acc.1 columnIndex) acc.2)
    (fun acc ci hacc => by
      obtain ⟨ha, hb⟩ := stInv_fillColumnDownward ci
        (view.y + view.height + (ensureColumnsCoverViewport st view).cfg.verticalOverscan)
        acc.2 (getOrCreateColumn acc.1 ci) (stInv_getOrCreateColumn hacc ci)
      refine ⟨ha, evolves_trans
        ⟨getOrCreateColumn_cfg acc.1 ci, ?_, bndInv_getOrCreateColumn acc.1 ci⟩ hb⟩
      rw [getOrCreateColumn_items])
    (rangeList (getRequiredColumnRange (ensureColumnsCoverViewport st view).cfg view).1
      (getRequiredColumnRange (ensureColumnsCoverViewport st view).cfg view).2)
    ((ensureColumnsCoverViewport st view), gen) h₀
  exact ⟨h₁, evolves_trans hev₀ hev₁⟩

theorem stInv_ensureInitialized (view : Viewport) (st : MasonryState)
    (gen : List MasonryImage) (hinv : StInv st) :
    StInv (ensureInitialized view st gen).1 ∧
      Evolves st (ensureInitialized view st gen).1 := by
  unfold ensureInitialized
  by_cases he : st.columns.isEmpty = true
  · rw [if_pos he]
    exact stInv_initLayout view st gen hinv
  · rw [if_neg he]
    exact ⟨hinv, evolves_refl st⟩

theorem stInv_processBorders (view : Viewport) (st : MasonryState)
    (gen : List MasonryImage) (hinv : StInv st) :
    StInv (processBorders view st gen).1 ∧ Evolves st (processBorders view st gen).1 := by
  obtain ⟨h₀, e₀⟩ := stInv_ensureColumnsCoverViewport st view hinv
  obtain ⟨h₁, e₁⟩ := stInv_extendColumnsOnTop view (ensureColumnsCoverViewport st view) gen h₀
  obtain ⟨h₂, e₂⟩ := stInv_extendColumnsOnRight view
    (extendColumnsOnTop view (ensureColumnsCoverViewport st view) gen).1
    (extendColumnsOnTop view (ensureColumnsCoverViewport st view) gen).2 h₁
  obtain ⟨h₃, e₃⟩ := stInv_extendColumnsOnLeft view
    (extendColumnsOnRight view
      (extendColumnsOnTop view (ensureColumnsCoverViewport st view) gen).1
      (extendColumnsOnTop view (ensureColumnsCoverViewport st view) gen).2).1
    (extendColumnsOnRight view
      (extendColumnsOnTop view (ensureColumnsCoverViewport st view) gen).1
      (extendColumnsOnTop view (ensureColumnsCoverViewport st view) gen).2).2 h₂
  obtain ⟨h₄, e₄⟩ := stInv_extendColumnsOnBottom view
    (extendColumnsOnLeft view
      (extendColumnsOnRight view
        (extendColumnsOnTop view (ensureColumnsCoverViewport st view) gen).1
        (extendColumnsOnTop view (ensureColumnsCoverViewport st view) gen).2).1
      (extendColumnsOnRight view
        (extendColumnsOnTop view (ensureColumnsCoverViewport st view) gen).1
        (extendColumnsOnTop view (ensureColumnsCoverViewport st view) gen).2).2).1
    (extendColumnsOnLeft view
      (extendColumnsOnRight view
        (extendColumnsOnTop view (ensureColumnsCoverViewport st view) gen).1
        (extendColumnsOnTop view (ensureColumnsCoverViewport st view) gen).2).1
      (extendColumnsOnRight view
        (extendColumnsOnTop view (ensureColumnsCoverViewport st view) gen).1
        (extendColumnsOnTop view (ensureColumnsCoverViewport st view) gen).2).2).2 h₃
  exact ⟨h₄, evolves_trans e₀ (evolves_trans e₁ (evolves_trans e₂ (evolves_trans e₃ e₄)))⟩

theorem stInv_getItems (view : Viewport) (st : MasonryState)
    (gen : List MasonryImage) (hinv : StInv st) :
    StInv (getItems view st gen).1 ∧ Evolves st (getItems view st gen).1 := by
  obtain ⟨h₁, e₁⟩ := stInv_ensureInitialized view st gen hinv
  obtain ⟨h₂, e₂⟩ := stInv_processBorders view (ensureInitialized view st gen).1
    (ensureInitialized view st gen).2 h₁
  exact ⟨h₂, evolves_trans e₁ e₂⟩

theorem stInv_runCalls (st : MasonryState) (views : List Viewport)
    (gen : List MasonryImage) (hinv : StInv st) :
    StInv (runCalls st views gen).1 ∧ Evolves st (runCalls st views gen).1 :=
  stInv_foldl
    (fun acc view => ((getItems view acc.1 acc.2).1, (getItems view acc.1 acc.2).2.1))
    (fun acc view hacc => stInv_getItems view acc.1 acc.2 hacc) views (st, gen) hinv

theorem stInv_mkMasonryLayout (columnWidth columnGap rowGap originX originY : ℤ) :
    StInv (mkMasonryLayout columnWidth columnGap rowGap originX originY) := by
  constructor
  · simp [mkMasonryLayout]
  · intro p hp
    simp [mkMasonryLayout] at hp

theorem chain_exact_gap_bounds {rg ε : ℤ} (hrg : 0 ≤ rg) (hε : 0 ≤ ε) :
    ∀ (l : List PlacedImage), (∀ x ∈ l, 1 ≤ x.height) →
      List.Chain' (fun a b => b.y = a.y + a.height + rg) l →
      List.Chain' (fun a b => a.y < b.y) l ∧
        List.Chain' (fun a b => rg - ε ≤ b.y - (a.y + a.height)) l := by
  intro l
  induction l with
  | nil =>
    intro _ _
    exact ⟨List.chain'_nil, List.chain'_nil⟩
  | cons a t ih =>
    intro hh hc
    rcases t with _ | ⟨b, t'⟩
    · exact ⟨List.chain'_singleton _, List.chain'_singleton _⟩
    · rw [List.chain'_cons] at hc
      obtain ⟨hab, hc'⟩ := hc
      obtain ⟨h₁, h₂⟩ := ih (fun x hx => hh x (List.mem_cons_of_mem a hx)) hc'
      have hha : 1 ≤ a.height := hh a (List.mem_cons_self a _)
      exact ⟨List.chain'_cons.mpr ⟨by omega, h₁⟩, List.chain'_cons.mpr ⟨by omega, h₂⟩⟩


/-- C2: after any sequence of `getItems` calls on a fresh `MasonryLayout`
(any viewport moves, any generator stream), in every column the items are
sorted by `y` (strictly increasing downward), and every adjacent pair
`a` (above), `b` (below) satisfies `b.y - (a.y + a.height) >= rowGap - eps`
for every tolerance `eps >= 0` — the gap is in fact exactly `rowGap`.
Stated for a non-negative `rowGap`, which the CSS-pixel configuration
always satisfies. -/
theorem masonry_column_gap_invariant (columnWidth columnGap rowGap originX originY : ℤ)
    (hrg : 0 ≤ rowGap) (views : List Viewport) (gen : List MasonryImage)
    (ε : ℤ) (hε : 0 ≤ ε) :
    ∀ p ∈ (runCalls (mkMasonryLayout columnWidth columnGap rowGap originX originY)
        views gen).1.columns,
      List.Chain' (fun a b => a.y < b.y)
        (colDeref (runCalls (mkMasonryLayout columnWidth columnGap rowGap originX originY)
          views gen).1 p.2) ∧
      List.Chain' (fun a b => rowGap - ε ≤ b.y - (a.y + a.height))
        (colDeref (runCalls (mkMasonryLayout columnWidth columnGap rowGap originX originY)
          views gen).1 p.2) := by
  intro p hp
  obtain ⟨hinv, hev⟩ := stInv_runCalls
    (mkMasonryLayout columnWidth columnGap rowGap originX originY) views gen
    (stInv_mkMasonryLayout columnWidth columnGap rowGap originX originY)
  have hg := hinv.2 p hp
  have hcfg : (runCalls (mkMasonryLayout columnWidth columnGap rowGap originX originY)
      views gen).1.cfg.rowGap = rowGap := by
    rw [hev.1]
    rfl
  have hh : ∀ x ∈ colDeref (runCalls
      (mkMasonryLayout columnWidth columnGap rowGap originX originY) views gen).1 p.2,
      1 ≤ x.height := by
    intro x hx
    rcases List.mem_map.mp hx with ⟨s, hs, hxs⟩
    rw [← hxs]
    exact hg.2.2 s hs
  have hc := hg.1
  rw [hcfg] at hc
  exact chain_exact_gap_bounds hrg hε _ hh hc

set_option maxRecDepth 400000 in
/-- Witness for C2: the invariant instantiated on a concrete run — one
`getItems` call on a fresh 10-pixel engine with a stream of 10×10 images,
at the column `-1` whose serial list is `[8, 0, 1]`, with `ε = 0`. -/
theorem masonry_column_gap_invariant_witness :
    (0 : ℤ) ≤ (0 : ℤ) ∧
      (List.Chain' (fun a b => a.y < b.y)
        (colDeref (runCalls (mkMasonryLayout 10 0 0 0 0) [c1View1] c1Gen).1
          ((-1 : ℤ), ([8, 0, 1] : List ℕ)).2) ∧
      List.Chain' (fun a b => (0 : ℤ) - 0 ≤ b.y - (a.y + a.height))
        (colDeref (runCalls (mkMasonryLayout 10 0 0 0 0) [c1View1] c1Gen).1
          ((-1 : ℤ), ([8, 0, 1] : List ℕ)).2)) :=
  ⟨by decide,
    masonry_column_gap_invariant 10 0 0 0 0 (by decide) [c1View1] c1Gen 0 (by decide)
      ((-1 : ℤ), ([8, 0, 1] : List ℕ)) (by decide)⟩


/-! ### The generator stream only shrinks

Every loop returns a suffix of the stream it was given; a later call can
therefore never "un-consume", and an empty stream stays empty. -/

theorem suffix_of_nil {α : Type} {l : List α} (h : l <:+ ([] : List α)) : l = [] := by
  obtain ⟨t, ht⟩ := h
  exact (List.append_eq_nil.mp ht).2

theorem fillColumnDownward_suffix (colIdx targetBottom : ℤ) :
    ∀ (gen : List MasonryImage) (st : MasonryState),
      (fillColumnDownward colIdx targetBottom st gen).2 <:+ gen := by
  intro gen
  induction gen with
  | nil =>
    intro st
    exact List.suffix_rfl
  | cons image rest ih =>
    intro st
    rw [fillColumnDownward]
    by_cases hc : fillCursor st colIdx < targetBottom
    · rw [if_pos hc]
      rcases hcs : computeScaledHeight st.cfg image with _ | sh
      · exact (ih st).trans (List.suffix_cons image rest)
      · exact (ih _).trans (List.suffix_cons image rest)
    · rw [if_neg hc]

theorem extendColumnDownward_suffix (colIdx borderBottom : ℤ) :
    ∀ (gen : List MasonryImage) (st : MasonryState),
      (extendColumnDownward colIdx borderBottom st gen).2 <:+ gen := by
  intro gen
  induction gen with
  | nil =>
    intro st
    exact List.suffix_rfl
  | cons image rest ih =>
    intro st
    rw [extendColumnDownward]
    by_cases hc : fillCursor st colIdx ≥ borderBottom
    · rw [if_pos hc]
    · rw [if_neg hc]
      rcases hcs : computeScaledHeight st.cfg image with _ | sh
      · exact (ih st).trans (List.suffix_cons image rest)
      · exact (ih _).trans (List.suffix_cons image rest)

theorem extendColumnUpward_suffix (colIdx borderTop : ℤ) :
    ∀ (gen : List MasonryImage) (st : MasonryState),
      (extendColumnUpward colIdx borderTop st gen).2 <:+ gen := by
  intro gen
  induction gen with
  | nil =>
    intro st
    exact List.suffix_rfl
  | cons image rest ih =>
    intro st
    rw [extendColumnUpward]
    rcases hhd : ((findColumn st colIdx).getD []).head? with _ | sTop
    · exact List.suffix_rfl
    · dsimp only
      by_cases hb : (derefItem st sTop).y ≤ borderTop
      · rw [if_pos hb]
      · rw [if_neg hb]
        rcases hcs : computeScaledHeight st.cfg image with _ | sh
        · exact (ih st).trans (List.suffix_cons image rest)
        · exact (ih _).trans (List.suffix_cons image rest)

theorem populateLoop_suffix (colIdx borderBottom : ℤ) :
    ∀ (gen : List MasonryImage) (st : MasonryState) (cursorY : ℤ),
      (populateLoop colIdx borderBottom st cursorY gen).2 <:+ gen := by
  intro gen
  induction gen with
  | nil =>
    intro st cursorY
    exact List.suffix_rfl
  | cons image rest ih =>
    intro st cursorY
    rw [populateLoop]
    by_cases hc : cursorY < borderBottom
    · rw [if_pos hc]
      rcases hcs : computeScaledHeight st.cfg image with _ | sh
      · exact (ih st cursorY).trans (List.suffix_cons image rest)
      · exact (ih _ _).trans (List.suffix_cons image rest)
    · rw [if_neg hc]

theorem populateNewColumn_suffix (colIdx : ℤ) (view : Viewport) (st : MasonryState)
    (gen : List MasonryImage) : (populateNewColumn colIdx view st gen).2 <:+ gen := by
  unfold populateNewColumn
  by_cases hemp : ((findColumn st colIdx).getD []).isEmpty = true
  · rw [if_pos hemp]
    exact populateLoop_suffix _ _ gen st _
  · rw [if_neg hemp]

theorem foldl_suffix {β : Type}
    (f : MasonryState × List MasonryImage → β → MasonryState × List MasonryImage)
    (hstep : ∀ acc b, (f acc b).2 <:+ acc.2) :
    ∀ (l : List β) (acc : MasonryState × List MasonryImage),
      (l.foldl f acc).2 <:+ acc.2 := by
  intro l
  induction l with
  | nil =>
    intro acc
    exact List.suffix_rfl
  | cons b rest ih =>
    intro acc
    rw [List.foldl_cons]
    exact (ih (f acc b)).trans (hstep acc b)

theorem extendColumnsOnTop_suffix (view : Viewport) (st : MasonryState)
    (gen : List MasonryImage) : (extendColumnsOnTop view st gen).2 <:+ gen := by
  simp only [extendColumnsOnTop]
  refine foldl_suffix _ ?_ _ (st, gen)
  intro acc ci
  dsimp only
  rcases hf : findColumn acc.1 ci with _ | serials
  · exact List.suffix_rfl
  · dsimp only
    by_cases hemp : serials.isEmpty = true
    · rw [if_pos hemp]
    · rw [if_neg hemp]
      exact extendColumnUpward_suffix ci _ acc.2 acc.1

theorem extendColumnsOnBottom_suffix (view : Viewport) (st : MasonryState)
    (gen : List MasonryImage) : (extendColumnsOnBottom view st gen).2 <:+ gen := by
  simp only [extendColumnsOnBottom]
  refine foldl_suffix _ ?_ _ (st, gen)
  intro acc ci
  dsimp only
  rcases hf : findColumn acc.1 ci with _ | serials
  · exact List.suffix_rfl
  · dsimp only
    by_cases hemp : serials.isEmpty = true
    · rw [if_pos hemp]
    · rw [if_neg hemp]
      exact extendColumnDownward_suffix ci _ acc.2 acc.1

theorem extendColumnsOnRight_suffix (view : Viewport) (st : MasonryState)
    (gen : List MasonryImage) : (extendColumnsOnRight view st gen).2 <:+ gen := by
  simp only [extendColumnsOnRight]
  rcases st.colMax with _ | m
  · exact List.suffix_rfl
  · refine foldl_suffix _ ?_ _ (st, gen)
    intro acc ci
    dsimp only
    by_cases hemp : ((findColumn (getOrCreateColumn acc.1 ci) ci).getD []).isEmpty = true
    · rw [if_pos hemp]
      exact populateNewColumn_suffix ci view _ acc.2
    · rw [if_neg hemp]

theorem extendColumnsOnLeft_suffix (view : Viewport) (st : MasonryState)
    (gen : List MasonryImage) : (extendColumnsOnLeft view st gen).2 <:+ gen := by
  simp only [extendColumnsOnLeft]
  rcases st.colMin with _ | m
  · exact List.suffix_rfl
  · refine foldl_suffix _ ?_ _ (st, gen)
    intro acc ci
    dsimp only
    by_cases hemp : ((findColumn (getOrCreateColumn acc.1 ci) ci).getD []).isEmpty = true
    · rw [if_pos hemp]
      exact populateNewColumn_suffix ci view _ acc.2
    · rw [if_neg hemp]

theorem initLayout_suffix (view : Viewport) (st : MasonryState)
    (gen : List MasonryImage) : (initLayout view st gen).2 <:+ gen := by
  simp only [initLayout]
  refine foldl_suffix _ ?_ _ (ensureColumnsCoverViewport st view, gen)
  intro acc ci
  exact fillColumnDownward_suffix ci _ acc.2 _

theorem ensureInitialized_suffix (view : Viewport) (st : MasonryState)
    (gen : List MasonryImage) : (ensureInitialized view st gen).2 <:+ gen := by
  unfold ensureInitialized
  by_cases he : st.columns.isEmpty = true
  · rw [if_pos he]
    exact initLayout_suffix view st gen
  · rw [if_neg he]

theorem processBorders_suffix (view : Viewport) (st : MasonryState)
    (gen : List MasonryImage) : (processBorders view st gen).2 <:+ gen := by
  refine ((extendColumnsOnBottom_suffix view _ _).trans
    ((extendColumnsOnLeft_suffix view _ _).trans
      ((extendColumnsOnRight_suffix view _ _).trans
        (extendColumnsOnTop_suffix view (ensureColumnsCoverViewport st view) gen))))

theorem getItems_suffix (view : Viewport) (st : MasonryState)
    (gen : List MasonryImage) : (getItems view st gen).2.1 <:+ gen := by
  exact (processBorders_suffix view (ensureInitialized view st gen).1
    (ensureInitialized view st gen).2).trans (ensureInitialized_suffix view st gen)


/-! ### Border flushness

`TopFlush`/`BotFlush` say a column already reaches the overscanned top
(resp. bottom) border of a viewport.  The border loops exit exactly when
these hold, when the column is empty, or when the stream runs dry. -/

/-- The column's top item sits at or above the border `bT`. -/
def TopFlushAt (bT : ℤ) (st : MasonryState) (i : ℤ) : Prop :=
  ∀ s₀ ∈ ((findColumn st i).getD []).head?, (derefItem st s₀).y ≤ bT

/-- The column is empty, or its cursor reaches the border `bB`. -/
def BotFlushAt (bB : ℤ) (st : MasonryState) (i : ℤ) : Prop :=
  (findColumn st i).getD [] = [] ∨ bB ≤ fillCursor st i

theorem derefItem_stable {st st' : MasonryState} (hpre : st.items <+: st'.items)
    {s : ℕ} (hs : s < st.items.length) : derefItem st' s = derefItem st s := by
  obtain ⟨t, ht⟩ := hpre
  show st'.items.getD s default = st.items.getD s default
  rw [← ht]
  exact getD_append_lt _ _ _ hs

theorem fillCursor_congr {st st' : MasonryState} {i : ℤ}
    (hcfg : st'.cfg = st.cfg) (hfc : findColumn st' i = findColumn st i)
    (hder : ∀ s ∈ (findColumn st i).getD [], derefItem st' s = derefItem st s) :
    fillCursor st' i = fillCursor st i := by
  unfold fillCursor
  rw [hfc, hcfg]
  rcases hl : ((findColumn st i).getD []).getLast? with _ | sL
  · rfl
  · dsimp only
    rw [hder sL (List.mem_of_mem_getLast? (Option.mem_def.mpr hl))]

theorem TopFlushAt_congr {bT : ℤ} {st st' : MasonryState} {i : ℤ}
    (hfc : findColumn st' i = findColumn st i)
    (hder : ∀ s ∈ (findColumn st i).getD [], derefItem st' s = derefItem st s)
    (h : TopFlushAt bT st i) : TopFlushAt bT st' i := by
  intro s₀ hs₀
  rw [hfc] at hs₀
  have hmem : s₀ ∈ (findColumn st i).getD [] := List.mem_of_mem_head? hs₀
  rw [hder s₀ hmem]
  exact h s₀ hs₀

theorem BotFlushAt_congr {bB : ℤ} {st st' : MasonryState} {i : ℤ}
    (hcfg : st'.cfg = st.cfg) (hfc : findColumn st' i = findColumn st i)
    (hder : ∀ s ∈ (findColumn st i).getD [], derefItem st' s = derefItem st s)
    (h : BotFlushAt bB st i) : BotFlushAt bB st' i := by
  rcases h with h | h
  · left
    rw [hfc]
    exact h
  · right
    rw [fillCursor_congr hcfg hfc hder]
    exact h

theorem TopFlushAt_transfer {bT : ℤ} {st st' : MasonryState} {i : ℤ}
    (hinv : StInv st) (hpre : st.items <+: st'.items)
    (hfc : findColumn st' i = findColumn st i)
    (h : TopFlushAt bT st i) : TopFlushAt bT st' i :=
  TopFlushAt_congr hfc
    (fun s hs => derefItem_stable hpre (stInv_bound hinv i s hs)) h

theorem BotFlushAt_transfer {bB : ℤ} {st st' : MasonryState} {i : ℤ}
    (hinv : StInv st) (hcfg : st'.cfg = st.cfg) (hpre : st.items <+: st'.items)
    (hfc : findColumn st' i = findColumn st i)
    (h : BotFlushAt bB st i) : BotFlushAt bB st' i :=
  BotFlushAt_congr hcfg hfc
    (fun s hs => derefItem_stable hpre (stInv_bound hinv i s hs)) h

theorem findColumn_pushBottom_ne {st : MasonryState} (hinv : StInv st) (colIdx : ℤ)
    (image : MasonryImage) (y h : ℤ)
    (hy : (findColumn st colIdx).getD [] = [] ∨ y = fillCursor st colIdx)
    {i : ℤ} (hne : i ≠ colIdx) :
    findColumn (pushBottom st colIdx image y h) i = findColumn st i := by
  rw [pushBottom_spec st colIdx image y h (stInv_bound hinv colIdx) hy]
  exact findColumn_setColumn_ne _ _ _ _ hne

theorem findColumn_pushTop_ne {st : MasonryState} (hinv : StInv st) (colIdx : ℤ)
    (image : MasonryImage) (y h : ℤ)
    (hy : ∀ s₀ ∈ ((findColumn st colIdx).getD []).head?,
      y = (derefItem st s₀).y - st.cfg.rowGap - h)
    {i : ℤ} (hne : i ≠ colIdx) :
    findColumn (pushTop st colIdx image y h) i = findColumn st i := by
  rw [pushTop_spec st colIdx image y h (stInv_bound hinv colIdx) hy]
  exact findColumn_setColumn_ne _ _ _ _ hne

theorem findColumn_pushBottom_self {st : MasonryState} (hinv : StInv st) (colIdx : ℤ)
    (image : MasonryImage) (y h : ℤ) {old : List ℕ}
    (hex : findColumn st colIdx = some old)
    (hy : (findColumn st colIdx).getD [] = [] ∨ y = fillCursor st colIdx) :
    findColumn (pushBottom st colIdx image y h) colIdx
      = some (old ++ [st.items.length]) := by
  rw [pushBottom_spec st colIdx image y h (stInv_bound hinv colIdx) hy]
  have hx : findColumn { st with
      items := st.items ++ [createPlacedImage st.cfg image colIdx y h] } colIdx
    = some old := hex
  rw [show pushRaw st colIdx (createPlacedImage st.cfg image colIdx y h)
      ((findColumn st colIdx).getD [] ++ [st.items.length])
    = setColumn { st with
        items := st.items ++ [createPlacedImage st.cfg image colIdx y h] } colIdx
      ((findColumn st colIdx).getD [] ++ [st.items.length]) from rfl]
  rw [findColumn_setColumn_self _ _ _ (by simp [hx])]
  rw [hex]
  rfl

theorem pushBottom_bounds {st : MasonryState} (hinv : StInv st) (colIdx : ℤ)
    (image : MasonryImage) (y h : ℤ)
    (hy : (findColumn st colIdx).getD [] = [] ∨ y = fillCursor st colIdx) :
    (pushBottom st colIdx image y h).colMin = st.colMin ∧
      (pushBottom st colIdx image y h).colMax = st.colMax := by
  rw [pushBottom_spec st colIdx image y h (stInv_bound hinv colIdx) hy]
  exact ⟨rfl, rfl⟩

theorem pushTop_bounds {st : MasonryState} (hinv : StInv st) (colIdx : ℤ)
    (image : MasonryImage) (y h : ℤ)
    (hy : ∀ s₀ ∈ ((findColumn st colIdx).getD []).head?,
      y = (derefItem st s₀).y - st.cfg.rowGap - h) :
    (pushTop st colIdx image y h).colMin = st.colMin ∧
      (pushTop st colIdx image y h).colMax = st.colMax := by
  rw [pushTop_spec st colIdx image y h (stInv_bound hinv colIdx) hy]
  exact ⟨rfl, rfl⟩

theorem mem_rangeList {lo hi i : ℤ} : i ∈ rangeList lo hi ↔ lo ≤ i ∧ i ≤ hi := by
  unfold rangeList
  simp only [List.mem_map, List.mem_range]
  constructor
  · rintro ⟨n, hn, rfl⟩
    omega
  · rintro ⟨h1, h2⟩
    refine ⟨(i - lo).toNat, by omega, by omega⟩

theorem rangeList_nil {lo hi : ℤ} (h : hi < lo) : rangeList lo hi = [] := by
  unfold rangeList
  rw [show (hi - lo + 1).toNat = 0 from by omega]
  rfl

theorem rangeList_single (m : ℤ) : rangeList m m = [m] := by
  unfold rangeList
  rw [show (m - m + 1).toNat = 1 from by omega,
    show List.range 1 = [0] from rfl]
  simp

theorem getOrCreateColumn_found {st : MasonryState} {idx : ℤ}
    (h : (findColumn st idx).isSome = true) : getOrCreateColumn st idx = st := by
  unfold getOrCreateColumn
  rcases hf : findColumn st idx with _ | v
  · rw [hf] at h
    cases h
  · rfl

theorem getOrCreateColumn_colMax_self {st : MasonryState} (hbnd : BndInv st)
    (idx : ℤ) :
    ∃ m, (getOrCreateColumn st idx).colMax = some m ∧ idx ≤ m := by
  unfold getOrCreateColumn
  rcases hf : findColumn st idx with _ | v
  · refine ⟨_, rfl, ?_⟩
    rcases st.colMax with _ | mx
    · exact le_refl _
    · exact le_max_right _ _
  · obtain ⟨⟨mx, hmx, hle⟩, _⟩ := hbnd.2 idx
      (List.mem_map.mpr ⟨_, findColumn_mem hf, rfl⟩)
    exact ⟨mx, hmx, hle⟩

theorem getOrCreateColumn_colMin_self {st : MasonryState} (hbnd : BndInv st)
    (idx : ℤ) :
    ∃ m, (getOrCreateColumn st idx).colMin = some m ∧ m ≤ idx := by
  unfold getOrCreateColumn
  rcases hf : findColumn st idx with _ | v
  · refine ⟨_, rfl, ?_⟩
    rcases st.colMin with _ | mn
    · exact le_refl _
    · exact min_le_right _ _
  · obtain ⟨_, ⟨mn, hmn, hle⟩⟩ := hbnd.2 idx
      (List.mem_map.mpr ⟨_, findColumn_mem hf, rfl⟩)
    exact ⟨mn, hmn, hle⟩

theorem getOrCreateColumn_colMax_mono {st : MasonryState} {m : ℤ}
    (h : st.colMax = some m) (idx : ℤ) :
    ∃ m', (getOrCreateColumn st idx).colMax = some m' ∧ m ≤ m' := by
  unfold getOrCreateColumn
  rcases hf : findColumn st idx with _ | v
  · rw [h]
    exact ⟨_, rfl, le_max_left _ _⟩
  · exact ⟨m, h, le_refl m⟩

theorem getOrCreateColumn_colMin_mono {st : MasonryState} {m : ℤ}
    (h : st.colMin = some m) (idx : ℤ) :
    ∃ m', (getOrCreateColumn st idx).colMin = some m' ∧ m' ≤ m := by
  unfold getOrCreateColumn
  rcases hf : findColumn st idx with _ | v
  · rw [h]
    exact ⟨_, rfl, min_le_left _ _⟩
  · exact ⟨m, h, le_refl m⟩

theorem getOrCreateColumn_isSome_mono {st : MasonryState} {i : ℤ}
    (h : (findColumn st i).isSome = true) (idx : ℤ) :
    (findColumn (getOrCreateColumn st idx) i).isSome = true := by
  by_cases hne : i = idx
  · subst hne
    rw [findColumn_getOrCreateColumn_self]
    rfl
  · rw [findColumn_getOrCreateColumn_ne st idx i hne]
    exact h


/-! ### Step equations and no-op forms of the four loops -/

theorem fillColumnDownward_noop {colIdx targetBottom : ℤ} {st : MasonryState}
    (h : ¬ fillCursor st colIdx < targetBottom) (gen : List MasonryImage) :
    fillColumnDownward colIdx targetBottom st gen = (st, gen) := by
  cases gen with
  | nil => rfl
  | cons image rest => rw [fillColumnDownward, if_neg h]

theorem fillColumnDownward_eq_skip {colIdx targetBottom : ℤ} {st : MasonryState}
    {image : MasonryImage} (h : fillCursor st colIdx < targetBottom)
    (hcs : computeScaledHeight st.cfg image = none) (rest : List MasonryImage) :
    fillColumnDownward colIdx targetBottom st (image :: rest)
      = fillColumnDownward colIdx targetBottom st rest := by
  rw [fillColumnDownward, if_pos h, hcs]

theorem fillColumnDownward_eq_push {colIdx targetBottom : ℤ} {st : MasonryState}
    {image : MasonryImage} {sh : ℤ} (h : fillCursor st colIdx < targetBottom)
    (hcs : computeScaledHeight st.cfg image = some sh) (rest : List MasonryImage) :
    fillColumnDownward colIdx targetBottom st (image :: rest)
      = fillColumnDownward colIdx targetBottom
          (pushBottom st colIdx image (fillCursor st colIdx) sh) rest := by
  rw [fillColumnDownward, if_pos h, hcs]

theorem extendColumnDownward_noop {colIdx borderBottom : ℤ} {st : MasonryState}
    (h : fillCursor st colIdx ≥ borderBottom) (gen : List MasonryImage) :
    extendColumnDownward colIdx borderBottom st gen = (st, gen) := by
  cases gen with
  | nil => rfl
  | cons image rest => rw [extendColumnDownward, if_pos h]

theorem extendColumnDownward_eq_skip {colIdx borderBottom : ℤ} {st : MasonryState}
    {image : MasonryImage} (h : ¬ fillCursor st colIdx ≥ borderBottom)
    (hcs : computeScaledHeight st.cfg image = none) (rest : List MasonryImage) :
    extendColumnDownward colIdx borderBottom st (image :: rest)
      = extendColumnDownward colIdx borderBottom st rest := by
  rw [extendColumnDownward, if_neg h, hcs]

theorem extendColumnDownward_eq_push {colIdx borderBottom : ℤ} {st : MasonryState}
    {image : MasonryImage} {sh : ℤ} (h : ¬ fillCursor st colIdx ≥ borderBottom)
    (hcs : computeScaledHeight st.cfg image = some sh) (rest : List MasonryImage) :
    extendColumnDownward colIdx borderBottom st (image :: rest)
      = extendColumnDownward colIdx borderBottom
          (pushBottom st colIdx image (fillCursor st colIdx) sh) rest := by
  rw [extendColumnDownward, if_neg h, hcs]

theorem extendColumnUpward_eq_empty {colIdx borderTop : ℤ} {st : MasonryState}
    (hhd : ((findColumn st colIdx).getD []).head? = none)
    (image : MasonryImage) (rest : List MasonryImage) :
    extendColumnUpward colIdx borderTop st (image :: rest) = (st, image :: rest) := by
  rw [extendColumnUpward, hhd]

theorem extendColumnUpward_noop {colIdx borderTop : ℤ} {st : MasonryState} {s₀ : ℕ}
    (hhd : ((findColumn st colIdx).getD []).head? = some s₀)
    (h : (derefItem st s₀).y ≤ borderTop) (gen : List MasonryImage) :
    extendColumnUpward colIdx borderTop st gen = (st, gen) := by
  cases gen with
  | nil => rfl
  | cons image rest =>
    rw [extendColumnUpward, hhd]
    dsimp only
    rw [if_pos h]

theorem extendColumnUpward_eq_skip {colIdx borderTop : ℤ} {st : MasonryState}
    {s₀ : ℕ} {image : MasonryImage}
    (hhd : ((findColumn st colIdx).getD []).head? = some s₀)
    (h : ¬ (derefItem st s₀).y ≤ borderTop)
    (hcs : computeScaledHeight st.cfg image = none) (rest : List MasonryImage) :
    extendColumnUpward colIdx borderTop st (image :: rest)
      = extendColumnUpward colIdx borderTop st rest := by
  rw [extendColumnUpward, hhd]
  dsimp only
  rw [if_neg h, hcs]

theorem extendColumnUpward_eq_push {colIdx borderTop : ℤ} {st : MasonryState}
    {s₀ : ℕ} {image : MasonryImage} {sh : ℤ}
    (hhd : ((findColumn st colIdx).getD []).head? = some s₀)
    (h : ¬ (derefItem st s₀).y ≤ borderTop)
    (hcs : computeScaledHeight st.cfg image = some sh) (rest : List MasonryImage) :
    extendColumnUpward colIdx borderTop st (image :: rest)
      = extendColumnUpward colIdx borderTop
          (pushTop st colIdx image ((derefItem st s₀).y - st.cfg.rowGap - sh) sh)
          rest := by
  rw [extendColumnUpward, hhd]
  dsimp only
  rw [if_neg h, hcs]

theorem populateLoop_noop {colIdx borderBottom : ℤ} {st : MasonryState} {cursorY : ℤ}
    (h : ¬ cursorY < borderBottom) (gen : List MasonryImage) :
    populateLoop colIdx borderBottom st cursorY gen = (st, gen) := by
  cases gen with
  | nil => rfl
  | cons image rest => rw [populateLoop, if_neg h]

theorem populateLoop_eq_skip {colIdx borderBottom : ℤ} {st : MasonryState}
    {cursorY : ℤ} {image : MasonryImage} (h : cursorY < borderBottom)
    (hcs : computeScaledHeight st.cfg image = none) (rest : List MasonryImage) :
    populateLoop colIdx borderBottom st cursorY (image :: rest)
      = populateLoop colIdx borderBottom st cursorY rest := by
  rw [populateLoop, if_pos h, hcs]

theorem populateLoop_eq_push {colIdx borderBottom : ℤ} {st : MasonryState}
    {cursorY : ℤ} {image : MasonryImage} {sh : ℤ} (h : cursorY < borderBottom)
    (hcs : computeScaledHeight st.cfg image = some sh) (rest : List MasonryImage) :
    populateLoop colIdx borderBottom st cursorY (image :: rest)
      = populateLoop colIdx borderBottom
          (pushBottom st colIdx image cursorY sh)
          (fillCursor (pushBottom st colIdx image cursorY sh) colIdx) rest := by
  rw [populateLoop, if_pos h, hcs]


/-! ### Per-loop column stability and bounds constancy -/

theorem fillColumnDownward_otherCol (colIdx targetBottom : ℤ) {i : ℤ}
    (hne : i ≠ colIdx) :
    ∀ (gen : List MasonryImage) (st : MasonryState), StInv st →
      findColumn (fillColumnDownward colIdx targetBottom st gen).1 i
        = findColumn st i := by
  intro gen
  induction gen with
  | nil =>
    intro st hinv
    rfl
  | cons image rest ih =>
    intro st hinv
    by_cases hc : fillCursor st colIdx < targetBottom
    · rcases hcs : computeScaledHeight st.cfg image with _ | sh
      · rw [fillColumnDownward_eq_skip hc hcs]
        exact ih st hinv
      · rw [fillColumnDownward_eq_push hc hcs]
        rw [ih _ (stInv_pushBottom hinv colIdx image
          (computeScaledHeight_pos hcs) (Or.inr rfl))]
        exact findColumn_pushBottom_ne hinv colIdx image _ _ (Or.inr rfl) hne
    · rw [fillColumnDownward_noop hc]

theorem extendColumnDownward_otherCol (colIdx borderBottom : ℤ) {i : ℤ}
    (hne : i ≠ colIdx) :
    ∀ (gen : List MasonryImage) (st : MasonryState), StInv st →
      findColumn (extendColumnDownward colIdx borderBottom st gen).1 i
        = findColumn st i := by
  intro gen
  induction gen with
  | nil =>
    intro st hinv
    rfl
  | cons image rest ih =>
    intro st hinv
    by_cases hc : fillCursor st colIdx ≥ borderBottom
    · rw [extendColumnDownward_noop hc]
    · rcases hcs : computeScaledHeight st.cfg image with _ | sh
      · rw [extendColumnDownward_eq_skip hc hcs]
        exact ih st hinv
      · rw [extendColumnDownward_eq_push hc hcs]
        rw [ih _ (stInv_pushBottom hinv colIdx image
          (computeScaledHeight_pos hcs) (Or.inr rfl))]
        exact findColumn_pushBottom_ne hinv colIdx image _ _ (Or.inr rfl) hne

theorem extendColumnUpward_otherCol (colIdx borderTop : ℤ) {i : ℤ}
    (hne : i ≠ colIdx) :
    ∀ (gen : List MasonryImage) (st : MasonryState), StInv st →
      findColumn (extendColumnUpward colIdx borderTop st gen).1 i
        = findColumn st i := by
  intro gen
  induction gen with
  | nil =>
    intro st hinv
    rfl
  | cons image rest ih =>
    intro st hinv
    rcases hhd : ((findColumn st colIdx).getD []).head? with _ | sTop
    · rw [extendColumnUpward_eq_empty hhd]
    · by_cases hb : (derefItem st sTop).y ≤ borderTop
      · rw [extendColumnUpward_noop hhd hb]
      · rcases hcs : computeScaledHeight st.cfg image with _ | sh
        · rw [extendColumnUpward_eq_skip hhd hb hcs]
          exact ih st hinv
        · rw [extendColumnUpward_eq_push hhd hb hcs]
          have hy : ∀ s₀ ∈ ((findColumn st colIdx).getD []).head?,
              (derefItem st sTop).y - st.cfg.rowGap - sh
                = (derefItem st s₀).y - st.cfg.rowGap - sh := by
            intro s₀ hs₀
            rw [hhd, Option.mem_def] at hs₀
            have h₀ := Option.some.inj hs₀
            rw [← h₀]
          rw [ih _ (stInv_pushTop hinv colIdx image (computeScaledHeight_pos hcs) hy)]
          exact findColumn_pushTop_ne hinv colIdx image _ _ hy hne

theorem populateLoop_otherCol (colIdx borderBottom : ℤ) {i : ℤ} (hne : i ≠ colIdx) :
    ∀ (gen : List MasonryImage) (st : MasonryState) (cursorY : ℤ), StInv st →
      ((findColumn st colIdx).getD [] = [] ∨ cursorY = fillCursor st colIdx) →
      findColumn (populateLoop colIdx borderBottom st cursorY gen).1 i
        = findColumn st i := by
  intro gen
  induction gen with
  | nil =>
    intro st cursorY hinv hy
    rfl
  | cons image rest ih =>
    intro st cursorY hinv hy
    by_cases hc : cursorY < borderBottom
    · rcases hcs : computeScaledHeight st.cfg image with _ | sh
      · rw [populateLoop_eq_skip hc hcs]
        exact ih st cursorY hinv hy
      · rw [populateLoop_eq_push hc hcs]
        rw [ih _ _ (stInv_pushBottom hinv colIdx image
          (computeScaledHeight_pos hcs) hy) (Or.inr rfl)]
        exact findColumn_pushBottom_ne hinv colIdx image _ _ hy hne
    · rw [populateLoop_noop hc]

theorem fillColumnDownward_selfCol (colIdx targetBottom : ℤ) :
    ∀ (gen : List MasonryImage) (st : MasonryState) (old : List ℕ), StInv st →
      findColumn st colIdx = some old →
      ∃ t, findColumn (fillColumnDownward colIdx targetBottom st gen).1 colIdx
        = some (old ++ t) := by
  intro gen
  induction gen with
  | nil =>
    intro st old hinv hex
    refine ⟨[], ?_⟩
    rw [List.append_nil]
    exact hex
  | cons image rest ih =>
    intro st old hinv hex
    by_cases hc : fillCursor st colIdx < targetBottom
    · rcases hcs : computeScaledHeight st.cfg image with _ | sh
      · rw [fillColumnDownward_eq_skip hc hcs]
        exact ih st old hinv hex
      · rw [fillColumnDownward_eq_push hc hcs]
        obtain ⟨t, ht⟩ := ih _ (old ++ [st.items.length])
          (stInv_pushBottom hinv colIdx image (computeScaledHeight_pos hcs) (Or.inr rfl))
          (findColumn_pushBottom_self hinv colIdx image _ _ hex (Or.inr rfl))
        refine ⟨[st.items.length] ++ t, ?_⟩
        rw [ht, List.append_assoc]
    · refine ⟨[], ?_⟩
      rw [fillColumnDownward_noop hc, List.append_nil]
      exact hex

theorem extendColumnDownward_selfCol (colIdx borderBottom : ℤ) :
    ∀ (gen : List MasonryImage) (st : MasonryState) (old : List ℕ), StInv st →
      findColumn st colIdx = some old →
      ∃ t, findColumn (extendColumnDownward colIdx borderBottom st gen).1 colIdx
        = some (old ++ t) := by
  intro gen
  induction gen with
  | nil =>
    intro st old hinv hex
    refine ⟨[], ?_⟩
    rw [List.append_nil]
    exact hex
  | cons image rest ih =>
    intro st old hinv hex
    by_cases hc : fillCursor st colIdx ≥ borderBottom
    · refine ⟨[], ?_⟩
      rw [extendColumnDownward_noop hc, List.append_nil]
      exact hex
    · rcases hcs : computeScaledHeight st.cfg image with _ | sh
      · rw [extendColumnDownward_eq_skip hc hcs]
        exact ih st old hinv hex
      · rw [extendColumnDownward_eq_push hc hcs]
        obtain ⟨t, ht⟩ := ih _ (old ++ [st.items.length])
          (stInv_pushBottom hinv colIdx image (computeScaledHeight_pos hcs) (Or.inr rfl))
          (findColumn_pushBottom_self hinv colIdx image _ _ hex (Or.inr rfl))
        refine ⟨[st.items.length] ++ t, ?_⟩
        rw [ht, List.append_assoc]

theorem populateLoop_selfCol (colIdx borderBottom : ℤ) :
    ∀ (gen : List MasonryImage) (st : MasonryState) (cursorY : ℤ) (old : List ℕ),
      StInv st → findColumn st colIdx = some old →
      ((findColumn st colIdx).getD [] = [] ∨ cursorY = fillCursor st colIdx) →
      ∃ t, findColumn (populateLoop colIdx borderBottom st cursorY gen).1 colIdx
        = some (old ++ t) := by
  intro gen
  induction gen with
  | nil =>
    intro st cursorY old hinv hex hy
    refine ⟨[], ?_⟩
    rw [List.append_nil]
    exact hex
  | cons image rest ih =>
    intro st cursorY old hinv hex hy
    by_cases hc : cursorY < borderBottom
    · rcases hcs : computeScaledHeight st.cfg image with _ | sh
      · rw [populateLoop_eq_skip hc hcs]
        exact ih st cursorY old hinv hex hy
      · rw [populateLoop_eq_push hc hcs]
        obtain ⟨t, ht⟩ := ih _ _ (old ++ [st.items.length])
          (stInv_pushBottom hinv colIdx image (computeScaledHeight_pos hcs) hy)
          (findColumn_pushBottom_self hinv colIdx image _ _ hex hy)
          (Or.inr rfl)
        refine ⟨[st.items.length] ++ t, ?_⟩
        rw [ht, List.append_assoc]
    · refine ⟨[], ?_⟩
      rw [populateLoop_noop hc, List.append_nil]
      exact hex

theorem fillColumnDownward_bounds (colIdx targetBottom : ℤ) :
    ∀ (gen : List MasonryImage) (st : MasonryState), StInv st →
      (fillColumnDownward colIdx targetBottom st gen).1.colMin = st.colMin ∧
        (fillColumnDownward colIdx targetBottom st gen).1.colMax = st.colMax := by
  intro gen
  induction gen with
  | nil =>
    intro st hinv
    exact ⟨rfl, rfl⟩
  | cons image rest ih =>
    intro st hinv
    by_cases hc : fillCursor st colIdx < targetBottom
    · rcases hcs : computeScaledHeight st.cfg image with _ | sh
      · rw [fillColumnDownward_eq_skip hc hcs]
        exact ih st hinv
      · rw [fillColumnDownward_eq_push hc hcs]
        obtain ⟨h₁, h₂⟩ := ih _ (stInv_pushBottom hinv colIdx image
          (computeScaledHeight_pos hcs) (Or.inr rfl))
        obtain ⟨h₃, h₄⟩ := pushBottom_bounds hinv colIdx image _ _ (Or.inr rfl)
        exact ⟨h₁.trans h₃, h₂.trans h₄⟩
    · rw [fillColumnDownward_noop hc]
      exact ⟨rfl, rfl⟩

theorem extendColumnDownward_bounds (colIdx borderBottom : ℤ) :
    ∀ (gen : List MasonryImage) (st : MasonryState), StInv st →
      (extendColumnDownward colIdx borderBottom st gen).1.colMin = st.colMin ∧
        (extendColumnDownward colIdx borderBottom st gen).1.colMax = st.colMax := by
  intro gen
  induction gen with
  | nil =>
    intro st hinv
    exact ⟨rfl, rfl⟩
  | cons image rest ih =>
    intro st hinv
    by_cases hc : fillCursor st colIdx ≥ borderBottom
    · rw [extendColumnDownward_noop hc]
      exact ⟨rfl, rfl⟩
    · rcases hcs : computeScaledHeight st.cfg image with _ | sh
      · rw [extendColumnDownward_eq_skip hc hcs]
        exact ih st hinv
      · rw [extendColumnDownward_eq_push hc hcs]
        obtain ⟨h₁, h₂⟩ := ih _ (stInv_pushBottom hinv colIdx image
          (computeScaledHeight_pos hcs) (Or.inr rfl))
        obtain ⟨h₃, h₄⟩ := pushBottom_bounds hinv colIdx image _ _ (Or.inr rfl)
        exact ⟨h₁.trans h₃, h₂.trans h₄⟩

theorem extendColumnUpward_bounds (colIdx borderTop : ℤ) :
    ∀ (gen : List MasonryImage) (st : MasonryState), StInv st →
      (extendColumnUpward colIdx borderTop st gen).1.colMin = st.colMin ∧
        (extendColumnUpward colIdx borderTop st gen).1.colMax = st.colMax := by
  intro gen
  induction gen with
  | nil =>
    intro st hinv
    exact ⟨rfl, rfl⟩
  | cons image rest ih =>
    intro st hinv
    rcases hhd : ((findColumn st colIdx).getD []).head? with _ | sTop
    · rw [extendColumnUpward_eq_empty hhd]
      exact ⟨rfl, rfl⟩
    · by_cases hb : (derefItem st sTop).y ≤ borderTop
      · rw [extendColumnUpward_noop hhd hb]
        exact ⟨rfl, rfl⟩
      · rcases hcs : computeScaledHeight st.cfg image with _ | sh
        · rw [extendColumnUpward_eq_skip hhd hb hcs]
          exact ih st hinv
        · rw [extendColumnUpward_eq_push hhd hb hcs]
          have hy : ∀ s₀ ∈ ((findColumn st colIdx).getD []).head?,
              (derefItem st sTop).y - st.cfg.rowGap - sh
                = (derefItem st s₀).y - st.cfg.rowGap - sh := by
            intro s₀ hs₀
            rw [hhd, Option.mem_def] at hs₀
            have h₀ := Option.some.inj hs₀
            rw [← h₀]
          obtain ⟨h₁, h₂⟩ := ih _ (stInv_pushTop hinv colIdx image
            (computeScaledHeight_pos hcs) hy)
          obtain ⟨h₃, h₄⟩ := pushTop_bounds hinv colIdx image _ _ hy
          exact ⟨h₁.trans h₃, h₂.trans h₄⟩

theorem populateLoop_bounds (colIdx borderBottom : ℤ) :
    ∀ (gen : List MasonryImage) (st : MasonryState) (cursorY : ℤ), StInv st →
      ((findColumn st colIdx).getD [] = [] ∨ cursorY = fillCursor st colIdx) →
      (populateLoop colIdx borderBottom st cursorY gen).1.colMin = st.colMin ∧
        (populateLoop colIdx borderBottom st cursorY gen).1.colMax = st.colMax := by
  intro gen
  induction gen with
  | nil =>
    intro st cursorY hinv hy
    exact ⟨rfl, rfl⟩
  | cons image rest ih =>
    intro st cursorY hinv hy
    by_cases hc : cursorY < borderBottom
    · rcases hcs : computeScaledHeight st.cfg image with _ | sh
      · rw [populateLoop_eq_skip hc hcs]
        exact ih st cursorY hinv hy
      · rw [populateLoop_eq_push hc hcs]
        obtain ⟨h₁, h₂⟩ := ih _ _ (stInv_pushBottom hinv colIdx image
          (computeScaledHeight_pos hcs) hy) (Or.inr rfl)
        obtain ⟨h₃, h₄⟩ := pushBottom_bounds hinv colIdx image _ _ hy
        exact ⟨h₁.trans h₃, h₂.trans h₄⟩
    · rw [populateLoop_noop hc]
      exact ⟨rfl, rfl⟩


/-! ### What a loop guarantees when it returns a non-empty stream -/

theorem extendColumnUpward_exit (colIdx borderTop : ℤ) :
    ∀ (gen : List MasonryImage) (st : MasonryState), StInv st →
      (extendColumnUpward colIdx borderTop st gen).2 ≠ [] →
      ∀ s₀ ∈ ((findColumn (extendColumnUpward colIdx borderTop st gen).1
          colIdx).getD []).head?,
        (derefItem (extendColumnUpward colIdx borderTop st gen).1 s₀).y
          ≤ borderTop := by
  intro gen
  induction gen with
  | nil =>
    intro st hinv hne
    exact absurd rfl hne
  | cons image rest ih =>
    intro st hinv hne
    rcases hhd : ((findColumn st colIdx).getD []).head? with _ | sTop
    · rw [extendColumnUpward_eq_empty hhd]
      intro s₀ hs₀
      have hs₀x : s₀ ∈ ((findColumn st colIdx).getD []).head? := hs₀
      rw [hhd] at hs₀x
      cases hs₀x
    · by_cases hb : (derefItem st sTop).y ≤ borderTop
      · rw [extendColumnUpward_noop hhd hb]
        intro s₀ hs₀
        have hs₀x : s₀ ∈ ((findColumn st colIdx).getD []).head? := hs₀
        rw [hhd, Option.mem_def] at hs₀x
        have h₀ := Option.some.inj hs₀x
        show (derefItem st s₀).y ≤ borderTop
        rw [← h₀]
        exact hb
      · rcases hcs : computeScaledHeight st.cfg image with _ | sh
        · rw [extendColumnUpward_eq_skip hhd hb hcs] at hne ⊢
          exact ih st hinv hne
        · rw [extendColumnUpward_eq_push hhd hb hcs] at hne ⊢
          have hy : ∀ s₀ ∈ ((findColumn st colIdx).getD []).head?,
              (derefItem st sTop).y - st.cfg.rowGap - sh
                = (derefItem st s₀).y - st.cfg.rowGap - sh := by
            intro s₀ hs₀
            rw [hhd, Option.mem_def] at hs₀
            have h₀ := Option.some.inj hs₀
            rw [← h₀]
          exact ih _ (stInv_pushTop hinv colIdx image
            (computeScaledHeight_pos hcs) hy) hne

theorem extendColumnDownward_exit (colIdx borderBottom : ℤ) :
    ∀ (gen : List MasonryImage) (st : MasonryState), StInv st →
      (extendColumnDownward colIdx borderBottom st gen).2 ≠ [] →
      borderBottom ≤ fillCursor (extendColumnDownward colIdx borderBottom st gen).1
        colIdx := by
  intro gen
  induction gen with
  | nil =>
    intro st hinv hne
    exact absurd rfl hne
  | cons image rest ih =>
    intro st hinv hne
    by_cases hc : fillCursor st colIdx ≥ borderBottom
    · rw [extendColumnDownward_noop hc]
      exact hc
    · rcases hcs : computeScaledHeight st.cfg image with _ | sh
      · rw [extendColumnDownward_eq_skip hc hcs] at hne ⊢
        exact ih st hinv hne
      · rw [extendColumnDownward_eq_push hc hcs] at hne ⊢
        exact ih _ (stInv_pushBottom hinv colIdx image
          (computeScaledHeight_pos hcs) (Or.inr rfl)) hne

theorem populateLoop_exit (colIdx borderBottom : ℤ) :
    ∀ (gen : List MasonryImage) (st : MasonryState) (cursorY : ℤ) (old : List ℕ),
      StInv st → findColumn st colIdx = some old →
      ((findColumn st colIdx).getD [] = [] ∨ cursorY = fillCursor st colIdx) →
      (populateLoop colIdx borderBottom st cursorY gen).2 ≠ [] →
      borderBottom ≤ cursorY ∨
        (findColumn (populateLoop colIdx borderBottom st cursorY gen).1
          colIdx).getD [] ≠ [] := by
  intro gen
  induction gen with
  | nil =>
    intro st cursorY old hinv hex hy hne
    exact absurd rfl hne
  | cons image rest ih =>
    intro st cursorY old hinv hex hy hne
    by_cases hc : cursorY < borderBottom
    · rcases hcs : computeScaledHeight st.cfg image with _ | sh
      · rw [populateLoop_eq_skip hc hcs] at hne ⊢
        exact ih st cursorY old hinv hex hy hne
      · rw [populateLoop_eq_push hc hcs]
        right
        obtain ⟨t, ht⟩ := populateLoop_selfCol colIdx borderBottom rest _ _
          (old ++ [st.items.length])
          (stInv_pushBottom hinv colIdx image (computeScaledHeight_pos hcs) hy)
          (findColumn_pushBottom_self hinv colIdx image _ _ hex hy)
          (Or.inr rfl)
        rw [ht]
        simp
    · left
      omega

theorem populateLoop_top (colIdx borderBottom : ℤ) :
    ∀ (gen : List MasonryImage) (st : MasonryState) (cursorY : ℤ), StInv st →
      findColumn st colIdx = some [] →
      ∀ s₀ ∈ ((findColumn (populateLoop colIdx borderBottom st cursorY gen).1
          colIdx).getD []).head?,
        (derefItem (populateLoop colIdx borderBottom st cursorY gen).1 s₀).y
          = cursorY := by
  intro gen
  induction gen with
  | nil =>
    intro st cursorY hinv hex
    intro s₀ hs₀
    have hs₀x : s₀ ∈ ((findColumn st colIdx).getD []).head? := hs₀
    rw [hex] at hs₀x
    cases hs₀x
  | cons image rest ih =>
    intro st cursorY hinv hex
    have hy : (findColumn st colIdx).getD [] = [] ∨ cursorY = fillCursor st colIdx := by
      left
      rw [hex]
      rfl
    by_cases hc : cursorY < borderBottom
    · rcases hcs : computeScaledHeight st.cfg image with _ | sh
      · rw [populateLoop_eq_skip hc hcs]
        exact ih st cursorY hinv hex
      · rw [populateLoop_eq_push hc hcs]
        have hinv' := stInv_pushBottom hinv colIdx image
          (computeScaledHeight_pos hcs) hy
        have hex' : findColumn (pushBottom st colIdx image cursorY sh) colIdx
            = some ([] ++ [st.items.length]) :=
          findColumn_pushBottom_self hinv colIdx image _ _ hex hy
        have hlen : st.items.length
            < (pushBottom st colIdx image cursorY sh).items.length := by
          rw [pushBottom_spec st colIdx image cursorY sh (stInv_bound hinv colIdx) hy,
            pushRaw_items]
          simp
        have hdnew : derefItem (pushBottom st colIdx image cursorY sh)
            st.items.length = createPlacedImage st.cfg image colIdx cursorY sh := by
          rw [pushBottom_spec st colIdx image cursorY sh (stInv_bound hinv colIdx) hy]
          exact derefItem_pushRaw_new st colIdx _ _
        obtain ⟨t, ht⟩ := populateLoop_selfCol colIdx borderBottom rest _ _
          ([] ++ [st.items.length]) hinv' hex' (Or.inr rfl)
        obtain ⟨hsi, hev⟩ := stInv_populateLoop colIdx borderBottom rest _
          (fillCursor (pushBottom st colIdx image cursorY sh) colIdx)
          hinv' (Or.inr rfl)
        intro s₀ hs₀
        have hs₀x : s₀ ∈ (([] ++ [st.items.length] ++ t : List ℕ)).head? := by
          have h₁ : s₀ ∈ ((some ([] ++ [st.items.length] ++ t)).getD []).head? := by
            rw [← ht]
            exact hs₀
          exact h₁
        simp only [List.nil_append] at hs₀x hex' ht
        have hs₀e : s₀ = st.items.length := by
          rcases t with _ | ⟨a, t'⟩
          · rw [Option.mem_def] at hs₀x
            exact (Option.some.inj hs₀x).symm
          · rw [Option.mem_def] at hs₀x
            exact (Option.some.inj hs₀x).symm
        subst hs₀e
        have hder : derefItem (populateLoop colIdx borderBottom
            (pushBottom st colIdx image cursorY sh)
            (fillCursor (pushBottom st colIdx image cursorY sh) colIdx) rest).1
            st.items.length
            = derefItem (pushBottom st colIdx image cursorY sh) st.items.length :=
          derefItem_stable hev.2.1 hlen
        rw [hder, hdnew]
        rfl
    · rw [populateLoop_noop hc]
      intro s₀ hs₀
      have hs₀x : s₀ ∈ ((findColumn st colIdx).getD []).head? := hs₀
      rw [hex] at hs₀x
      cases hs₀x


/-! ### The border phases as named folds -/

/-- One step of `extendColumnsOnTop`. -/
def topStep (borderTop : ℤ) (acc : MasonryState × List MasonryImage)
    (columnIndex : ℤ) : MasonryState × List MasonryImage :=
  match findColumn acc.1 columnIndex with
  | none => acc
  | some serials =>
    if serials.isEmpty then acc
    else extendColumnUpward columnIndex borderTop acc.1 acc.2

/-- One step of `extendColumnsOnBottom`. -/
def botStep (borderBottom : ℤ) (acc : MasonryState × List MasonryImage)
    (columnIndex : ℤ) : MasonryState × List MasonryImage :=
  match findColumn acc.1 columnIndex with
  | none => acc
  | some serials =>
    if serials.isEmpty then acc
    else extendColumnDownward columnIndex borderBottom acc.1 acc.2

/-- One step of the right/left border walks. -/
def sideStep (view : Viewport) (acc : MasonryState × List MasonryImage)
    (columnIndex : ℤ) : MasonryState × List MasonryImage :=
  let st₁ := getOrCreateColumn acc.1 columnIndex
  if ((findColumn st₁ columnIndex).getD []).isEmpty then
    populateNewColumn columnIndex view st₁ acc.2
  else (st₁, acc.2)

theorem extendColumnsOnTop_eq (view : Viewport) (st : MasonryState)
    (gen : List MasonryImage) :
    extendColumnsOnTop view st gen
      = (getColumnIndexesInRange st view).foldl
          (topStep (view.y - st.cfg.verticalOverscan)) (st, gen) := rfl

theorem extendColumnsOnBottom_eq (view : Viewport) (st : MasonryState)
    (gen : List MasonryImage) :
    extendColumnsOnBottom view st gen
      = (getColumnIndexesInRange st view).foldl
          (botStep (view.y + view.height + st.cfg.verticalOverscan)) (st, gen) := rfl

theorem extendColumnsOnRight_none {st : MasonryState} (h : st.colMax = none)
    (view : Viewport) (gen : List MasonryImage) :
    extendColumnsOnRight view st gen = (st, gen) := by
  unfold extendColumnsOnRight
  rw [h]

theorem extendColumnsOnRight_some {st : MasonryState} {m : ℤ} (h : st.colMax = some m)
    (view : Viewport) (gen : List MasonryImage) :
    extendColumnsOnRight view st gen
      = (rangeList m (getRequiredColumnRange st.cfg view).2).foldl
          (sideStep view) (st, gen) := by
  unfold extendColumnsOnRight
  rw [h]
  rfl

theorem extendColumnsOnLeft_none {st : MasonryState} (h : st.colMin = none)
    (view : Viewport) (gen : List MasonryImage) :
    extendColumnsOnLeft view st gen = (st, gen) := by
  unfold extendColumnsOnLeft
  rw [h]

theorem extendColumnsOnLeft_some {st : MasonryState} {m : ℤ} (h : st.colMin = some m)
    (view : Viewport) (gen : List MasonryImage) :
    extendColumnsOnLeft view st gen
      = ((rangeList (getRequiredColumnRange st.cfg view).1 m).reverse).foldl
          (sideStep view) (st, gen) := by
  unfold extendColumnsOnLeft
  rw [h]
  rfl

theorem topStep_eq_of_none {borderTop : ℤ} {acc : MasonryState × List MasonryImage}
    {ci : ℤ} (hf : findColumn acc.1 ci = none) : topStep borderTop acc ci = acc := by
  unfold topStep
  rw [hf]

theorem topStep_eq_of_empty {borderTop : ℤ} {acc : MasonryState × List MasonryImage}
    {ci : ℤ} (hf : findColumn acc.1 ci = some []) : topStep borderTop acc ci = acc := by
  unfold topStep
  rw [hf]
  rfl

theorem topStep_eq_of_cons {borderTop : ℤ} {acc : MasonryState × List MasonryImage}
    {ci : ℤ} {s₀ : ℕ} {tl : List ℕ} (hf : findColumn acc.1 ci = some (s₀ :: tl)) :
    topStep borderTop acc ci = extendColumnUpward ci borderTop acc.1 acc.2 := by
  unfold topStep
  rw [hf]
  rfl

theorem botStep_eq_of_none {borderBottom : ℤ} {acc : MasonryState × List MasonryImage}
    {ci : ℤ} (hf : findColumn acc.1 ci = none) : botStep borderBottom acc ci = acc := by
  unfold botStep
  rw [hf]

theorem botStep_eq_of_empty {borderBottom : ℤ} {acc : MasonryState × List MasonryImage}
    {ci : ℤ} (hf : findColumn acc.1 ci = some []) :
    botStep borderBottom acc ci = acc := by
  unfold botStep
  rw [hf]
  rfl

theorem botStep_eq_of_cons {borderBottom : ℤ} {acc : MasonryState × List MasonryImage}
    {ci : ℤ} {s₀ : ℕ} {tl : List ℕ} (hf : findColumn acc.1 ci = some (s₀ :: tl)) :
    botStep borderBottom acc ci = extendColumnDownward ci borderBottom acc.1 acc.2 := by
  unfold botStep
  rw [hf]
  rfl

theorem sideStep_eq_of_empty {view : Viewport} {acc : MasonryState × List MasonryImage}
    {ci : ℤ} (h : (findColumn (getOrCreateColumn acc.1 ci) ci).getD [] = []) :
    sideStep view acc ci
      = populateNewColumn ci view (getOrCreateColumn acc.1 ci) acc.2 := by
  unfold sideStep
  rw [if_pos (by simp [h])]

theorem sideStep_eq_of_nonempty {view : Viewport}
    {acc : MasonryState × List MasonryImage} {ci : ℤ}
    (h : (findColumn (getOrCreateColumn acc.1 ci) ci).getD [] ≠ []) :
    sideStep view acc ci = (getOrCreateColumn acc.1 ci, acc.2) := by
  unfold sideStep
  rw [if_neg (by simpa using h)]

theorem populateNewColumn_eq_of_empty {colIdx : ℤ} {view : Viewport}
    {st : MasonryState} (h : (findColumn st colIdx).getD [] = [])
    (gen : List MasonryImage) :
    populateNewColumn colIdx view st gen
      = populateLoop colIdx (view.y + view.height + st.cfg.verticalOverscan) st
          (view.y - st.cfg.verticalOverscan) gen := by
  unfold populateNewColumn
  rw [if_pos (by simp [h])]

theorem populateNewColumn_eq_of_nonempty {colIdx : ℤ} {view : Viewport}
    {st : MasonryState} (h : (findColumn st colIdx).getD [] ≠ [])
    (gen : List MasonryImage) :
    populateNewColumn colIdx view st gen = (st, gen) := by
  unfold populateNewColumn
  rw [if_neg (by simpa using h)]


/-! ### Properties of the three phase steps -/

theorem populateNewColumn_otherCol (colIdx : ℤ) (view : Viewport) {i : ℤ}
    (hne : i ≠ colIdx) (st : MasonryState) (gen : List MasonryImage)
    (hinv : StInv st) :
    findColumn (populateNewColumn colIdx view st gen).1 i = findColumn st i := by
  by_cases hemp : (findColumn st colIdx).getD [] = []
  · rw [populateNewColumn_eq_of_empty hemp]
    exact populateLoop_otherCol colIdx _ hne gen st _ hinv (Or.inl hemp)
  · rw [populateNewColumn_eq_of_nonempty hemp]

theorem populateNewColumn_bounds (colIdx : ℤ) (view : Viewport) (st : MasonryState)
    (gen : List MasonryImage) (hinv : StInv st) :
    (populateNewColumn colIdx view st gen).1.colMin = st.colMin ∧
      (populateNewColumn colIdx view st gen).1.colMax = st.colMax := by
  by_cases hemp : (findColumn st colIdx).getD [] = []
  · rw [populateNewColumn_eq_of_empty hemp]
    exact populateLoop_bounds colIdx _ gen st _ hinv (Or.inl hemp)
  · rw [populateNewColumn_eq_of_nonempty hemp]
    exact ⟨rfl, rfl⟩

theorem populateNewColumn_selfCol (colIdx : ℤ) (view : Viewport) (st : MasonryState)
    (gen : List MasonryImage) {old : List ℕ} (hinv : StInv st)
    (hex : findColumn st colIdx = some old) :
    ∃ t, findColumn (populateNewColumn colIdx view st gen).1 colIdx
      = some (old ++ t) := by
  by_cases hemp : (findColumn st colIdx).getD [] = []
  · rw [populateNewColumn_eq_of_empty hemp]
    exact populateLoop_selfCol colIdx _ gen st _ old hinv hex (Or.inl hemp)
  · rw [populateNewColumn_eq_of_nonempty hemp]
    refine ⟨[], ?_⟩
    rw [List.append_nil]
    exact hex

theorem topStep_inv (borderTop : ℤ) (acc : MasonryState × List MasonryImage)
    (ci : ℤ) (hacc : StInv acc.1) :
    StInv (topStep borderTop acc ci).1 ∧ Evolves acc.1 (topStep borderTop acc ci).1 := by
  rcases hf : findColumn acc.1 ci with _ | (_ | ⟨s₀, tl⟩)
  · rw [topStep_eq_of_none hf]
    exact ⟨hacc, evolves_refl acc.1⟩
  · rw [topStep_eq_of_empty hf]
    exact ⟨hacc, evolves_refl acc.1⟩
  · rw [topStep_eq_of_cons hf]
    exact stInv_extendColumnUpward ci borderTop acc.2 acc.1 hacc

theorem topStep_suffix (borderTop : ℤ) (acc : MasonryState × List MasonryImage)
    (ci : ℤ) : (topStep borderTop acc ci).2 <:+ acc.2 := by
  rcases hf : findColumn acc.1 ci with _ | (_ | ⟨s₀, tl⟩)
  · rw [topStep_eq_of_none hf]
  · rw [topStep_eq_of_empty hf]
  · rw [topStep_eq_of_cons hf]
    exact extendColumnUpward_suffix ci borderTop acc.2 acc.1

theorem topStep_TF (borderTop : ℤ) (acc : MasonryState × List MasonryImage)
    (ci : ℤ) {i : ℤ} (hacc : StInv acc.1) (h : TopFlushAt borderTop acc.1 i) :
    TopFlushAt borderTop (topStep borderTop acc ci).1 i := by
  rcases hf : findColumn acc.1 ci with _ | (_ | ⟨s₀, tl⟩)
  · rw [topStep_eq_of_none hf]
    exact h
  · rw [topStep_eq_of_empty hf]
    exact h
  · rw [topStep_eq_of_cons hf]
    by_cases hii : i = ci
    · subst hii
      have hhd : ((findColumn acc.1 i).getD []).head? = some s₀ := by
        rw [hf]
        rfl
      have hle := h s₀ (by rw [hhd]; exact Option.mem_def.mpr rfl)
      rw [extendColumnUpward_noop hhd hle]
      exact h
    · exact TopFlushAt_transfer hacc
        (stInv_extendColumnUpward ci borderTop acc.2 acc.1 hacc).2.2.1
        (extendColumnUpward_otherCol ci borderTop hii acc.2 acc.1 hacc) h

theorem topStep_bounds (borderTop : ℤ) (acc : MasonryState × List MasonryImage)
    (ci : ℤ) (hacc : StInv acc.1) :
    (topStep borderTop acc ci).1.colMin = acc.1.colMin ∧
      (topStep borderTop acc ci).1.colMax = acc.1.colMax := by
  rcases hf : findColumn acc.1 ci with _ | (_ | ⟨s₀, tl⟩)
  · rw [topStep_eq_of_none hf]
    exact ⟨rfl, rfl⟩
  · rw [topStep_eq_of_empty hf]
    exact ⟨rfl, rfl⟩
  · rw [topStep_eq_of_cons hf]
    exact extendColumnUpward_bounds ci borderTop acc.2 acc.1 hacc

theorem botStep_inv (borderBottom : ℤ) (acc : MasonryState × List MasonryImage)
    (ci : ℤ) (hacc : StInv acc.1) :
    StInv (botStep borderBottom acc ci).1 ∧
      Evolves acc.1 (botStep borderBottom acc ci).1 := by
  rcases hf : findColumn acc.1 ci with _ | (_ | ⟨s₀, tl⟩)
  · rw [botStep_eq_of_none hf]
    exact ⟨hacc, evolves_refl acc.1⟩
  · rw [botStep_eq_of_empty hf]
    exact ⟨hacc, evolves_refl acc.1⟩
  · rw [botStep_eq_of_cons hf]
    exact stInv_extendColumnDownward ci borderBottom acc.2 acc.1 hacc

theorem botStep_suffix (borderBottom : ℤ) (acc : MasonryState × List MasonryImage)
    (ci : ℤ) : (botStep borderBottom acc ci).2 <:+ acc.2 := by
  rcases hf : findColumn acc.1 ci with _ | (_ | ⟨s₀, tl⟩)
  · rw [botStep_eq_of_none hf]
  · rw [botStep_eq_of_empty hf]
  · rw [botStep_eq_of_cons hf]
    exact extendColumnDownward_suffix ci borderBottom acc.2 acc.1

theorem botStep_TF (borderBottom borderTop : ℤ)
    (acc : MasonryState × List MasonryImage) (ci : ℤ) {i : ℤ} (hacc : StInv acc.1)
    (h : TopFlushAt borderTop acc.1 i) :
    TopFlushAt borderTop (botStep borderBottom acc ci).1 i := by
  rcases hf : findColumn acc.1 ci with _ | (_ | ⟨s₀, tl⟩)
  · rw [botStep_eq_of_none hf]
    exact h
  · rw [botStep_eq_of_empty hf]
    exact h
  · rw [botStep_eq_of_cons hf]
    by_cases hii : i = ci
    · subst hii
      obtain ⟨t, ht⟩ := extendColumnDownward_selfCol i borderBottom acc.2 acc.1
        (s₀ :: tl) hacc hf
      have hev := (stInv_extendColumnDownward i borderBottom acc.2 acc.1 hacc).2
      intro s₁ hs₁
      have hs₁x : s₁ ∈ ((s₀ :: tl) ++ t).head? := by
        have hy : s₁ ∈ ((some ((s₀ :: tl) ++ t)).getD ([] : List ℕ)).head? := by
          rw [← ht]
          exact hs₁
        exact hy
      have hs₁e : s₁ = s₀ := by
        rw [List.cons_append, List.head?_cons, Option.mem_def] at hs₁x
        exact (Option.some.inj hs₁x).symm
      subst hs₁e
      have hmem : s₁ ∈ (findColumn acc.1 i).getD [] := by
        rw [hf]
        exact List.mem_cons_self _ _
      have hder := derefItem_stable hev.2.1 (stInv_bound hacc i s₁ hmem)
      rw [hder]
      refine h s₁ ?_
      rw [hf]
      exact Option.mem_def.mpr rfl
    · exact TopFlushAt_transfer hacc
        (stInv_extendColumnDownward ci borderBottom acc.2 acc.1 hacc).2.2.1
        (extendColumnDownward_otherCol ci borderBottom hii acc.2 acc.1 hacc) h

theorem botStep_BF (borderBottom : ℤ) (acc : MasonryState × List MasonryImage)
    (ci : ℤ) {i : ℤ} (hacc : StInv acc.1) (h : BotFlushAt borderBottom acc.1 i) :
    BotFlushAt borderBottom (botStep borderBottom acc ci).1 i := by
  rcases hf : findColumn acc.1 ci with _ | (_ | ⟨s₀, tl⟩)
  · rw [botStep_eq_of_none hf]
    exact h
  · rw [botStep_eq_of_empty hf]
    exact h
  · rw [botStep_eq_of_cons hf]
    by_cases hii : i = ci
    · subst hii
      rcases h with h | h
      · rw [hf] at h
        cases h
      · rw [extendColumnDownward_noop h]
        right
        exact h
    · exact BotFlushAt_transfer hacc
        (stInv_extendColumnDownward ci borderBottom acc.2 acc.1 hacc).2.1
        (stInv_extendColumnDownward ci borderBottom acc.2 acc.1 hacc).2.2.1
        (extendColumnDownward_otherCol ci borderBottom hii acc.2 acc.1 hacc) h

theorem botStep_bounds (borderBottom : ℤ) (acc : MasonryState × List MasonryImage)
    (ci : ℤ) (hacc : StInv acc.1) :
    (botStep borderBottom acc ci).1.colMin = acc.1.colMin ∧
      (botStep borderBottom acc ci).1.colMax = acc.1.colMax := by
  rcases hf : findColumn acc.1 ci with _ | (_ | ⟨s₀, tl⟩)
  · rw [botStep_eq_of_none hf]
    exact ⟨rfl, rfl⟩
  · rw [botStep_eq_of_empty hf]
    exact ⟨rfl, rfl⟩
  · rw [botStep_eq_of_cons hf]
    exact extendColumnDownward_bounds ci borderBottom acc.2 acc.1 hacc

theorem sideStep_inv (view : Viewport) (acc : MasonryState × List MasonryImage)
    (ci : ℤ) (hacc : StInv acc.1) :
    StInv (sideStep view acc ci).1 ∧ Evolves acc.1 (sideStep view acc ci).1 := by
  by_cases hemp : (findColumn (getOrCreateColumn acc.1 ci) ci).getD [] = []
  · rw [sideStep_eq_of_empty hemp]
    obtain ⟨h₁, h₂⟩ := stInv_populateNewColumn ci view _ acc.2
      (stInv_getOrCreateColumn hacc ci)
    refine ⟨h₁, evolves_trans
      ⟨getOrCreateColumn_cfg acc.1 ci, ?_, bndInv_getOrCreateColumn acc.1 ci⟩ h₂⟩
    rw [getOrCreateColumn_items]
  · rw [sideStep_eq_of_nonempty hemp]
    refine ⟨stInv_getOrCreateColumn hacc ci, getOrCreateColumn_cfg acc.1 ci, ?_,
      bndInv_getOrCreateColumn acc.1 ci⟩
    rw [getOrCreateColumn_items]

theorem sideStep_suffix (view : Viewport) (acc : MasonryState × List MasonryImage)
    (ci : ℤ) : (sideStep view acc ci).2 <:+ acc.2 := by
  by_cases hemp : (findColumn (getOrCreateColumn acc.1 ci) ci).getD [] = []
  · rw [sideStep_eq_of_empty hemp]
    exact populateNewColumn_suffix ci view _ acc.2
  · rw [sideStep_eq_of_nonempty hemp]

theorem sideStep_otherCol (view : Viewport) (acc : MasonryState × List MasonryImage)
    (ci : ℤ) {i : ℤ} (hne : i ≠ ci) (hacc : StInv acc.1) :
    findColumn (sideStep view acc ci).1 i = findColumn acc.1 i := by
  by_cases hemp : (findColumn (getOrCreateColumn acc.1 ci) ci).getD [] = []
  · rw [sideStep_eq_of_empty hemp]
    rw [populateNewColumn_otherCol ci view hne _ acc.2 (stInv_getOrCreateColumn hacc ci)]
    exact findColumn_getOrCreateColumn_ne acc.1 ci i hne
  · rw [sideStep_eq_of_nonempty hemp]
    exact findColumn_getOrCreateColumn_ne acc.1 ci i hne

theorem sideStep_isSome (view : Viewport) (acc : MasonryState × List MasonryImage)
    (ci : ℤ) (hacc : StInv acc.1) :
    (findColumn (sideStep view acc ci).1 ci).isSome = true := by
  have hex : findColumn (getOrCreateColumn acc.1 ci) ci
      = some ((findColumn acc.1 ci).getD []) := findColumn_getOrCreateColumn_self acc.1 ci
  by_cases hemp : (findColumn (getOrCreateColumn acc.1 ci) ci).getD [] = []
  · rw [sideStep_eq_of_empty hemp]
    obtain ⟨t, ht⟩ := populateNewColumn_selfCol ci view _ acc.2
      (stInv_getOrCreateColumn hacc ci) hex
    rw [ht]
    rfl
  · rw [sideStep_eq_of_nonempty hemp]
    rw [hex]
    rfl

theorem sideStep_isSome_mono (view : Viewport) (acc : MasonryState × List MasonryImage)
    (ci : ℤ) {i : ℤ} (hacc : StInv acc.1)
    (h : (findColumn acc.1 i).isSome = true) :
    (findColumn (sideStep view acc ci).1 i).isSome = true := by
  by_cases hii : i = ci
  · subst hii
    exact sideStep_isSome view acc i hacc
  · rw [sideStep_otherCol view acc ci hii hacc]
    exact h

theorem sideStep_nonempty_mono (view : Viewport)
    (acc : MasonryState × List MasonryImage) (ci : ℤ) {i : ℤ} (hacc : StInv acc.1)
    (h : (findColumn acc.1 i).getD [] ≠ []) :
    (findColumn (sideStep view acc ci).1 i).getD [] ≠ [] := by
  by_cases hii : i = ci
  · subst hii
    have hex : findColumn (getOrCreateColumn acc.1 i) i
        = some ((findColumn acc.1 i).getD []) := findColumn_getOrCreateColumn_self acc.1 i
    by_cases hemp : (findColumn (getOrCreateColumn acc.1 i) i).getD [] = []
    · rw [hex] at hemp
      exact absurd hemp h
    · rw [sideStep_eq_of_nonempty hemp]
      rw [hex]
      exact h
  · rw [sideStep_otherCol view acc ci hii hacc]
    exact h

theorem sideStep_TF (view : Viewport) {borderTop : ℤ}
    (acc : MasonryState × List MasonryImage) (ci : ℤ) {i : ℤ} (hacc : StInv acc.1)
    (hbt : borderTop = view.y - acc.1.cfg.verticalOverscan)
    (h : TopFlushAt borderTop acc.1 i) :
    TopFlushAt borderTop (sideStep view acc ci).1 i := by
  by_cases hii : i = ci
  · subst hii
    have hex : findColumn (getOrCreateColumn acc.1 i) i
        = some ((findColumn acc.1 i).getD []) := findColumn_getOrCreateColumn_self acc.1 i
    by_cases hemp : (findColumn (getOrCreateColumn acc.1 i) i).getD [] = []
    · rw [sideStep_eq_of_empty hemp]
      rw [hex] at hemp
      simp only [Option.getD_some] at hemp
      have hex0 : findColumn (getOrCreateColumn acc.1 i) i = some [] := by
        rw [hex, hemp]
      rw [populateNewColumn_eq_of_empty (by rw [hex0]; rfl)]
      intro s₀ hs₀
      have htop := populateLoop_top i
        (view.y + view.height + (getOrCreateColumn acc.1 i).cfg.verticalOverscan)
        acc.2 (getOrCreateColumn acc.1 i)
        (view.y - (getOrCreateColumn acc.1 i).cfg.verticalOverscan)
        (stInv_getOrCreateColumn hacc i) hex0 s₀ hs₀
      rw [htop, getOrCreateColumn_cfg, hbt]
    · rw [sideStep_eq_of_nonempty hemp]
      have hsome : (findColumn acc.1 i).isSome = true := by
        rw [hex] at hemp
        simp only [Option.getD_some] at hemp
        rcases hfi : findColumn acc.1 i with _ | v
        · rw [hfi] at hemp
          exact absurd rfl hemp
        · rfl
      rw [getOrCreateColumn_found hsome]
      exact h
  · have hev := (sideStep_inv view acc ci hacc).2
    exact TopFlushAt_transfer hacc hev.2.1 (sideStep_otherCol view acc ci hii hacc) h

theorem sideStep_colMax (view : Viewport) (acc : MasonryState × List MasonryImage)
    (ci : ℤ) (hacc : StInv acc.1) (hbnd : BndInv acc.1) :
    ∃ m', (sideStep view acc ci).1.colMax = some m' ∧ ci ≤ m' ∧
      ∀ m₀, acc.1.colMax = some m₀ → m₀ ≤ m' := by
  obtain ⟨m', hm', hle⟩ := getOrCreateColumn_colMax_self hbnd ci
  have hmono : ∀ m₀, acc.1.colMax = some m₀ → m₀ ≤ m' := by
    intro m₀ h₀
    obtain ⟨m'', hm'', hle''⟩ := getOrCreateColumn_colMax_mono h₀ ci
    rw [hm''] at hm'
    rw [Option.some.inj hm'] at hle''
    exact hle''
  by_cases hemp : (findColumn (getOrCreateColumn acc.1 ci) ci).getD [] = []
  · rw [sideStep_eq_of_empty hemp]
    obtain ⟨_, h₂⟩ := populateNewColumn_bounds ci view _ acc.2
      (stInv_getOrCreateColumn hacc ci)
    refine ⟨m', ?_, hle, hmono⟩
    rw [h₂]
    exact hm'
  · rw [sideStep_eq_of_nonempty hemp]
    exact ⟨m', hm', hle, hmono⟩

theorem sideStep_colMin (view : Viewport) (acc : MasonryState × List MasonryImage)
    (ci : ℤ) (hacc : StInv acc.1) (hbnd : BndInv acc.1) :
    ∃ m', (sideStep view acc ci).1.colMin = some m' ∧ m' ≤ ci ∧
      ∀ m₀, acc.1.colMin = some m₀ → m' ≤ m₀ := by
  obtain ⟨m', hm', hle⟩ := getOrCreateColumn_colMin_self hbnd ci
  have hmono : ∀ m₀, acc.1.colMin = some m₀ → m' ≤ m₀ := by
    intro m₀ h₀
    obtain ⟨m'', hm'', hle''⟩ := getOrCreateColumn_colMin_mono h₀ ci
    rw [hm''] at hm'
    rw [Option.some.inj hm'] at hle''
    exact hle''
  by_cases hemp : (findColumn (getOrCreateColumn acc.1 ci) ci).getD [] = []
  · rw [sideStep_eq_of_empty hemp]
    obtain ⟨h₁, _⟩ := populateNewColumn_bounds ci view _ acc.2
      (stInv_getOrCreateColumn hacc ci)
    refine ⟨m', ?_, hle, hmono⟩
    rw [h₁]
    exact hm'
  · rw [sideStep_eq_of_nonempty hemp]
    exact ⟨m', hm', hle, hmono⟩


/-! ### Fold-level facts for the border phases -/

theorem foldl_pres {β : Type}
    (f : MasonryState × List MasonryImage → β → MasonryState × List MasonryImage)
    (P : MasonryState → Prop)
    (hinv : ∀ acc b, StInv acc.1 → StInv (f acc b).1)
    (hP : ∀ acc b, StInv acc.1 → P acc.1 → P (f acc b).1) :
    ∀ (l : List β) (acc : MasonryState × List MasonryImage),
      StInv acc.1 → P acc.1 → P (l.foldl f acc).1 := by
  intro l
  induction l with
  | nil =>
    intro acc hacc hp
    exact hp
  | cons b rest ih =>
    intro acc hacc hp
    rw [List.foldl_cons]
    exact ih (f acc b) (hinv acc b hacc) (hP acc b hacc hp)

theorem findColumn_pushTop_self {st : MasonryState} (hinv : StInv st) (colIdx : ℤ)
    (image : MasonryImage) (y h : ℤ) {old : List ℕ}
    (hex : findColumn st colIdx = some old)
    (hy : ∀ s₀ ∈ ((findColumn st colIdx).getD []).head?,
      y = (derefItem st s₀).y - st.cfg.rowGap - h) :
    findColumn (pushTop st colIdx image y h) colIdx
      = some (st.items.length :: old) := by
  rw [pushTop_spec st colIdx image y h (stInv_bound hinv colIdx) hy]
  have hx : findColumn { st with
      items := st.items ++ [createPlacedImage st.cfg image colIdx y h] } colIdx
    = some old := hex
  rw [show pushRaw st colIdx (createPlacedImage st.cfg image colIdx y h)
      (st.items.length :: (findColumn st colIdx).getD [])
    = setColumn { st with
        items := st.items ++ [createPlacedImage st.cfg image colIdx y h] } colIdx
      (st.items.length :: (findColumn st colIdx).getD []) from rfl]
  rw [findColumn_setColumn_self _ _ _ (by simp [hx])]
  rw [hex]
  rfl

theorem extendColumnUpward_exCol (colIdx borderTop : ℤ) :
    ∀ (gen : List MasonryImage) (st : MasonryState) (old : List ℕ), StInv st →
      findColumn st colIdx = some old →
      ∃ new, findColumn (extendColumnUpward colIdx borderTop st gen).1 colIdx
        = some new := by
  intro gen
  induction gen with
  | nil =>
    intro st old hinv hex
    exact ⟨old, hex⟩
  | cons image rest ih =>
    intro st old hinv hex
    rcases hhd : ((findColumn st colIdx).getD []).head? with _ | sTop
    · rw [extendColumnUpward_eq_empty hhd]
      exact ⟨old, hex⟩
    · by_cases hb : (derefItem st sTop).y ≤ borderTop
      · rw [extendColumnUpward_noop hhd hb]
        exact ⟨old, hex⟩
      · rcases hcs : computeScaledHeight st.cfg image with _ | sh
        · rw [extendColumnUpward_eq_skip hhd hb hcs]
          exact ih st old hinv hex
        · rw [extendColumnUpward_eq_push hhd hb hcs]
          have hy : ∀ s₀ ∈ ((findColumn st colIdx).getD []).head?,
              (derefItem st sTop).y - st.cfg.rowGap - sh
                = (derefItem st s₀).y - st.cfg.rowGap - sh := by
            intro s₀ hs₀
            rw [hhd, Option.mem_def] at hs₀
            have h₀ := Option.some.inj hs₀
            rw [← h₀]
          exact ih _ (st.items.length :: old)
            (stInv_pushTop hinv colIdx image (computeScaledHeight_pos hcs) hy)
            (findColumn_pushTop_self hinv colIdx image _ _ hex hy)

theorem topStep_isSome_mono (borderTop : ℤ) (acc : MasonryState × List MasonryImage)
    (ci : ℤ) {i : ℤ} (hacc : StInv acc.1)
    (h : (findColumn acc.1 i).isSome = true) :
    (findColumn (topStep borderTop acc ci).1 i).isSome = true := by
  rcases hf : findColumn acc.1 ci with _ | (_ | ⟨s₀, tl⟩)
  · rw [topStep_eq_of_none hf]
    exact h
  · rw [topStep_eq_of_empty hf]
    exact h
  · rw [topStep_eq_of_cons hf]
    by_cases hii : i = ci
    · subst hii
      obtain ⟨new, hnew⟩ := extendColumnUpward_exCol i borderTop acc.2 acc.1
        (s₀ :: tl) hacc hf
      rw [hnew]
      rfl
    · rw [extendColumnUpward_otherCol ci borderTop hii acc.2 acc.1 hacc]
      exact h

theorem botStep_isSome_mono (borderBottom : ℤ) (acc : MasonryState × List MasonryImage)
    (ci : ℤ) {i : ℤ} (hacc : StInv acc.1)
    (h : (findColumn acc.1 i).isSome = true) :
    (findColumn (botStep borderBottom acc ci).1 i).isSome = true := by
  rcases hf : findColumn acc.1 ci with _ | (_ | ⟨s₀, tl⟩)
  · rw [botStep_eq_of_none hf]
    exact h
  · rw [botStep_eq_of_empty hf]
    exact h
  · rw [botStep_eq_of_cons hf]
    by_cases hii : i = ci
    · subst hii
      obtain ⟨t, ht⟩ := extendColumnDownward_selfCol i borderBottom acc.2 acc.1
        (s₀ :: tl) hacc hf
      rw [ht]
      rfl
    · rw [extendColumnDownward_otherCol ci borderBottom hii acc.2 acc.1 hacc]
      exact h

theorem topFold_inv (borderTop : ℤ) (l : List ℤ)
    (acc : MasonryState × List MasonryImage) (hacc : StInv acc.1) :
    StInv ((l.foldl (topStep borderTop) acc)).1 ∧
      Evolves acc.1 ((l.foldl (topStep borderTop) acc)).1 :=
  stInv_foldl (topStep borderTop) (fun a b ha => topStep_inv borderTop a b ha) l acc hacc

theorem botFold_inv (borderBottom : ℤ) (l : List ℤ)
    (acc : MasonryState × List MasonryImage) (hacc : StInv acc.1) :
    StInv ((l.foldl (botStep borderBottom) acc)).1 ∧
      Evolves acc.1 ((l.foldl (botStep borderBottom) acc)).1 :=
  stInv_foldl (botStep borderBottom) (fun a b ha => botStep_inv borderBottom a b ha)
    l acc hacc

theorem sideFold_inv (view : Viewport) (l : List ℤ)
    (acc : MasonryState × List MasonryImage) (hacc : StInv acc.1) :
    StInv ((l.foldl (sideStep view) acc)).1 ∧
      Evolves acc.1 ((l.foldl (sideStep view) acc)).1 :=
  stInv_foldl (sideStep view) (fun a b ha => sideStep_inv view a b ha) l acc hacc

theorem topFold_TF (borderTop : ℤ) (l : List ℤ)
    (acc : MasonryState × List MasonryImage) {i : ℤ} (hacc : StInv acc.1)
    (h : TopFlushAt borderTop acc.1 i) :
    TopFlushAt borderTop ((l.foldl (topStep borderTop) acc)).1 i :=
  foldl_pres (topStep borderTop) (fun st => TopFlushAt borderTop st i)
    (fun a b ha => (topStep_inv borderTop a b ha).1)
    (fun a b ha hp => topStep_TF borderTop a b ha hp) l acc hacc h

theorem botFold_TF (borderBottom borderTop : ℤ) (l : List ℤ)
    (acc : MasonryState × List MasonryImage) {i : ℤ} (hacc : StInv acc.1)
    (h : TopFlushAt borderTop acc.1 i) :
    TopFlushAt borderTop ((l.foldl (botStep borderBottom) acc)).1 i :=
  foldl_pres (botStep borderBottom) (fun st => TopFlushAt borderTop st i)
    (fun a b ha => (botStep_inv borderBottom a b ha).1)
    (fun a b ha hp => botStep_TF borderBottom borderTop a b ha hp) l acc hacc h

theorem botFold_BF (borderBottom : ℤ) (l : List ℤ)
    (acc : MasonryState × List MasonryImage) {i : ℤ} (hacc : StInv acc.1)
    (h : BotFlushAt borderBottom acc.1 i) :
    BotFlushAt borderBottom ((l.foldl (botStep borderBottom) acc)).1 i :=
  foldl_pres (botStep borderBottom) (fun st => BotFlushAt borderBottom st i)
    (fun a b ha => (botStep_inv borderBottom a b ha).1)
    (fun a b ha hp => botStep_BF borderBottom a b ha hp) l acc hacc h

theorem topFold_isSome (borderTop : ℤ) (l : List ℤ)
    (acc : MasonryState × List MasonryImage) {i : ℤ} (hacc : StInv acc.1)
    (h : (findColumn acc.1 i).isSome = true) :
    (findColumn ((l.foldl (topStep borderTop) acc)).1 i).isSome = true :=
  foldl_pres (topStep borderTop) (fun st => (findColumn st i).isSome = true)
    (fun a b ha => (topStep_inv borderTop a b ha).1)
    (fun a b ha hp => topStep_isSome_mono borderTop a b ha hp) l acc hacc h

theorem botFold_isSome (borderBottom : ℤ) (l : List ℤ)
    (acc : MasonryState × List MasonryImage) {i : ℤ} (hacc : StInv acc.1)
    (h : (findColumn acc.1 i).isSome = true) :
    (findColumn ((l.foldl (botStep borderBottom) acc)).1 i).isSome = true :=
  foldl_pres (botStep borderBottom) (fun st => (findColumn st i).isSome = true)
    (fun a b ha => (botStep_inv borderBottom a b ha).1)
    (fun a b ha hp => botStep_isSome_mono borderBottom a b ha hp) l acc hacc h

theorem sideFold_isSome (view : Viewport) (l : List ℤ)
    (acc : MasonryState × List MasonryImage) {i : ℤ} (hacc : StInv acc.1)
    (h : (findColumn acc.1 i).isSome = true) :
    (findColumn ((l.foldl (sideStep view) acc)).1 i).isSome = true :=
  foldl_pres (sideStep view) (fun st => (findColumn st i).isSome = true)
    (fun a b ha => (sideStep_inv view a b ha).1)
    (fun a b ha hp => sideStep_isSome_mono view a b ha hp) l acc hacc h

theorem sideFold_nonempty (view : Viewport) (l : List ℤ)
    (acc : MasonryState × List MasonryImage) {i : ℤ} (hacc : StInv acc.1)
    (h : (findColumn acc.1 i).getD [] ≠ []) :
    (findColumn ((l.foldl (sideStep view) acc)).1 i).getD [] ≠ [] :=
  foldl_pres (sideStep view) (fun st => (findColumn st i).getD [] ≠ [])
    (fun a b ha => (sideStep_inv view a b ha).1)
    (fun a b ha hp => sideStep_nonempty_mono view a b ha hp) l acc hacc h

theorem topFold_bounds (borderTop : ℤ) :
    ∀ (l : List ℤ) (acc : MasonryState × List MasonryImage), StInv acc.1 →
      ((l.foldl (topStep borderTop) acc)).1.colMin = acc.1.colMin ∧
        ((l.foldl (topStep borderTop) acc)).1.colMax = acc.1.colMax := by
  intro l
  induction l with
  | nil =>
    intro acc hacc
    exact ⟨rfl, rfl⟩
  | cons j rest ih =>
    intro acc hacc
    rw [List.foldl_cons]
    obtain ⟨h₁, h₂⟩ := ih (topStep borderTop acc j) (topStep_inv borderTop acc j hacc).1
    obtain ⟨h₃, h₄⟩ := topStep_bounds borderTop acc j hacc
    exact ⟨h₁.trans h₃, h₂.trans h₄⟩

theorem botFold_bounds (borderBottom : ℤ) :
    ∀ (l : List ℤ) (acc : MasonryState × List MasonryImage), StInv acc.1 →
      ((l.foldl (botStep borderBottom) acc)).1.colMin = acc.1.colMin ∧
        ((l.foldl (botStep borderBottom) acc)).1.colMax = acc.1.colMax := by
  intro l
  induction l with
  | nil =>
    intro acc hacc
    exact ⟨rfl, rfl⟩
  | cons j rest ih =>
    intro acc hacc
    rw [List.foldl_cons]
    obtain ⟨h₁, h₂⟩ := ih (botStep borderBottom acc j) (botStep_inv borderBottom acc j hacc).1
    obtain ⟨h₃, h₄⟩ := botStep_bounds borderBottom acc j hacc
    exact ⟨h₁.trans h₃, h₂.trans h₄⟩

theorem topFold_establish (borderTop : ℤ) :
    ∀ (l : List ℤ) (acc : MasonryState × List MasonryImage), StInv acc.1 →
      (l.foldl (topStep borderTop) acc).2 ≠ [] →
      ∀ i ∈ l, TopFlushAt borderTop ((l.foldl (topStep borderTop) acc)).1 i := by
  intro l
  induction l with
  | nil =>
    intro acc hacc hne i hi
    cases hi
  | cons j rest ih =>
    intro acc hacc hne i hi
    rw [List.foldl_cons] at hne ⊢
    have hstep := topStep_inv borderTop acc j hacc
    rcases List.mem_cons.mp hi with rfl | hmem
    · have hTF : TopFlushAt borderTop (topStep borderTop acc i).1 i := by
        rcases hf : findColumn acc.1 i with _ | (_ | ⟨s₀, tl⟩)
        · rw [topStep_eq_of_none hf]
          intro s₁ hs₁
          have hx : s₁ ∈ ((findColumn acc.1 i).getD []).head? := hs₁
          rw [hf] at hx
          simp at hx
        · rw [topStep_eq_of_empty hf]
          intro s₁ hs₁
          have hx : s₁ ∈ ((findColumn acc.1 i).getD []).head? := hs₁
          rw [hf] at hx
          simp at hx
        · have hsne : (topStep borderTop acc i).2 ≠ [] := by
            intro h0
            apply hne
            have hsuf := foldl_suffix (topStep borderTop)
              (fun a b => topStep_suffix borderTop a b) rest (topStep borderTop acc i)
            rw [h0] at hsuf
            exact suffix_of_nil hsuf
          rw [topStep_eq_of_cons hf] at hsne ⊢
          exact extendColumnUpward_exit i borderTop acc.2 acc.1 hacc hsne
      exact topFold_TF borderTop rest _ hstep.1 hTF
    · exact ih (topStep borderTop acc j) hstep.1 hne i hmem

theorem botFold_establish (borderBottom : ℤ) :
    ∀ (l : List ℤ) (acc : MasonryState × List MasonryImage), StInv acc.1 →
      (l.foldl (botStep borderBottom) acc).2 ≠ [] →
      ∀ i ∈ l, BotFlushAt borderBottom ((l.foldl (botStep borderBottom) acc)).1 i := by
  intro l
  induction l with
  | nil =>
    intro acc hacc hne i hi
    cases hi
  | cons j rest ih =>
    intro acc hacc hne i hi
    rw [List.foldl_cons] at hne ⊢
    have hstep := botStep_inv borderBottom acc j hacc
    rcases List.mem_cons.mp hi with rfl | hmem
    · have hBF : BotFlushAt borderBottom (botStep borderBottom acc i).1 i := by
        rcases hf : findColumn acc.1 i with _ | (_ | ⟨s₀, tl⟩)
        · rw [botStep_eq_of_none hf]
          left
          rw [hf]
          rfl
        · rw [botStep_eq_of_empty hf]
          left
          rw [hf]
          rfl
        · have hsne : (botStep borderBottom acc i).2 ≠ [] := by
            intro h0
            apply hne
            have hsuf := foldl_suffix (botStep borderBottom)
              (fun a b => botStep_suffix borderBottom a b) rest (botStep borderBottom acc i)
            rw [h0] at hsuf
            exact suffix_of_nil hsuf
          rw [botStep_eq_of_cons hf] at hsne ⊢
          right
          exact extendColumnDownward_exit i borderBottom acc.2 acc.1 hacc hsne
      exact botFold_BF borderBottom rest _ hstep.1 hBF
    · exact ih (botStep borderBottom acc j) hstep.1 hne i hmem


/-! ### Fold-level facts for the side phases and viewport cover -/

theorem sideFold_TF (view : Viewport) (borderTop : ℤ) :
    ∀ (l : List ℤ) (acc : MasonryState × List MasonryImage), StInv acc.1 →
      borderTop = view.y - acc.1.cfg.verticalOverscan →
      ∀ {i : ℤ}, TopFlushAt borderTop acc.1 i →
      TopFlushAt borderTop ((l.foldl (sideStep view) acc)).1 i := by
  intro l
  induction l with
  | nil =>
    intro acc hacc hbt i h
    exact h
  | cons j rest ih =>
    intro acc hacc hbt i h
    rw [List.foldl_cons]
    have hstep := sideStep_inv view acc j hacc
    refine ih _ hstep.1 ?_ (sideStep_TF view acc j hacc hbt h)
    rw [hstep.2.1]
    exact hbt

theorem sideFold_colMax (view : Viewport) :
    ∀ (l : List ℤ) (acc : MasonryState × List MasonryImage), StInv acc.1 →
      BndInv acc.1 →
      (∀ ci ∈ l, ∃ m', ((l.foldl (sideStep view) acc)).1.colMax = some m' ∧ ci ≤ m') ∧
        (∀ m₀, acc.1.colMax = some m₀ →
          ∃ m', ((l.foldl (sideStep view) acc)).1.colMax = some m' ∧ m₀ ≤ m') := by
  intro l
  induction l with
  | nil =>
    intro acc hacc hbnd
    exact ⟨fun ci hci => absurd hci (List.not_mem_nil ci),
      fun m₀ h₀ => ⟨m₀, h₀, le_refl m₀⟩⟩
  | cons j rest ih =>
    intro acc hacc hbnd
    rw [List.foldl_cons]
    have hstep := sideStep_inv view acc j hacc
    have hbnd' := hstep.2.2.2 hbnd
    obtain ⟨m₁, hm₁, hjle, hmono₁⟩ := sideStep_colMax view acc j hacc hbnd
    obtain ⟨hall, hmono⟩ := ih (sideStep view acc j) hstep.1 hbnd'
    constructor
    · intro ci hci
      rcases List.mem_cons.mp hci with rfl | hmem
      · obtain ⟨m', hm', hle'⟩ := hmono m₁ hm₁
        exact ⟨m', hm', le_trans hjle hle'⟩
      · exact hall ci hmem
    · intro m₀ h₀
      obtain ⟨m', hm', hle'⟩ := hmono m₁ hm₁
      exact ⟨m', hm', le_trans (hmono₁ m₀ h₀) hle'⟩

theorem sideFold_colMin (view : Viewport) :
    ∀ (l : List ℤ) (acc : MasonryState × List MasonryImage), StInv acc.1 →
      BndInv acc.1 →
      (∀ ci ∈ l, ∃ m', ((l.foldl (sideStep view) acc)).1.colMin = some m' ∧ m' ≤ ci) ∧
        (∀ m₀, acc.1.colMin = some m₀ →
          ∃ m', ((l.foldl (sideStep view) acc)).1.colMin = some m' ∧ m' ≤ m₀) := by
  intro l
  induction l with
  | nil =>
    intro acc hacc hbnd
    exact ⟨fun ci hci => absurd hci (List.not_mem_nil ci),
      fun m₀ h₀ => ⟨m₀, h₀, le_refl m₀⟩⟩
  | cons j rest ih =>
    intro acc hacc hbnd
    rw [List.foldl_cons]
    have hstep := sideStep_inv view acc j hacc
    have hbnd' := hstep.2.2.2 hbnd
    obtain ⟨m₁, hm₁, hjle, hmono₁⟩ := sideStep_colMin view acc j hacc hbnd
    obtain ⟨hall, hmono⟩ := ih (sideStep view acc j) hstep.1 hbnd'
    constructor
    · intro ci hci
      rcases List.mem_cons.mp hci with rfl | hmem
      · obtain ⟨m', hm', hle'⟩ := hmono m₁ hm₁
        exact ⟨m', hm', le_trans hle' hjle⟩
      · exact hall ci hmem
    · intro m₀ h₀
      obtain ⟨m', hm', hle'⟩ := hmono m₁ hm₁
      exact ⟨m', hm', le_trans hle' (hmono₁ m₀ h₀)⟩

theorem sideFold_boundary (view : Viewport) (borderTop borderBottom : ℤ) :
    ∀ (l : List ℤ) (acc : MasonryState × List MasonryImage), StInv acc.1 →
      borderTop = view.y - acc.1.cfg.verticalOverscan →
      borderBottom = view.y + view.height + acc.1.cfg.verticalOverscan →
      (l.foldl (sideStep view) acc).2 ≠ [] →
      ∀ ci ∈ l,
        (findColumn ((l.foldl (sideStep view) acc)).1 ci).isSome = true ∧
          ((findColumn ((l.foldl (sideStep view) acc)).1 ci).getD [] = [] →
            borderBottom ≤ borderTop) := by
  intro l
  induction l with
  | nil =>
    intro acc hacc hbt hbb hne ci hci
    cases hci
  | cons j rest ih =>
    intro acc hacc hbt hbb hne ci hci
    rw [List.foldl_cons] at hne ⊢
    have hstep := sideStep_inv view acc j hacc
    rcases List.mem_cons.mp hci with rfl | hmem
    · constructor
      · exact sideFold_isSome view rest _ hstep.1 (sideStep_isSome view acc ci hacc)
      · intro hempty_end
        by_cases hne2 : (findColumn (sideStep view acc ci).1 ci).getD [] = []
        · have hex : findColumn (getOrCreateColumn acc.1 ci) ci
              = some ((findColumn acc.1 ci).getD []) :=
            findColumn_getOrCreateColumn_self acc.1 ci
          by_cases hemp : (findColumn (getOrCreateColumn acc.1 ci) ci).getD [] = []
          · have hex0 : findColumn (getOrCreateColumn acc.1 ci) ci = some [] := by
              rw [hex] at hemp ⊢
              simp only [Option.getD_some] at hemp
              rw [hemp]
            have hseq : sideStep view acc ci
                = populateLoop ci
                    (view.y + view.height
                      + (getOrCreateColumn acc.1 ci).cfg.verticalOverscan)
                    (getOrCreateColumn acc.1 ci)
                    (view.y - (getOrCreateColumn acc.1 ci).cfg.verticalOverscan)
                    acc.2 := by
              rw [sideStep_eq_of_empty hemp,
                populateNewColumn_eq_of_empty (by rw [hex0]; rfl)]
            have hsne : (sideStep view acc ci).2 ≠ [] := by
              intro h0
              apply hne
              have hsuf := foldl_suffix (sideStep view) (sideStep_suffix view) rest
                (sideStep view acc ci)
              rw [h0] at hsuf
              exact suffix_of_nil hsuf
            rw [hseq] at hsne
            have hexit := populateLoop_exit ci
              (view.y + view.height + (getOrCreateColumn acc.1 ci).cfg.verticalOverscan)
              acc.2 (getOrCreateColumn acc.1 ci)
              (view.y - (getOrCreateColumn acc.1 ci).cfg.verticalOverscan) []
              (stInv_getOrCreateColumn hacc ci) hex0 (Or.inl (by rw [hex0]; rfl)) hsne
            rcases hexit with hx | hx
            · rw [getOrCreateColumn_cfg] at hx
              rw [hbt, hbb]
              exact hx
            · rw [← hseq] at hx
              exact absurd hne2 hx
          · rw [sideStep_eq_of_nonempty hemp] at hne2
            exact absurd hne2 hemp
        · have hkeep := sideFold_nonempty view rest _ hstep.1 hne2
          exact absurd hempty_end hkeep
    · refine ih _ hstep.1 ?_ ?_ hne ci hmem
      · rw [hstep.2.1]
        exact hbt
      · rw [hstep.2.1]
        exact hbb

theorem mem_getColumnIndexesInRange {st : MasonryState} {view : Viewport} {i : ℤ} :
    i ∈ getColumnIndexesInRange st view ↔
      i ∈ rangeList (getRequiredColumnRange st.cfg view).1
          (getRequiredColumnRange st.cfg view).2 ∧
        (findColumn st i).isSome = true := by
  unfold getColumnIndexesInRange
  rw [List.mem_filter]

theorem columns_ne_nil_of_isSome {st : MasonryState} {i : ℤ}
    (h : (findColumn st i).isSome = true) : st.columns ≠ [] := by
  intro h0
  unfold findColumn at h
  rw [h0] at h
  simp at h

theorem foldl_getOrCreate_isSome_mono :
    ∀ (l : List ℤ) (st : MasonryState) {i : ℤ},
      (findColumn st i).isSome = true →
      (findColumn (l.foldl getOrCreateColumn st) i).isSome = true := by
  intro l
  induction l with
  | nil =>
    intro st i h
    exact h
  | cons j rest ih =>
    intro st i h
    rw [List.foldl_cons]
    exact ih (getOrCreateColumn st j) (getOrCreateColumn_isSome_mono h j)

theorem foldl_getOrCreate_cover :
    ∀ (l : List ℤ) (st : MasonryState),
      ∀ i ∈ l, (findColumn (l.foldl getOrCreateColumn st) i).isSome = true := by
  intro l
  induction l with
  | nil =>
    intro st i hi
    cases hi
  | cons j rest ih =>
    intro st i hi
    rw [List.foldl_cons]
    rcases List.mem_cons.mp hi with rfl | hmem
    · refine foldl_getOrCreate_isSome_mono rest (getOrCreateColumn st i) ?_
      rw [findColumn_getOrCreateColumn_self]
      rfl
    · exact ih (getOrCreateColumn st j) i hmem


/-! ### Flushness of a whole state, and the no-op second call

`Flush view st` collects exactly what `getItems view` checks before asking
the generator for anything: the viewport's column range is materialised,
`columnBounds` brackets it, every in-range column is flush against both
overscan borders, and a still-empty boundary column can only mean the
degenerate `borderBottom ≤ borderTop` viewport.  Under `Flush` a call is a
complete no-op: same state, same stream. -/

def Flush (view : Viewport) (st : MasonryState) : Prop :=
  (st.columns = [] → rangeList (getRequiredColumnRange st.cfg view).1
    (getRequiredColumnRange st.cfg view).2 = []) ∧
  (∀ i ∈ rangeList (getRequiredColumnRange st.cfg view).1
      (getRequiredColumnRange st.cfg view).2, (findColumn st i).isSome = true) ∧
  (st.colMax = none ∨ ∃ m, st.colMax = some m ∧
    (getRequiredColumnRange st.cfg view).2 ≤ m) ∧
  (st.colMin = none ∨ ∃ m, st.colMin = some m ∧
    m ≤ (getRequiredColumnRange st.cfg view).1) ∧
  (∀ i ∈ rangeList (getRequiredColumnRange st.cfg view).1
      (getRequiredColumnRange st.cfg view).2,
    TopFlushAt (view.y - st.cfg.verticalOverscan) st i ∧
      BotFlushAt (view.y + view.height + st.cfg.verticalOverscan) st i) ∧
  (st.colMax = some (getRequiredColumnRange st.cfg view).2 →
    (findColumn st (getRequiredColumnRange st.cfg view).2).isSome = true ∧
      ((findColumn st (getRequiredColumnRange st.cfg view).2).getD [] = [] →
        view.y + view.height + st.cfg.verticalOverscan
          ≤ view.y - st.cfg.verticalOverscan)) ∧
  (st.colMin = some (getRequiredColumnRange st.cfg view).1 →
    (findColumn st (getRequiredColumnRange st.cfg view).1).isSome = true ∧
      ((findColumn st (getRequiredColumnRange st.cfg view).1).getD [] = [] →
        view.y + view.height + st.cfg.verticalOverscan
          ≤ view.y - st.cfg.verticalOverscan))

theorem foldl_fixed {α β : Type} (f : α → β → α) (a : α) :
    ∀ (l : List β), (∀ b ∈ l, f a b = a) → l.foldl f a = a := by
  intro l
  induction l with
  | nil =>
    intro h
    rfl
  | cons b rest ih =>
    intro h
    rw [List.foldl_cons, h b (List.mem_cons_self b rest)]
    exact ih (fun b' hb' => h b' (List.mem_cons_of_mem b hb'))

theorem ensure_fixed {view : Viewport} {st : MasonryState}
    (hcov : ∀ i ∈ rangeList (getRequiredColumnRange st.cfg view).1
      (getRequiredColumnRange st.cfg view).2, (findColumn st i).isSome = true) :
    ensureColumnsCoverViewport st view = st := by
  unfold ensureColumnsCoverViewport
  exact foldl_fixed getOrCreateColumn st _
    (fun i hi => getOrCreateColumn_found (hcov i hi))

theorem sideStep_fixed {view : Viewport} {st : MasonryState}
    {gen : List MasonryImage} {m : ℤ}
    (hsome : (findColumn st m).isSome = true)
    (hdeg : (findColumn st m).getD [] = [] →
      view.y + view.height + st.cfg.verticalOverscan
        ≤ view.y - st.cfg.verticalOverscan) :
    sideStep view (st, gen) m = (st, gen) := by
  have heq : getOrCreateColumn ((st, gen) : MasonryState × List MasonryImage).1 m
      = st := getOrCreateColumn_found hsome
  by_cases hne3 : (findColumn st m).getD [] = []
  · have hemp : (findColumn (getOrCreateColumn
        ((st, gen) : MasonryState × List MasonryImage).1 m) m).getD [] = [] := by
      rw [heq]
      exact hne3
    rw [sideStep_eq_of_empty hemp, heq,
      populateNewColumn_eq_of_empty hne3,
      populateLoop_noop (by have := hdeg hne3; omega)]
  · have hemp : (findColumn (getOrCreateColumn
        ((st, gen) : MasonryState × List MasonryImage).1 m) m).getD [] ≠ [] := by
      rw [heq]
      exact hne3
    rw [sideStep_eq_of_nonempty hemp, heq]

theorem getItems_of_flush (view : Viewport) (st : MasonryState)
    (gen : List MasonryImage) (hf : Flush view st) :
    getItems view st gen = (st, gen, st.items) := by
  obtain ⟨h1, h2, h3, h4, h5, h6, h7⟩ := hf
  have hens : ensureInitialized view st gen = (st, gen) := by
    unfold ensureInitialized
    by_cases he : st.columns.isEmpty = true
    · rw [if_pos he]
      have hrl := h1 (by simpa using he)
      have hcv : ensureColumnsCoverViewport st view = st := by
        show List.foldl getOrCreateColumn st
          (rangeList (getRequiredColumnRange st.cfg view).1
            (getRequiredColumnRange st.cfg view).2) = st
        rw [hrl]
        rfl
      calc initLayout view st gen
          = (rangeList
              (getRequiredColumnRange (ensureColumnsCoverViewport st view).cfg view).1
              (getRequiredColumnRange (ensureColumnsCoverViewport st view).cfg
                view).2).foldl
            (fun acc columnIndex => fillColumnDownward columnIndex
              (view.y + view.height
                + (ensureColumnsCoverViewport st view).cfg.verticalOverscan)
              (getOrCreateColumn acc.1 columnIndex) acc.2)
            (ensureColumnsCoverViewport st view, gen) := rfl
        _ = (st, gen) := by
            rw [hcv, hrl]
            rfl
    · rw [if_neg he]
  have hcov : ensureColumnsCoverViewport st view = st := ensure_fixed h2
  have htop : extendColumnsOnTop view st gen = (st, gen) := by
    rw [extendColumnsOnTop_eq]
    refine foldl_fixed _ (st, gen) _ ?_
    intro ci hci
    obtain ⟨hrange, hsome⟩ := mem_getColumnIndexesInRange.mp hci
    rcases hfc : findColumn st ci with _ | (_ | ⟨s₀, tl⟩)
    · exact @topStep_eq_of_none (view.y - st.cfg.verticalOverscan) (st, gen) ci hfc
    · exact @topStep_eq_of_empty (view.y - st.cfg.verticalOverscan) (st, gen) ci hfc
    · rw [@topStep_eq_of_cons (view.y - st.cfg.verticalOverscan) (st, gen) ci s₀ tl hfc]
      have hhd : ((findColumn st ci).getD []).head? = some s₀ := by
        rw [hfc]
        rfl
      exact extendColumnUpward_noop hhd
        ((h5 ci hrange).1 s₀ (by rw [hhd]; exact Option.mem_def.mpr rfl)) gen
  have hbot : extendColumnsOnBottom view st gen = (st, gen) := by
    rw [extendColumnsOnBottom_eq]
    refine foldl_fixed _ (st, gen) _ ?_
    intro ci hci
    obtain ⟨hrange, hsome⟩ := mem_getColumnIndexesInRange.mp hci
    rcases hfc : findColumn st ci with _ | (_ | ⟨s₀, tl⟩)
    · exact @botStep_eq_of_none (view.y + view.height + st.cfg.verticalOverscan)
        (st, gen) ci hfc
    · exact @botStep_eq_of_empty (view.y + view.height + st.cfg.verticalOverscan)
        (st, gen) ci hfc
    · rw [@botStep_eq_of_cons (view.y + view.height + st.cfg.verticalOverscan)
        (st, gen) ci s₀ tl hfc]
      rcases h5 ci hrange with ⟨_, hbf | hbf⟩
      · rw [hfc] at hbf
        cases hbf
      · exact extendColumnDownward_noop hbf gen
  have hright : extendColumnsOnRight view st gen = (st, gen) := by
    rcases h3 with hmax | ⟨m, hmax, hle⟩
    · exact extendColumnsOnRight_none hmax view gen
    · rw [extendColumnsOnRight_some hmax view gen]
      rcases lt_or_eq_of_le hle with hlt | heq
      · rw [rangeList_nil hlt]
        rfl
      · subst heq
        rw [rangeList_single, List.foldl_cons,
          sideStep_fixed (h6 hmax).1 (h6 hmax).2]
        rfl
  have hleft : extendColumnsOnLeft view st gen = (st, gen) := by
    rcases h4 with hmin | ⟨m, hmin, hle⟩
    · exact extendColumnsOnLeft_none hmin view gen
    · rw [extendColumnsOnLeft_some hmin view gen]
      rcases lt_or_eq_of_le hle with hlt | heq
      · rw [rangeList_nil hlt]
        rfl
      · subst heq
        rw [rangeList_single, List.reverse_singleton, List.foldl_cons,
          sideStep_fixed (h7 hmin).1 (h7 hmin).2]
        rfl
  have hpb : processBorders view st gen = (st, gen) := by
    calc processBorders view st gen
        = extendColumnsOnBottom view
            (extendColumnsOnLeft view
              (extendColumnsOnRight view
                (extendColumnsOnTop view (ensureColumnsCoverViewport st view) gen).1
                (extendColumnsOnTop view (ensureColumnsCoverViewport st view) gen).2).1
              (extendColumnsOnRight view
                (extendColumnsOnTop view (ensureColumnsCoverViewport st view) gen).1
                (extendColumnsOnTop view (ensureColumnsCoverViewport st view)
                  gen).2).2).1
            (extendColumnsOnLeft view
              (extendColumnsOnRight view
                (extendColumnsOnTop view (ensureColumnsCoverViewport st view) gen).1
                (extendColumnsOnTop view (ensureColumnsCoverViewport st view) gen).2).1
              (extendColumnsOnRight view
                (extendColumnsOnTop view (ensureColumnsCoverViewport st view) gen).1
                (extendColumnsOnTop view (ensureColumnsCoverViewport st view)
                  gen).2).2).2 := rfl
      _ = (st, gen) := by
          rw [hcov, htop]
          show extendColumnsOnBottom view
              (extendColumnsOnLeft view (extendColumnsOnRight view st gen).1
                (extendColumnsOnRight view st gen).2).1
              (extendColumnsOnLeft view (extendColumnsOnRight view st gen).1
                (extendColumnsOnRight view st gen).2).2 = (st, gen)
          rw [hright]
          show extendColumnsOnBottom view (extendColumnsOnLeft view st gen).1
              (extendColumnsOnLeft view st gen).2 = (st, gen)
          rw [hleft]
          show extendColumnsOnBottom view st gen = (st, gen)
          exact hbot
  calc getItems view st gen
      = ((processBorders view (ensureInitialized view st gen).1
            (ensureInitialized view st gen).2).1,
          (processBorders view (ensureInitialized view st gen).1
            (ensureInitialized view st gen).2).2,
          (processBorders view (ensureInitialized view st gen).1
            (ensureInitialized view st gen).2).1.items) := rfl
    _ = (st, gen, st.items) := by
        rw [hens]
        show ((processBorders view st gen).1, (processBorders view st gen).2,
          (processBorders view st gen).1.items) = (st, gen, st.items)
        rw [hpb]


/-! ### Phase-level facts for the flushness argument -/

theorem botStep_nonempty_mono (borderBottom : ℤ)
    (acc : MasonryState × List MasonryImage) (ci : ℤ) {i : ℤ} (hacc : StInv acc.1)
    (h : (findColumn acc.1 i).getD [] ≠ []) :
    (findColumn (botStep borderBottom acc ci).1 i).getD [] ≠ [] := by
  rcases hf : findColumn acc.1 ci with _ | (_ | ⟨s₀, tl⟩)
  · rw [botStep_eq_of_none hf]
    exact h
  · rw [botStep_eq_of_empty hf]
    exact h
  · rw [botStep_eq_of_cons hf]
    by_cases hii : i = ci
    · subst hii
      obtain ⟨t, ht⟩ := extendColumnDownward_selfCol i borderBottom acc.2 acc.1
        (s₀ :: tl) hacc hf
      rw [ht]
      simp
    · rw [extendColumnDownward_otherCol ci borderBottom hii acc.2 acc.1 hacc]
      exact h

theorem botFold_nonempty (borderBottom : ℤ) (l : List ℤ)
    (acc : MasonryState × List MasonryImage) {i : ℤ} (hacc : StInv acc.1)
    (h : (findColumn acc.1 i).getD [] ≠ []) :
    (findColumn ((l.foldl (botStep borderBottom) acc)).1 i).getD [] ≠ [] :=
  foldl_pres (botStep borderBottom) (fun st => (findColumn st i).getD [] ≠ [])
    (fun a b ha => (botStep_inv borderBottom a b ha).1)
    (fun a b ha hp => botStep_nonempty_mono borderBottom a b ha hp) l acc hacc h

theorem extendColumnsOnTop_establish {view : Viewport} {st : MasonryState}
    {gen : List MasonryImage} (hinv : StInv st)
    (hne : (extendColumnsOnTop view st gen).2 ≠ []) :
    ∀ i ∈ getColumnIndexesInRange st view,
      TopFlushAt (view.y - st.cfg.verticalOverscan)
        (extendColumnsOnTop view st gen).1 i := by
  rw [extendColumnsOnTop_eq] at hne ⊢
  exact topFold_establish _ _ (st, gen) hinv hne

theorem extendColumnsOnBottom_establish {view : Viewport} {st : MasonryState}
    {gen : List MasonryImage} (hinv : StInv st)
    (hne : (extendColumnsOnBottom view st gen).2 ≠ []) :
    ∀ i ∈ getColumnIndexesInRange st view,
      BotFlushAt (view.y + view.height + st.cfg.verticalOverscan)
        (extendColumnsOnBottom view st gen).1 i := by
  rw [extendColumnsOnBottom_eq] at hne ⊢
  exact botFold_establish _ _ (st, gen) hinv hne

theorem extendColumnsOnRight_TF {view : Viewport} {st : MasonryState}
    {gen : List MasonryImage} {borderTop : ℤ} (hinv : StInv st)
    (hbt : borderTop = view.y - st.cfg.verticalOverscan) {i : ℤ}
    (h : TopFlushAt borderTop st i) :
    TopFlushAt borderTop (extendColumnsOnRight view st gen).1 i := by
  rcases hmax : st.colMax with _ | m
  · rw [extendColumnsOnRight_none hmax]
    exact h
  · rw [extendColumnsOnRight_some hmax]
    exact sideFold_TF view borderTop _ (st, gen) hinv hbt h

theorem extendColumnsOnLeft_TF {view : Viewport} {st : MasonryState}
    {gen : List MasonryImage} {borderTop : ℤ} (hinv : StInv st)
    (hbt : borderTop = view.y - st.cfg.verticalOverscan) {i : ℤ}
    (h : TopFlushAt borderTop st i) :
    TopFlushAt borderTop (extendColumnsOnLeft view st gen).1 i := by
  rcases hmin : st.colMin with _ | m
  · rw [extendColumnsOnLeft_none hmin]
    exact h
  · rw [extendColumnsOnLeft_some hmin]
    exact sideFold_TF view borderTop _ (st, gen) hinv hbt h

theorem extendColumnsOnBottom_TF {view : Viewport} {st : MasonryState}
    {gen : List MasonryImage} {borderTop : ℤ} (hinv : StInv st) {i : ℤ}
    (h : TopFlushAt borderTop st i) :
    TopFlushAt borderTop (extendColumnsOnBottom view st gen).1 i := by
  rw [extendColumnsOnBottom_eq]
  exact botFold_TF _ borderTop _ (st, gen) hinv h

theorem extendColumnsOnTop_isSome {view : Viewport} {st : MasonryState}
    {gen : List MasonryImage} (hinv : StInv st) {i : ℤ}
    (h : (findColumn st i).isSome = true) :
    (findColumn (extendColumnsOnTop view st gen).1 i).isSome = true := by
  rw [extendColumnsOnTop_eq]
  exact topFold_isSome _ _ (st, gen) hinv h

theorem extendColumnsOnRight_isSome {view : Viewport} {st : MasonryState}
    {gen : List MasonryImage} (hinv : StInv st) {i : ℤ}
    (h : (findColumn st i).isSome = true) :
    (findColumn (extendColumnsOnRight view st gen).1 i).isSome = true := by
  rcases hmax : st.colMax with _ | m
  · rw [extendColumnsOnRight_none hmax]
    exact h
  · rw [extendColumnsOnRight_some hmax]
    exact sideFold_isSome view _ (st, gen) hinv h

theorem extendColumnsOnLeft_isSome {view : Viewport} {st : MasonryState}
    {gen : List MasonryImage} (hinv : StInv st) {i : ℤ}
    (h : (findColumn st i).isSome = true) :
    (findColumn (extendColumnsOnLeft view st gen).1 i).isSome = true := by
  rcases hmin : st.colMin with _ | m
  · rw [extendColumnsOnLeft_none hmin]
    exact h
  · rw [extendColumnsOnLeft_some hmin]
    exact sideFold_isSome view _ (st, gen) hinv h

theorem extendColumnsOnBottom_isSome {view : Viewport} {st : MasonryState}
    {gen : List MasonryImage} (hinv : StInv st) {i : ℤ}
    (h : (findColumn st i).isSome = true) :
    (findColumn (extendColumnsOnBottom view st gen).1 i).isSome = true := by
  rw [extendColumnsOnBottom_eq]
  exact botFold_isSome _ _ (st, gen) hinv h

theorem extendColumnsOnLeft_nonempty {view : Viewport} {st : MasonryState}
    {gen : List MasonryImage} (hinv : StInv st) {i : ℤ}
    (h : (findColumn st i).getD [] ≠ []) :
    (findColumn (extendColumnsOnLeft view st gen).1 i).getD [] ≠ [] := by
  rcases hmin : st.colMin with _ | m
  · rw [extendColumnsOnLeft_none hmin]
    exact h
  · rw [extendColumnsOnLeft_some hmin]
    exact sideFold_nonempty view _ (st, gen) hinv h

theorem extendColumnsOnBottom_nonempty {view : Viewport} {st : MasonryState}
    {gen : List MasonryImage} (hinv : StInv st) {i : ℤ}
    (h : (findColumn st i).getD [] ≠ []) :
    (findColumn (extendColumnsOnBottom view st gen).1 i).getD [] ≠ [] := by
  rw [extendColumnsOnBottom_eq]
  exact botFold_nonempty _ _ (st, gen) hinv h

theorem extendColumnsOnTop_bounds {view : Viewport} {st : MasonryState}
    {gen : List MasonryImage} (hinv : StInv st) :
    (extendColumnsOnTop view st gen).1.colMin = st.colMin ∧
      (extendColumnsOnTop view st gen).1.colMax = st.colMax := by
  rw [extendColumnsOnTop_eq]
  exact topFold_bounds _ _ (st, gen) hinv

theorem extendColumnsOnBottom_bounds {view : Viewport} {st : MasonryState}
    {gen : List MasonryImage} (hinv : StInv st) :
    (extendColumnsOnBottom view st gen).1.colMin = st.colMin ∧
      (extendColumnsOnBottom view st gen).1.colMax = st.colMax := by
  rw [extendColumnsOnBottom_eq]
  exact botFold_bounds _ _ (st, gen) hinv

theorem extendColumnsOnRight_colMax {view : Viewport} {st : MasonryState}
    {gen : List MasonryImage} (hinv : StInv st) (hbnd : BndInv st) :
    (st.colMax = none → (extendColumnsOnRight view st gen).1.colMax = none) ∧
      ∀ m₁, st.colMax = some m₁ →
        ∃ m', (extendColumnsOnRight view st gen).1.colMax = some m' ∧ m₁ ≤ m' ∧
          (getRequiredColumnRange st.cfg view).2 ≤ m' := by
  constructor
  · intro hmax
    rw [extendColumnsOnRight_none hmax]
    exact hmax
  · intro m₁ hmax
    rw [extendColumnsOnRight_some hmax]
    rcases le_or_lt m₁ (getRequiredColumnRange st.cfg view).2 with hle | hlt
    · obtain ⟨hall, hmono⟩ := sideFold_colMax view
        (rangeList m₁ (getRequiredColumnRange st.cfg view).2) (st, gen) hinv hbnd
      obtain ⟨m', hm', hrle⟩ := hall (getRequiredColumnRange st.cfg view).2
        (mem_rangeList.mpr ⟨hle, le_refl _⟩)
      obtain ⟨m'', hm'', hle''⟩ := hmono m₁ hmax
      have heq : m'' = m' := by
        rw [hm'] at hm''
        exact (Option.some.inj hm'').symm
      exact ⟨m', hm', heq ▸ hle'', hrle⟩
    · rw [rangeList_nil hlt]
      exact ⟨m₁, hmax, le_refl m₁, le_of_lt hlt⟩

theorem extendColumnsOnRight_colMin {view : Viewport} {st : MasonryState}
    {gen : List MasonryImage} (hinv : StInv st) (hbnd : BndInv st) :
    (st.colMin = none → (extendColumnsOnRight view st gen).1.colMin = none) ∧
      ∀ n, st.colMin = some n →
        ∃ n', (extendColumnsOnRight view st gen).1.colMin = some n' ∧ n' ≤ n := by
  constructor
  · intro hmin
    have hmax : st.colMax = none := hbnd.1.mpr hmin
    rw [extendColumnsOnRight_none hmax]
    exact hmin
  · intro n hmin
    rcases hmax : st.colMax with _ | m₁
    · rw [extendColumnsOnRight_none hmax]
      exact ⟨n, hmin, le_refl n⟩
    · rw [extendColumnsOnRight_some hmax]
      exact (sideFold_colMin view _ (st, gen) hinv hbnd).2 n hmin

theorem extendColumnsOnLeft_colMin {view : Viewport} {st : MasonryState}
    {gen : List MasonryImage} (hinv : StInv st) (hbnd : BndInv st) :
    (st.colMin = none → (extendColumnsOnLeft view st gen).1.colMin = none) ∧
      ∀ n, st.colMin = some n →
        ∃ n', (extendColumnsOnLeft view st gen).1.colMin = some n' ∧ n' ≤ n ∧
          n' ≤ (getRequiredColumnRange st.cfg view).1 := by
  constructor
  · intro hmin
    rw [extendColumnsOnLeft_none hmin]
    exact hmin
  · intro n hmin
    rw [extendColumnsOnLeft_some hmin]
    rcases le_or_lt (getRequiredColumnRange st.cfg view).1 n with hle | hlt
    · obtain ⟨hall, hmono⟩ := sideFold_colMin view
        ((rangeList (getRequiredColumnRange st.cfg view).1 n).reverse) (st, gen)
        hinv hbnd
      obtain ⟨n', hn', hrle⟩ := hall (getRequiredColumnRange st.cfg view).1
        (List.mem_reverse.mpr (mem_rangeList.mpr ⟨le_refl _, hle⟩))
      obtain ⟨n'', hn'', hle''⟩ := hmono n hmin
      have heq : n'' = n' := by
        rw [hn'] at hn''
        exact (Option.some.inj hn'').symm
      exact ⟨n', hn', heq ▸ hle'', hrle⟩
    · rw [rangeList_nil hlt]
      show ∃ n', (List.foldl (sideStep view) (st, gen) [].reverse).1.colMin
        = some n' ∧ n' ≤ n ∧ n' ≤ (getRequiredColumnRange st.cfg view).1
      exact ⟨n, hmin, le_refl n, le_of_lt hlt⟩

theorem extendColumnsOnLeft_colMax {view : Viewport} {st : MasonryState}
    {gen : List MasonryImage} (hinv : StInv st) (hbnd : BndInv st) :
    (st.colMin = none → (extendColumnsOnLeft view st gen).1.colMax = st.colMax) ∧
      ∀ m, st.colMax = some m →
        ∃ m', (extendColumnsOnLeft view st gen).1.colMax = some m' ∧ m ≤ m' := by
  constructor
  · intro hmin
    rw [extendColumnsOnLeft_none hmin]
  · intro m hmax
    rcases hmin : st.colMin with _ | n
    · rw [extendColumnsOnLeft_none hmin]
      exact ⟨m, hmax, le_refl m⟩
    · rw [extendColumnsOnLeft_some hmin]
      exact (sideFold_colMax view _ (st, gen) hinv hbnd).2 m hmax

theorem extendColumnsOnRight_boundary {view : Viewport} {st : MasonryState}
    {gen : List MasonryImage} {m₁ : ℤ} (hinv : StInv st)
    (hmax : st.colMax = some m₁)
    (hm : m₁ ≤ (getRequiredColumnRange st.cfg view).2)
    (hne : (extendColumnsOnRight view st gen).2 ≠ []) :
    (findColumn (extendColumnsOnRight view st gen).1
        (getRequiredColumnRange st.cfg view).2).isSome = true ∧
      ((findColumn (extendColumnsOnRight view st gen).1
          (getRequiredColumnRange st.cfg view).2).getD [] = [] →
        view.y + view.height + st.cfg.verticalOverscan
          ≤ view.y - st.cfg.verticalOverscan) := by
  rw [extendColumnsOnRight_some hmax] at hne ⊢
  exact sideFold_boundary view (view.y - st.cfg.verticalOverscan)
    (view.y + view.height + st.cfg.verticalOverscan) _ (st, gen) hinv rfl rfl hne _
    (mem_rangeList.mpr ⟨hm, le_refl _⟩)

theorem extendColumnsOnLeft_boundary {view : Viewport} {st : MasonryState}
    {gen : List MasonryImage} {m₂ : ℤ} (hinv : StInv st)
    (hmin : st.colMin = some m₂)
    (hm : (getRequiredColumnRange st.cfg view).1 ≤ m₂)
    (hne : (extendColumnsOnLeft view st gen).2 ≠ []) :
    (findColumn (extendColumnsOnLeft view st gen).1
        (getRequiredColumnRange st.cfg view).1).isSome = true ∧
      ((findColumn (extendColumnsOnLeft view st gen).1
          (getRequiredColumnRange st.cfg view).1).getD [] = [] →
        view.y + view.height + st.cfg.verticalOverscan
          ≤ view.y - st.cfg.verticalOverscan) := by
  rw [extendColumnsOnLeft_some hmin] at hne ⊢
  exact sideFold_boundary view (view.y - st.cfg.verticalOverscan)
    (view.y + view.height + st.cfg.verticalOverscan) _ (st, gen) hinv rfl rfl hne _
    (List.mem_reverse.mpr (mem_rangeList.mpr ⟨le_refl _, hm⟩))


/-- After a `getItems` call that leaves the stream non-empty (so every
border loop met its goal rather than running dry), the resulting state is
flush for that viewport. -/
theorem flush_after_getItems (view : Viewport) (st₀ : MasonryState)
    (gen₀ : List MasonryImage) (hinv : StInv st₀) (hbnd : BndInv st₀)
    (hne : (getItems view st₀ gen₀).2.1 ≠ []) :
    Flush view (getItems view st₀ gen₀).1 := by
  set stA := (ensureInitialized view st₀ gen₀).1 with hstA
  set gA := (ensureInitialized view st₀ gen₀).2 with hgA
  set stE := ensureColumnsCoverViewport stA view with hstE
  set rT := extendColumnsOnTop view stE gA with hrTd
  set rR := extendColumnsOnRight view rT.1 rT.2 with hrRd
  set rL := extendColumnsOnLeft view rR.1 rR.2 with hrLd
  set rB := extendColumnsOnBottom view rL.1 rL.2 with hrBd
  have hfinal : (getItems view st₀ gen₀).1 = rB.1 := rfl
  obtain ⟨hinvA, hevA⟩ := stInv_ensureInitialized view st₀ gen₀ hinv
  have hbndA : BndInv stA := hevA.2.2 hbnd
  have hcfgA : stA.cfg = st₀.cfg := hevA.1
  obtain ⟨hinvE, hevE⟩ := stInv_ensureColumnsCoverViewport stA view hinvA
  have hbndE : BndInv stE := hevE.2.2 hbndA
  have hcfgE : stE.cfg = st₀.cfg := hevE.1.trans hcfgA
  obtain ⟨hinvT, hevT⟩ := stInv_extendColumnsOnTop view stE gA hinvE
  have hbndT : BndInv rT.1 := hevT.2.2 hbndE
  have hcfgT : rT.1.cfg = st₀.cfg := hevT.1.trans hcfgE
  obtain ⟨hinvR, hevR⟩ := stInv_extendColumnsOnRight view rT.1 rT.2 hinvT
  have hbndR : BndInv rR.1 := hevR.2.2 hbndT
  have hcfgR : rR.1.cfg = st₀.cfg := hevR.1.trans hcfgT
  obtain ⟨hinvL, hevL⟩ := stInv_extendColumnsOnLeft view rR.1 rR.2 hinvR
  have hbndL : BndInv rL.1 := hevL.2.2 hbndR
  have hcfgL : rL.1.cfg = st₀.cfg := hevL.1.trans hcfgR
  obtain ⟨hinvB, hevB⟩ := stInv_extendColumnsOnBottom view rL.1 rL.2 hinvL
  have hcfgB : rB.1.cfg = st₀.cfg := hevB.1.trans hcfgL
  have hgBne : rB.2 ≠ [] := hne
  have hgLne : rL.2 ≠ [] := fun h0 => hgBne (suffix_of_nil (by
    rw [← h0]
    exact extendColumnsOnBottom_suffix view rL.1 rL.2))
  have hgRne : rR.2 ≠ [] := fun h0 => hgLne (suffix_of_nil (by
    rw [← h0]
    exact extendColumnsOnLeft_suffix view rR.1 rR.2))
  have hgTne : rT.2 ≠ [] := fun h0 => hgRne (suffix_of_nil (by
    rw [← h0]
    exact extendColumnsOnRight_suffix view rT.1 rT.2))
  have hcovE : ∀ i ∈ rangeList (getRequiredColumnRange st₀.cfg view).1
      (getRequiredColumnRange st₀.cfg view).2, (findColumn stE i).isSome = true := by
    intro i hi
    have hmem : i ∈ rangeList (getRequiredColumnRange stA.cfg view).1
        (getRequiredColumnRange stA.cfg view).2 := by
      rw [hcfgA]
      exact hi
    exact foldl_getOrCreate_cover _ stA i hmem
  have hcovT : ∀ i ∈ rangeList (getRequiredColumnRange st₀.cfg view).1
      (getRequiredColumnRange st₀.cfg view).2, (findColumn rT.1 i).isSome = true :=
    fun i hi => extendColumnsOnTop_isSome hinvE (hcovE i hi)
  have hcovR : ∀ i ∈ rangeList (getRequiredColumnRange st₀.cfg view).1
      (getRequiredColumnRange st₀.cfg view).2, (findColumn rR.1 i).isSome = true :=
    fun i hi => extendColumnsOnRight_isSome hinvT (hcovT i hi)
  have hcovL : ∀ i ∈ rangeList (getRequiredColumnRange st₀.cfg view).1
      (getRequiredColumnRange st₀.cfg view).2, (findColumn rL.1 i).isSome = true :=
    fun i hi => extendColumnsOnLeft_isSome hinvR (hcovR i hi)
  have hcovB : ∀ i ∈ rangeList (getRequiredColumnRange st₀.cfg view).1
      (getRequiredColumnRange st₀.cfg view).2, (findColumn rB.1 i).isSome = true :=
    fun i hi => extendColumnsOnBottom_isSome hinvL (hcovL i hi)
  have hTopT : ∀ i ∈ rangeList (getRequiredColumnRange st₀.cfg view).1
      (getRequiredColumnRange st₀.cfg view).2,
      TopFlushAt (view.y - st₀.cfg.verticalOverscan) rT.1 i := by
    intro i hi
    have hlist : i ∈ getColumnIndexesInRange stE view := by
      refine mem_getColumnIndexesInRange.mpr ⟨?_, hcovE i hi⟩
      rw [hcfgE]
      exact hi
    have h0 := extendColumnsOnTop_establish hinvE hgTne i hlist
    rw [hcfgE] at h0
    exact h0
  have hTopR : ∀ i ∈ rangeList (getRequiredColumnRange st₀.cfg view).1
      (getRequiredColumnRange st₀.cfg view).2,
      TopFlushAt (view.y - st₀.cfg.verticalOverscan) rR.1 i :=
    fun i hi => extendColumnsOnRight_TF hinvT (by rw [hcfgT]) (hTopT i hi)
  have hTopL : ∀ i ∈ rangeList (getRequiredColumnRange st₀.cfg view).1
      (getRequiredColumnRange st₀.cfg view).2,
      TopFlushAt (view.y - st₀.cfg.verticalOverscan) rL.1 i :=
    fun i hi => extendColumnsOnLeft_TF hinvR (by rw [hcfgR]) (hTopR i hi)
  have hTopB : ∀ i ∈ rangeList (getRequiredColumnRange st₀.cfg view).1
      (getRequiredColumnRange st₀.cfg view).2,
      TopFlushAt (view.y - st₀.cfg.verticalOverscan) rB.1 i :=
    fun i hi => extendColumnsOnBottom_TF hinvL (hTopL i hi)
  have hBotB : ∀ i ∈ rangeList (getRequiredColumnRange st₀.cfg view).1
      (getRequiredColumnRange st₀.cfg view).2,
      BotFlushAt (view.y + view.height + st₀.cfg.verticalOverscan) rB.1 i := by
    intro i hi
    have hlist : i ∈ getColumnIndexesInRange rL.1 view := by
      refine mem_getColumnIndexesInRange.mpr ⟨?_, hcovL i hi⟩
      rw [hcfgL]
      exact hi
    have h0 := extendColumnsOnBottom_establish hinvL hgBne i hlist
    rw [hcfgL] at h0
    exact h0
  obtain ⟨hminB2x, hmaxB2x⟩ := extendColumnsOnBottom_bounds hinvL
  have hminB2 : rB.1.colMin = rL.1.colMin := hminB2x
  have hmaxB2 : rB.1.colMax = rL.1.colMax := hmaxB2x
  have hc1 : rB.1.columns = [] → rangeList (getRequiredColumnRange rB.1.cfg view).1
      (getRequiredColumnRange rB.1.cfg view).2 = [] := by
    intro hcols
    rw [hcfgB]
    by_cases hlt : (getRequiredColumnRange st₀.cfg view).2
        < (getRequiredColumnRange st₀.cfg view).1
    · exact rangeList_nil hlt
    · exfalso
      have hmem : (getRequiredColumnRange st₀.cfg view).1
          ∈ rangeList (getRequiredColumnRange st₀.cfg view).1
            (getRequiredColumnRange st₀.cfg view).2 :=
        mem_rangeList.mpr ⟨le_refl _, le_of_not_lt hlt⟩
      exact columns_ne_nil_of_isSome (hcovB _ hmem) hcols
  have hc2 : ∀ i ∈ rangeList (getRequiredColumnRange rB.1.cfg view).1
      (getRequiredColumnRange rB.1.cfg view).2, (findColumn rB.1 i).isSome = true := by
    intro i hi
    rw [hcfgB] at hi
    exact hcovB i hi
  have hc3 : rB.1.colMax = none ∨ ∃ m, rB.1.colMax = some m ∧
      (getRequiredColumnRange rB.1.cfg view).2 ≤ m := by
    rcases hmaxTv : rT.1.colMax with _ | m₁
    · left
      have hRid : rR = (rT.1, rT.2) := extendColumnsOnRight_none hmaxTv view rT.2
      have hminRn : rR.1.colMin = none := by
        rw [hRid]
        exact hbndT.1.mp hmaxTv
      have hLid : rL = (rR.1, rR.2) := extendColumnsOnLeft_none hminRn view rR.2
      rw [hmaxB2, hLid]
      show rR.1.colMax = none
      rw [hRid]
      exact hmaxTv
    · right
      obtain ⟨m', hm', hle₁, hlerhi⟩ :=
        (extendColumnsOnRight_colMax hinvT hbndT).2 m₁ hmaxTv
      rw [hcfgT] at hlerhi
      obtain ⟨m'', hm'', hle₂⟩ := (extendColumnsOnLeft_colMax hinvR hbndR).2 m' hm'
      refine ⟨m'', ?_, ?_⟩
      · rw [hmaxB2]
        exact hm''
      · rw [hcfgB]
        omega
  have hc4 : rB.1.colMin = none ∨ ∃ m, rB.1.colMin = some m ∧
      m ≤ (getRequiredColumnRange rB.1.cfg view).1 := by
    rcases hminRv : rR.1.colMin with _ | n₁
    · left
      have hLid : rL = (rR.1, rR.2) := extendColumnsOnLeft_none hminRv view rR.2
      rw [hminB2, hLid]
      exact hminRv
    · right
      obtain ⟨n', hn', hlen, hlerlo⟩ :=
        (extendColumnsOnLeft_colMin hinvR hbndR).2 n₁ hminRv
      rw [hcfgR] at hlerlo
      refine ⟨n', ?_, ?_⟩
      · rw [hminB2]
        exact hn'
      · rw [hcfgB]
        exact hlerlo
  have hc5 : ∀ i ∈ rangeList (getRequiredColumnRange rB.1.cfg view).1
      (getRequiredColumnRange rB.1.cfg view).2,
      TopFlushAt (view.y - rB.1.cfg.verticalOverscan) rB.1 i ∧
        BotFlushAt (view.y + view.height + rB.1.cfg.verticalOverscan) rB.1 i := by
    intro i hi
    rw [hcfgB] at hi ⊢
    exact ⟨hTopB i hi, hBotB i hi⟩
  have hc6 : rB.1.colMax = some (getRequiredColumnRange rB.1.cfg view).2 →
      (findColumn rB.1 (getRequiredColumnRange rB.1.cfg view).2).isSome = true ∧
        ((findColumn rB.1 (getRequiredColumnRange rB.1.cfg view).2).getD [] = [] →
          view.y + view.height + rB.1.cfg.verticalOverscan
            ≤ view.y - rB.1.cfg.verticalOverscan) := by
    rw [hcfgB]
    intro h6a
    rcases hmaxTv : rT.1.colMax with _ | m₁
    · exfalso
      have hRid : rR = (rT.1, rT.2) := extendColumnsOnRight_none hmaxTv view rT.2
      have hminRn : rR.1.colMin = none := by
        rw [hRid]
        exact hbndT.1.mp hmaxTv
      have hLid : rL = (rR.1, rR.2) := extendColumnsOnLeft_none hminRn view rR.2
      have h1 : rB.1.colMax = none := by
        rw [hmaxB2, hLid]
        show rR.1.colMax = none
        rw [hRid]
        exact hmaxTv
      rw [h1] at h6a
      cases h6a
    · rcases le_or_lt m₁ (getRequiredColumnRange st₀.cfg view).2 with hle | hlt
      · have hbdy := extendColumnsOnRight_boundary hinvT hmaxTv
          (by rw [hcfgT]; exact hle) hgRne
        rw [hcfgT] at hbdy
        constructor
        · exact extendColumnsOnBottom_isSome hinvL
            (extendColumnsOnLeft_isSome hinvR hbdy.1)
        · intro hempty
          by_cases hR : (findColumn rR.1
              (getRequiredColumnRange st₀.cfg view).2).getD [] = []
          · exact hbdy.2 hR
          · exact absurd hempty (extendColumnsOnBottom_nonempty hinvL
              (extendColumnsOnLeft_nonempty hinvR hR))
      · exfalso
        obtain ⟨m', hm', hle₁, hle₃⟩ :=
          (extendColumnsOnRight_colMax hinvT hbndT).2 m₁ hmaxTv
        obtain ⟨m'', hm'', hle₂⟩ := (extendColumnsOnLeft_colMax hinvR hbndR).2 m' hm'
        have hB : rB.1.colMax = some m'' := by
          rw [hmaxB2]
          exact hm''
        rw [h6a] at hB
        have h9 := Option.some.inj hB
        omega
  have hc7 : rB.1.colMin = some (getRequiredColumnRange rB.1.cfg view).1 →
      (findColumn rB.1 (getRequiredColumnRange rB.1.cfg view).1).isSome = true ∧
        ((findColumn rB.1 (getRequiredColumnRange rB.1.cfg view).1).getD [] = [] →
          view.y + view.height + rB.1.cfg.verticalOverscan
            ≤ view.y - rB.1.cfg.verticalOverscan) := by
    rw [hcfgB]
    intro h7a
    rcases hminRv : rR.1.colMin with _ | n₁
    · exfalso
      have hLid : rL = (rR.1, rR.2) := extendColumnsOnLeft_none hminRv view rR.2
      have h1 : rB.1.colMin = none := by
        rw [hminB2, hLid]
        exact hminRv
      rw [h1] at h7a
      cases h7a
    · rcases le_or_lt (getRequiredColumnRange st₀.cfg view).1 n₁ with hle | hlt
      · have hbdy := extendColumnsOnLeft_boundary hinvR hminRv
          (by rw [hcfgR]; exact hle) hgLne
        rw [hcfgR] at hbdy
        constructor
        · exact extendColumnsOnBottom_isSome hinvL hbdy.1
        · intro hempty
          by_cases hL : (findColumn rL.1
              (getRequiredColumnRange st₀.cfg view).1).getD [] = []
          · exact hbdy.2 hL
          · exact absurd hempty (extendColumnsOnBottom_nonempty hinvL hL)
      · exfalso
        obtain ⟨n', hn', hle₁, hle₂⟩ :=
          (extendColumnsOnLeft_colMin hinvR hbndR).2 n₁ hminRv
        have hB : rB.1.colMin = some n' := by
          rw [hminB2]
          exact hn'
        rw [h7a] at hB
        have h9 := Option.some.inj hB
        omega
  rw [hfinal]
  exact ⟨hc1, hc2, hc3, hc4, hc5, hc6, hc7⟩


theorem bndInv_mkMasonryLayout (columnWidth columnGap rowGap originX originY : ℤ) :
    BndInv (mkMasonryLayout columnWidth columnGap rowGap originX originY) := by
  constructor
  · constructor
    · intro
      rfl
    · intro
      rfl
  · intro k hk
    simp [mkMasonryLayout] at hk

/-- C3: repeating the same viewport consumes nothing from the generator.
For any engine built by `mkMasonryLayout`, any history of `getItems` calls
(`views`), and any stream, appending a second consecutive call with the
same `view` leaves the remaining stream exactly as it was after the first:
the repeated call issues zero generator requests.  If the first call ended
with a non-empty stream, every border was left flush and the second call is
a complete no-op; if the stream was exhausted, there is nothing left to
consume. -/
theorem getItems_same_view_consumes_nothing
    (columnWidth columnGap rowGap originX originY : ℤ)
    (views : List Viewport) (gen : List MasonryImage) (view : Viewport) :
    (runCalls (mkMasonryLayout columnWidth columnGap rowGap originX originY)
        (views ++ [view, view]) gen).2
      = (runCalls (mkMasonryLayout columnWidth columnGap rowGap originX originY)
          (views ++ [view]) gen).2 := by
  set M := mkMasonryLayout columnWidth columnGap rowGap originX originY with hM
  have hstep : ∀ (vs : List Viewport), runCalls M (vs ++ [view]) gen
      = ((getItems view (runCalls M vs gen).1 (runCalls M vs gen).2).1,
          (getItems view (runCalls M vs gen).1 (runCalls M vs gen).2).2.1) := by
    intro vs
    unfold runCalls
    rw [List.foldl_append]
    rfl
  have hx : views ++ [view, view] = (views ++ [view]) ++ [view] := by
    rw [List.append_assoc]
    rfl
  rw [hx, hstep (views ++ [view]), hstep views]
  show (getItems view
      (getItems view (runCalls M views gen).1 (runCalls M views gen).2).1
      (getItems view (runCalls M views gen).1 (runCalls M views gen).2).2.1).2.1
    = (getItems view (runCalls M views gen).1 (runCalls M views gen).2).2.1
  by_cases hemp : (getItems view (runCalls M views gen).1
      (runCalls M views gen).2).2.1 = []
  · rw [hemp]
    exact suffix_of_nil (getItems_suffix view _ [])
  · obtain ⟨hinv₁, hev₁⟩ := stInv_runCalls M views gen
      (stInv_mkMasonryLayout columnWidth columnGap rowGap originX originY)
    have hbnd₁ : BndInv (runCalls M views gen).1 := hev₁.2.2
      (bndInv_mkMasonryLayout columnWidth columnGap rowGap originX originY)
    have hfl := flush_after_getItems view (runCalls M views gen).1
      (runCalls M views gen).2 hinv₁ hbnd₁ hemp
    rw [getItems_of_flush view _ _ hfl]

/-- A placed 10×10 item at the origin. -/
def c9Item : PlacedImage :=
  { id := none, x := 0, y := 0, width := 10, height := 10, content := 0, columnIndex := 0 }

/-- A one-item state for exercising the upward-extension conjunct. -/
def c9State : MasonryState :=
  { cfg := (mkMasonryLayout 10 0 0 0 0).cfg, items := [c9Item],
    columns := [(0, [0])], colMin := some 0, colMax := some 0 }

/-- An image with `undefined` natural dimensions. -/
def c9Bad : MasonryImage := { id := none, width := none, height := none, content := 7 }

/-- Witness for the amended C9: each conjunct applied at a concrete state
and image. -/
theorem invalid_image_skipped_and_attempts_bounded_witness :
    (computeScaledHeight c9State.cfg c9Bad = none ∧ fillCursor c9State 0 < 20 ∧
      fillColumnDownward 0 20 c9State [c9Bad] = fillColumnDownward 0 20 c9State []) ∧
      (extendColumnDownward 0 20 c9State [c9Bad]
        = extendColumnDownward 0 20 c9State []) ∧
      (extendColumnUpward 0 (-10) c9State [c9Bad]
        = extendColumnUpward 0 (-10) c9State []) ∧
      (populateLoop 0 20 c9State 0 [c9Bad] = populateLoop 0 20 c9State 0 []) ∧
      Display.acquireImage (fun _ => none) [] 0 0
        = .error "getImage() failed to provide a unique image" := by
  obtain ⟨h1, h2, h3, h4, h5⟩ := invalid_image_skipped_and_attempts_bounded
  refine ⟨⟨rfl, by decide, ?_⟩, ?_, ?_, ?_, ?_⟩
  · exact h1 c9State 0 20 c9Bad [] rfl (by decide)
  · exact h2 c9State 0 20 c9Bad [] rfl (by decide)
  · exact h3 c9State 0 (-10) c9Bad [] 0 rfl rfl (by decide)
  · exact h4 c9State 0 20 0 c9Bad [] rfl (by decide)
  · exact h5 (fun _ => none) (fun _ => rfl) [] 0 0

end Masonry


